import Mathlib

/-!
# Verification of the order-book matching engine

Shallow embedding of the limit-order-book engine from `src/Orderbook.cpp`
(together with the headers `Usings.hpp`, `OrderType.hpp`, `LevelInfos.hpp`,
`OrderModify.hpp`, `Orderbook.hpp`) and of the self-contained legacy engine in
`src/orderbook.cpp`.

Modelling conventions:
* `Price` (`std::int32_t`) is modelled as `Int`; the engine only compares
  prices, so 32-bit wrap-around never arises on any path exercised here.
* `Quantity` (`std::uint32_t`) and `OrderId` (`std::uint64_t`) are modelled as
  `Nat`.  Unsigned subtraction is modelled by truncated `Nat` subtraction; on
  every path exercised by the theorems below the subtrahend is bounded by the
  minuend (the engine guards each debit), where truncated and modular
  subtraction agree.
* `std::map<Price, OrderPointers, std::greater<Price>>` (bids) and
  `std::map<Price, OrderPointers, std::less<Price>>` (asks) are modelled as
  association lists sorted strictly descending (resp. ascending) by price,
  which is exactly the iteration order of the C++ maps.  Each bucket is the
  FIFO `std::list<OrderPointer>`: head = front of the queue.
* `std::unordered_map<Price, LevelData> data_` is modelled as an association
  list sorted ascending by price.  Its C++ iteration order is unspecified;
  the only place it is iterated (`CanFullyFill`) computes a result that does
  not depend on the iteration order (it compares a running remainder against
  a sum of the eligible levels), so fixing a canonical order is faithful.
* `std::unordered_map<OrderId, OrderEntry> orders_` stores `shared_ptr`
  aliases of the orders resting in the ladders plus list iterators used only
  for O(1) erasure.  Since the map and the ladders alias the very same order
  objects and are kept in sync at every observation point, the index is
  modelled as the derived view `Orderbook.allOrders` of the ladders, and
  iterator erasure as erasure by order id inside the known bucket.
* The mutex, condition variable and prune thread are concurrency plumbing
  with no sequential content and are not modelled.
-/

/-- `enum class Side` from `Orderbook`'s headers. -/
inductive Side where
  | Buy
  | Sell
deriving DecidableEq

/-- `enum class OrderType` from `OrderType.hpp`. -/
inductive OrderType where
  | Market
  | GoodForDay
  | GoodTillCancel
  | FillAndKill
  | FillOrKill
deriving DecidableEq

/-- The `Order` entity: identity, side, type, price, initial and remaining
quantity (`Order` class, `src/orderbook.cpp` lines 63-100; the constructor sets
`remainingQuantity_` equal to the `quantity` argument). -/
structure Order where
  orderType : OrderType
  orderId : Nat
  side : Side
  price : Int
  initialQuantity : Nat
  remainingQuantity : Nat
deriving DecidableEq

/-- `Order::GetFilledQuantity`. -/
def Order.GetFilledQuantity (o : Order) : Nat :=
  o.initialQuantity - o.remainingQuantity

/-- `Order::IsFilled`. -/
def Order.IsFilled (o : Order) : Bool :=
  o.remainingQuantity == 0

/-- `Order::Fill` exactly as written in `src/orderbook.cpp` lines 83-91: if the
requested quantity exceeds the remaining quantity it throws a `logic_error`;
the only statement that debits `remainingQuantity_` sits in the error branch
*after* the `throw`, hence is unreachable, so a successful call returns the
order unchanged. -/
def Order.FillSrc (o : Order) (quantity : Nat) : Except String Order :=
  if quantity > o.remainingQuantity then
    Except.error "Order cannot be filled for more than its remaining quanity."
  else
    Except.ok o

/-- Modelled from the spec: `Order.hpp` is absent from the sources (only its
callers are present).  Spec 4.1 and 9.1 require `fill(q)` to debit
`remainingQuantity` by `q` on the non-error path; the engine only ever calls
it with `q = min` of two remaining quantities, so the overfill error path is
unreachable from the engine and is not modelled here. -/
def Order.Fill (o : Order) (quantity : Nat) : Order :=
  { o with remainingQuantity := o.remainingQuantity - quantity }

/-- Modelled from the spec: `Order.hpp` is absent from the sources.  Spec 4.1:
the one-shot `repriceToWorst(p)` operation (`ToGoodTillCancel` at its call
sites in `Orderbook.cpp`) converts the order to `GoodTillCancel` at price `p`. -/
def Order.ToGoodTillCancel (o : Order) (price : Int) : Order :=
  { o with orderType := OrderType.GoodTillCancel, price := price }

/-- `LevelInfo` from `LevelInfos.hpp`. -/
structure LevelInfo where
  price : Int
  quantity : Nat
deriving DecidableEq

/-- `OrderbookLevelInfos` from `OrderbookLevelInfos.hpp`. -/
structure OrderbookLevelInfos where
  bids : List LevelInfo
  asks : List LevelInfo
deriving DecidableEq

/-- `TradeInfo`: one leg of a trade. -/
structure TradeInfo where
  orderId : Nat
  price : Int
  quantity : Nat
deriving DecidableEq

/-- `Trade`: a bid leg paired with an ask leg. -/
structure Trade where
  bidTrade : TradeInfo
  askTrade : TradeInfo
deriving DecidableEq

/-- `OrderModify` DTO from `OrderModify.hpp`. -/
structure OrderModify where
  orderId : Nat
  side : Side
  price : Int
  quantity : Nat
deriving DecidableEq

/-- `OrderModify::ToOrderPointer`: builds a fresh order with the supplied type;
the `Order` constructor starts `remainingQuantity` at the full quantity. -/
def OrderModify.ToOrderPointer (m : OrderModify) (type : OrderType) : Order :=
  ⟨type, m.orderId, m.side, m.price, m.quantity, m.quantity⟩

/-- `Orderbook::LevelData` from `Orderbook.hpp`: per-price running totals. -/
structure LevelData where
  quantity : Nat
  count : Nat
deriving DecidableEq

/-- `LevelData::Action`. -/
inductive LevelAction where
  | Add
  | Remove
  | Match
deriving DecidableEq

/-- The order-book state: the level aggregates `data_` and the two price
ladders `bids_` / `asks_`.  The id index `orders_` is the derived view
`Orderbook.allOrders` (see the header comment). -/
structure Orderbook where
  data : List (Int × LevelData)
  bids : List (Int × List Order)
  asks : List (Int × List Order)
deriving DecidableEq

/-- All orders resting in a ladder, in ladder-then-FIFO order. -/
def ladderOrders (l : List (Int × List Order)) : List Order :=
  (l.map Prod.snd).flatten

/-- All resting orders: bids first (descending price), then asks (ascending
price).  This is the contents of the `orders_` index. -/
def Orderbook.allOrders (b : Orderbook) : List Order :=
  ladderOrders b.bids ++ ladderOrders b.asks

/-- `orders_.contains(orderId)`. -/
def Orderbook.ordersContains (b : Orderbook) (orderId : Nat) : Bool :=
  b.allOrders.any (fun o => o.orderId == orderId)

/-- `orders_.at(orderId)`: the resting order with the given id, if any. -/
def Orderbook.findOrder (b : Orderbook) (orderId : Nat) : Option Order :=
  b.allOrders.find? (fun o => o.orderId == orderId)

/-- `Orderbook::Size`: `orders_.size()`. -/
def Orderbook.Size (b : Orderbook) : Nat :=
  b.allOrders.length

/-- `bids_[price].push_back(order)`: locate (or create) the bucket for `price`
in the descending bid ladder and append the order at its tail. -/
def bidsAdd : List (Int × List Order) → Int → Order → List (Int × List Order)
  | [], price, o => [(price, [o])]
  | (q, os) :: rest, price, o =>
    if price = q then (q, os ++ [o]) :: rest
    else if price > q then (price, [o]) :: (q, os) :: rest
    else (q, os) :: bidsAdd rest price o

/-- `asks_[price].push_back(order)`: same for the ascending ask ladder. -/
def asksAdd : List (Int × List Order) → Int → Order → List (Int × List Order)
  | [], price, o => [(price, [o])]
  | (q, os) :: rest, price, o =>
    if price = q then (q, os ++ [o]) :: rest
    else if price < q then (price, [o]) :: (q, os) :: rest
    else (q, os) :: asksAdd rest price o

/-- `orders.erase(iterator); if (orders.empty()) side.erase(price);` — remove
the order with the given id from the bucket at `price` (the stored iterator
points at that order's node), dropping the bucket if it empties. -/
def ladderRemove : List (Int × List Order) → Int → Nat → List (Int × List Order)
  | [], _, _ => []
  | (q, os) :: rest, price, orderId =>
    if price = q then
      let os' := os.eraseP (fun o => o.orderId == orderId)
      if os'.isEmpty then rest else (q, os') :: rest
    else (q, os) :: ladderRemove rest price orderId

/-- Lookup in the `data_` aggregate map. -/
def dataGet? : List (Int × LevelData) → Int → Option LevelData
  | [], _ => none
  | (q, d) :: rest, price => if price = q then some d else dataGet? rest price

/-- `data_[price]`: `operator[]` yields the stored aggregate, or a
value-initialised `LevelData` when the key is absent. -/
def dataGet (d : List (Int × LevelData)) (price : Int) : LevelData :=
  (dataGet? d price).getD ⟨0, 0⟩

/-- Store an aggregate, keeping the canonical ascending key order. -/
def dataSet : List (Int × LevelData) → Int → LevelData → List (Int × LevelData)
  | [], price, v => [(price, v)]
  | (q, d) :: rest, price, v =>
    if price = q then (q, v) :: rest
    else if price < q then (price, v) :: (q, d) :: rest
    else (q, d) :: dataSet rest price v

/-- `data_.erase(price)`. -/
def dataErase : List (Int × LevelData) → Int → List (Int × LevelData)
  | [], _ => []
  | (q, d) :: rest, price => if price = q then rest else (q, d) :: dataErase rest price

/-- `Orderbook::UpdateLevelData` (`src/Orderbook.cpp` lines 138-154): apply an
Add / Remove / Match delta to the aggregate at `price`, evicting the level
when its count reaches zero.  (In the source `count_` and `quantity_` are
unsigned; the theorems below only exercise this with in-range deltas, where
truncated subtraction agrees with the unsigned arithmetic.) -/
def updateLevelData (d : List (Int × LevelData)) (price : Int) (quantity : Nat)
    (action : LevelAction) : List (Int × LevelData) :=
  let cur := dataGet d price
  let count : Nat :=
    match action with
    | LevelAction.Remove => cur.count - 1
    | LevelAction.Add => cur.count + 1
    | LevelAction.Match => cur.count
  let qty : Nat :=
    match action with
    | LevelAction.Add => cur.quantity + quantity
    | _ => cur.quantity - quantity
  if count = 0 then dataErase d price else dataSet d price ⟨qty, count⟩

/-- `Orderbook::UpdateLevelData` lifted to the book state. -/
def Orderbook.UpdateLevelData (b : Orderbook) (price : Int) (quantity : Nat)
    (action : LevelAction) : Orderbook :=
  { b with data := updateLevelData b.data price quantity action }

/-- `Orderbook::OnOrderCancelled`. -/
def Orderbook.OnOrderCancelled (b : Orderbook) (order : Order) : Orderbook :=
  b.UpdateLevelData order.price order.remainingQuantity LevelAction.Remove

/-- `Orderbook::OnOrderAdded`. -/
def Orderbook.OnOrderAdded (b : Orderbook) (order : Order) : Orderbook :=
  b.UpdateLevelData order.price order.initialQuantity LevelAction.Add

/-- `Orderbook::OnOrderMatched`. -/
def Orderbook.OnOrderMatched (b : Orderbook) (price : Int) (quantity : Nat)
    (isFullyFilled : Bool) : Orderbook :=
  b.UpdateLevelData price quantity
    (if isFullyFilled then LevelAction.Remove else LevelAction.Match)

/-- `Orderbook::CancelOrderInternal` (`src/Orderbook.cpp` lines 91-116): if the
id is unknown do nothing, else remove the order from its side's bucket
(erasing the bucket if it empties), drop it from the index, and emit the
Remove level delta. -/
def Orderbook.CancelOrderInternal (b : Orderbook) (orderId : Nat) : Orderbook :=
  match b.findOrder orderId with
  | none => b
  | some order =>
    let b1 :=
      match order.side with
      | Side.Sell => { b with asks := ladderRemove b.asks order.price orderId }
      | Side.Buy => { b with bids := ladderRemove b.bids order.price orderId }
    b1.OnOrderCancelled order

/-- `Orderbook::CancelOrder`: takes the mutex and delegates to
`CancelOrderInternal`. -/
def Orderbook.CancelOrder (b : Orderbook) (orderId : Nat) : Orderbook :=
  b.CancelOrderInternal orderId

/-- `Orderbook::CanMatch` (`src/Orderbook.cpp` lines 189-209). -/
def Orderbook.CanMatch (b : Orderbook) (side : Side) (price : Int) : Bool :=
  match side with
  | Side.Buy =>
    match b.asks with
    | [] => false
    | (bestAsk, _) :: _ => price ≥ bestAsk
  | Side.Sell =>
    match b.bids with
    | [] => false
    | (bestBid, _) :: _ => price ≤ bestBid

/-- The level walk inside `Orderbook::CanFullyFill` (`src/Orderbook.cpp` lines
170-184).  `threshold` is the `std::optional<Price>` of the source; both
branches of the preceding `if` engage it, so it is modelled as a plain price.
The source's first `continue` condition is parenthesised as
`(threshold.has_value() && (Buy && threshold > levelPrice)) || (Sell && threshold < levelPrice)`
(the `&&`/`||` precedence noted in spec 9.2); with `has_value` identically
true this is exactly the disjunction below. -/
def canFullyFillLoop (side : Side) (price threshold : Int) :
    List (Int × LevelData) → Nat → Bool
  | [], _ => false
  | (levelPrice, levelData) :: rest, quantity =>
    if (side == Side.Buy && threshold > levelPrice)
        || (side == Side.Sell && threshold < levelPrice) then
      canFullyFillLoop side price threshold rest quantity
    else if (side == Side.Buy && levelPrice > price)
        || (side == Side.Sell && levelPrice < price) then
      canFullyFillLoop side price threshold rest quantity
    else if quantity ≤ levelData.quantity then true
    else canFullyFillLoop side price threshold rest (quantity - levelData.quantity)

/-- `Orderbook::CanFullyFill` (`src/Orderbook.cpp` lines 156-187). -/
def Orderbook.CanFullyFill (b : Orderbook) (side : Side) (price : Int)
    (quantity : Nat) : Bool :=
  if ¬ b.CanMatch side price then false
  else
    let threshold : Int :=
      match side with
      | Side.Buy => ((b.asks.head?.map Prod.fst).getD 0)
      | Side.Sell => ((b.bids.head?.map Prod.fst).getD 0)
    canFullyFillLoop side price threshold b.data quantity

/-- The update a matching step applies to the side of the order just filled:
pop the head if it is now filled (else write back the debited head), and
erase the price key when the bucket empties. -/
def sideAfterFill (price : Int) (restOrders : List Order) (filledHead : Order)
    (restLevels : List (Int × List Order)) : List (Int × List Order) :=
  if filledHead.IsFilled then
    if restOrders.isEmpty then restLevels else (price, restOrders) :: restLevels
  else
    (price, filledHead :: restOrders) :: restLevels

/-- One head-vs-head pairing of the crossing loop (the body of the inner
`while (bids.size() && asks.size())` of `Orderbook::MatchOrders`): trade `min`
of the two remaining quantities at each order's own price, debit both heads,
pop filled orders (erasing their empty buckets), record the trade, and emit
the two `OnOrderMatched` level deltas. -/
def matchStep (b : Orderbook) (bidPrice askPrice : Int) (bid ask : Order)
    (bidRest askRest : List Order) (restBids restAsks : List (Int × List Order)) :
    Trade × Orderbook :=
  let quantity := min bid.remainingQuantity ask.remainingQuantity
  let bid' := bid.Fill quantity
  let ask' := ask.Fill quantity
  let trade : Trade :=
    ⟨⟨bid.orderId, bid.price, quantity⟩, ⟨ask.orderId, ask.price, quantity⟩⟩
  let b1 : Orderbook :=
    { b with
      bids := sideAfterFill bidPrice bidRest bid' restBids
      asks := sideAfterFill askPrice askRest ask' restAsks }
  let b2 := b1.OnOrderMatched bid.price quantity bid'.IsFilled
  let b3 := b2.OnOrderMatched ask.price quantity ask'.IsFilled
  (trade, b3)

/-- Termination fuel for the crossing loop: every pairing either debits both
top orders by a positive traded quantity or removes a zero-remaining order,
so the total of `remainingQuantity + 1` over all resting orders strictly
decreases at each step. -/
def Orderbook.loopFuel (b : Orderbook) : Nat :=
  (b.allOrders.map (fun o => o.remainingQuantity + 1)).sum

/-- The `while (true)` crossing loop of `Orderbook::MatchOrders`
(`src/Orderbook.cpp` lines 215-258), with its two top-of-book reads, the
`bidPrice < askPrice` exit, and one head-vs-head pairing per step: trade
`min` of the remaining quantities at each order's own price, debit both,
pop filled orders (erasing their ids and empty buckets), record the trade,
and emit the two `OnOrderMatched` level deltas.  The empty-bucket arms are
unreachable for books whose buckets are non-empty (in the source a ladder
never holds an empty bucket). -/
def matchLoop : Nat → Orderbook → List Trade → List Trade × Orderbook
  | 0, b, acc => (acc, b)
  | fuel + 1, b, acc =>
    match b.bids, b.asks with
    | [], _ => (acc, b)
    | _, [] => (acc, b)
    | (bidPrice, bidQueue) :: restBids, (askPrice, askQueue) :: restAsks =>
      if bidPrice < askPrice then (acc, b)
      else
        match bidQueue, askQueue with
        | [], _ => (acc, b)
        | _, [] => (acc, b)
        | bid :: bidRest, ask :: askRest =>
          let r := matchStep b bidPrice askPrice bid ask bidRest askRest restBids restAsks
          matchLoop fuel r.2 (acc ++ [r.1])

/-- The residual FillAndKill cleanup after the crossing loop
(`src/Orderbook.cpp` lines 260-272): if the head order of the top bucket of a
side is FillAndKill, cancel it (bid side first, then the ask side of the
resulting book).  The source calls the public `CancelOrder` here while the
mutex is already held; the lock aside, that is `CancelOrderInternal`. -/
def Orderbook.pruneTopFillAndKill (b : Orderbook) : Orderbook :=
  let b1 :=
    match b.bids with
    | (_, order :: _) :: _ =>
      if order.orderType == OrderType.FillAndKill then b.CancelOrder order.orderId else b
    | _ => b
  match b1.asks with
  | (_, order :: _) :: _ =>
    if order.orderType == OrderType.FillAndKill then b1.CancelOrder order.orderId else b1
  | _ => b1

/-- `Orderbook::MatchOrders` (`src/Orderbook.cpp` lines 211-275): the crossing
loop followed by the residual FillAndKill cleanup. -/
def Orderbook.MatchOrders (b : Orderbook) : List Trade × Orderbook :=
  let r := matchLoop b.loopFuel b []
  (r.1, r.2.pruneTopFillAndKill)

/-- `Orderbook::AddOrder` (`src/Orderbook.cpp` lines 294-339): duplicate-id
check; Market conversion to GoodTillCancel at the worst opposite price (or
silent rejection when the opposite side is empty); the FillAndKill and
FillOrKill admission checks; insertion at the tail of the side's price
bucket; index registration; the Add level delta; then matching. -/
def Orderbook.AddOrder (b : Orderbook) (order : Order) : List Trade × Orderbook :=
  if b.ordersContains order.orderId then ([], b)
  else
    let converted : Option Order :=
      if order.orderType == OrderType.Market then
        if order.side == Side.Buy && !b.asks.isEmpty then
          some (order.ToGoodTillCancel (((b.asks.getLast?).map Prod.fst).getD 0))
        else if order.side == Side.Sell && !b.bids.isEmpty then
          some (order.ToGoodTillCancel (((b.bids.getLast?).map Prod.fst).getD 0))
        else none
      else some order
    match converted with
    | none => ([], b)
    | some order =>
      if order.orderType == OrderType.FillAndKill
          && !(b.CanMatch order.side order.price) then ([], b)
      else if order.orderType == OrderType.FillOrKill
          && !(b.CanFullyFill order.side order.price order.initialQuantity) then ([], b)
      else
        let b1 :=
          match order.side with
          | Side.Buy => { b with bids := bidsAdd b.bids order.price order }
          | Side.Sell => { b with asks := asksAdd b.asks order.price order }
        let b2 := b1.OnOrderAdded order
        b2.MatchOrders

/-- `Orderbook::ModifyOrder` (`src/Orderbook.cpp` lines 347-365): unknown id is
a silent no-op; otherwise read the existing order's type, cancel, and re-add
a fresh order with the supplied fields and the preserved type. -/
def Orderbook.ModifyOrder (b : Orderbook) (m : OrderModify) : List Trade × Orderbook :=
  match b.findOrder m.orderId with
  | none => ([], b)
  | some existingOrder =>
    let b1 := b.CancelOrder m.orderId
    b1.AddOrder (m.ToOrderPointer existingOrder.orderType)

/-- `Orderbook::GetOrderInfos` (`src/Orderbook.cpp` lines 376-402): per-level
snapshots, each level's quantity the sum of the remaining quantities of its
resting orders; bids in descending then asks in ascending price order. -/
def Orderbook.GetOrderInfos (b : Orderbook) : OrderbookLevelInfos :=
  ⟨b.bids.map (fun lv => ⟨lv.1, (lv.2.map Order.remainingQuantity).sum⟩),
   b.asks.map (fun lv => ⟨lv.1, (lv.2.map Order.remainingQuantity).sum⟩)⟩

/-- The empty book. -/
def Orderbook.empty : Orderbook :=
  ⟨[], [], []⟩

/-- The liquidity the spec's `canFullyFill` description accumulates: for a Buy,
the remaining quantity resting on the ask side at levels priced at or below
the candidate price (every ask level is automatically at or beyond the
opposite-side top); symmetrically for a Sell.  Same-side levels contribute
nothing.  This definition follows the words of spec 4.4 and is compared with
`Orderbook.CanFullyFill`, which is translated from the source. -/
def Orderbook.oppositeLiquidity (b : Orderbook) (side : Side) (price : Int) : Nat :=
  match side with
  | Side.Buy =>
    (((ladderOrders b.asks).filter (fun o => decide (o.price ≤ price))).map
      Order.remainingQuantity).sum
  | Side.Sell =>
    (((ladderOrders b.bids).filter (fun o => decide (price ≤ o.price))).map
      Order.remainingQuantity).sum

/-- Last element of a strictly increasing list is an upper bound. -/
theorem le_getLast_of_pairwise_lt {l : List Int} {y : Int} :
    List.Pairwise (· < ·) l → l.getLast? = some y → ∀ {x : Int}, x ∈ l → x ≤ y := by
  induction l with
  | nil => intro _ _ x hx; cases hx
  | cons a t ih =>
    intro hs hy x hx
    cases t with
    | nil =>
      simp only [List.getLast?_singleton, Option.some.injEq] at hy
      rcases List.mem_singleton.mp hx with rfl
      omega
    | cons b t2 =>
      have hy' : (b :: t2).getLast? = some y := by
        rw [List.getLast?_cons_cons] at hy
        exact hy
      rcases List.mem_cons.mp hx with rfl | hxt
      · have hab : x < b := (List.pairwise_cons.mp hs).1 b (List.mem_cons_self b t2)
        have hby : b ≤ y := ih (List.pairwise_cons.mp hs).2 hy' (List.mem_cons_self b t2)
        omega
      · exact ih (List.pairwise_cons.mp hs).2 hy' hxt

/-- First element of a strictly increasing list is a lower bound. -/
theorem head_le_of_pairwise_lt {l : List Int} {x y : Int}
    (hs : List.Pairwise (· < ·) l) (hx : x ∈ l) (hy : l.head? = some y) :
    y ≤ x := by
  cases l with
  | nil => cases hx
  | cons a t =>
    have hya : y = a := by
      simp only [List.head?_cons, Option.some.injEq] at hy
      omega
    subst hya
    rcases List.mem_cons.mp hx with rfl | hxt
    · omega
    · have := (List.pairwise_cons.mp hs).1 x hxt
      omega

/-- Claim C1.  `Order::Fill` in `src/orderbook.cpp` does not debit
`remainingQuantity` on a successful call: on the order
`(GoodTillCancel, id 1, Buy, price 100, quantity 10)` a `Fill(10)` succeeds
but returns the order with `remainingQuantity` still 10 and `IsFilled` still
false, while a `Fill(11)` raises the descriptive `logic_error` without any
debit (the only debit statement of the function sits after the `throw` and is
unreachable).  Spec 9.1 identifies this as the source bug and 4.1/7 state the
intended behavior (debit by `q` on success), so the claim is right and the
code is wrong. -/
theorem fillSrc_success_performs_no_debit :
    Order.FillSrc ⟨OrderType.GoodTillCancel, 1, Side.Buy, 100, 10, 10⟩ 10 =
        Except.ok ⟨OrderType.GoodTillCancel, 1, Side.Buy, 100, 10, 10⟩
      ∧ (Order.FillSrc ⟨OrderType.GoodTillCancel, 1, Side.Buy, 100, 10, 10⟩ 10).toOption.map
          Order.IsFilled = some false
      ∧ Order.FillSrc ⟨OrderType.GoodTillCancel, 1, Side.Buy, 100, 10, 10⟩ 11 =
        Except.error
          "Order cannot be filled for more than its remaining quanity." := by
  refine ⟨rfl, rfl, rfl⟩

/-- Claim C2.  The simple-cross scenario: on the empty book, adding
`(id 1, GoodTillCancel, Buy, 100, 10)` produces no trades and leaves `Size = 1`;
then adding `(id 2, GoodTillCancel, Sell, 100, 10)` produces exactly one trade
whose bid leg and ask leg both carry price 100 and quantity 10, and leaves
`Size = 0`. -/
theorem simple_cross_scenario :
    (Orderbook.empty.AddOrder ⟨OrderType.GoodTillCancel, 1, Side.Buy, 100, 10, 10⟩).1 = []
    ∧ (Orderbook.empty.AddOrder ⟨OrderType.GoodTillCancel, 1, Side.Buy, 100, 10, 10⟩).2.Size = 1
    ∧ ((Orderbook.empty.AddOrder ⟨OrderType.GoodTillCancel, 1, Side.Buy, 100, 10, 10⟩).2.AddOrder
        ⟨OrderType.GoodTillCancel, 2, Side.Sell, 100, 10, 10⟩).1 =
        [⟨⟨1, 100, 10⟩, ⟨2, 100, 10⟩⟩]
    ∧ ((Orderbook.empty.AddOrder ⟨OrderType.GoodTillCancel, 1, Side.Buy, 100, 10, 10⟩).2.AddOrder
        ⟨OrderType.GoodTillCancel, 2, Side.Sell, 100, 10, 10⟩).2.Size = 0 := by
  refine ⟨rfl, rfl, rfl, rfl⟩

/-- Claim C6.  `AddOrder` of an order whose id is already present in the index
returns an empty trade sequence and leaves the book (ladders, order index,
level aggregates — hence also `Size`) untouched. -/
theorem addOrder_duplicate_id_noop (b : Orderbook) (o : Order)
    (h : b.ordersContains o.orderId = true) : b.AddOrder o = ([], b) := by
  unfold Orderbook.AddOrder
  simp [h]

/-- Witness for `addOrder_duplicate_id_noop`: re-adding id 1 on a book already
holding id 1 is a no-op. -/
theorem addOrder_duplicate_id_noop_witness :
    ((Orderbook.empty.AddOrder ⟨OrderType.GoodTillCancel, 1, Side.Buy, 100, 10, 10⟩).2.AddOrder
        ⟨OrderType.GoodTillCancel, 1, Side.Sell, 90, 5, 5⟩) =
      ([], (Orderbook.empty.AddOrder ⟨OrderType.GoodTillCancel, 1, Side.Buy, 100, 10, 10⟩).2) :=
  addOrder_duplicate_id_noop _ _ (by decide)

/-- Counterexample to claim C4 as stated: at `quantity = 0` the claimed
equivalence fails.  On the empty book a Buy at price 0 with quantity 0 has
accumulated eligible liquidity 0, which trivially reaches the quantity, yet
`CanFullyFill` returns false (its `CanMatch` pre-check fails). -/
theorem canFullyFill_iff_fails_at_zero_quantity :
    ¬ (Orderbook.empty.CanFullyFill Side.Buy 0 0 = true ↔
        0 ≤ Orderbook.empty.oppositeLiquidity Side.Buy 0) := by
  decide

/-- Counterexample to claim C8 as stated: a Market order whose own price does
not cross the opposite side is nevertheless repriced at admission and trades,
so add-then-cancel does not restore the book.  Book: one resting ask
`(id 1, Sell, 100, 5)`.  The incoming `(id 2, Market, Buy, price 0, qty 5)`
has a fresh id and a price that does not cross (`CanMatch` is false), yet
after `AddOrder` and `CancelOrder(2)` the size is 0, not 1. -/
theorem add_cancel_restore_fails_for_market :
    ((Orderbook.empty.AddOrder ⟨OrderType.GoodTillCancel, 1, Side.Sell, 100, 5, 5⟩).2.ordersContains 2
        = false)
    ∧ ((Orderbook.empty.AddOrder ⟨OrderType.GoodTillCancel, 1, Side.Sell, 100, 5, 5⟩).2.CanMatch
        Side.Buy 0 = false)
    ∧ ¬ ((((Orderbook.empty.AddOrder ⟨OrderType.GoodTillCancel, 1, Side.Sell, 100, 5, 5⟩).2.AddOrder
            ⟨OrderType.Market, 2, Side.Buy, 0, 5, 5⟩).2.CancelOrder 2).Size =
          (Orderbook.empty.AddOrder ⟨OrderType.GoodTillCancel, 1, Side.Sell, 100, 5, 5⟩).2.Size) := by
  refine ⟨rfl, rfl, by decide⟩

/-- Last element of a strictly decreasing list is a lower bound. -/
theorem getLast_le_of_pairwise_gt {l : List Int} {y : Int} :
    List.Pairwise (· > ·) l → l.getLast? = some y → ∀ {x : Int}, x ∈ l → y ≤ x := by
  induction l with
  | nil => intro _ _ x hx; cases hx
  | cons a t ih =>
    intro hs hy x hx
    cases t with
    | nil =>
      simp only [List.getLast?_singleton, Option.some.injEq] at hy
      rcases List.mem_singleton.mp hx with rfl
      omega
    | cons b t2 =>
      have hy' : (b :: t2).getLast? = some y := by
        rw [List.getLast?_cons_cons] at hy
        exact hy
      rcases List.mem_cons.mp hx with rfl | hxt
      · have hab : x > b := (List.pairwise_cons.mp hs).1 b (List.mem_cons_self b t2)
        have hby : y ≤ b := ih (List.pairwise_cons.mp hs).2 hy' (List.mem_cons_self b t2)
        omega
      · exact ih (List.pairwise_cons.mp hs).2 hy' hxt

/-- Claim C5.  For an incoming Market order: with a non-empty opposite side,
`AddOrder` behaves exactly as `AddOrder` of the same order repriced to the
worst opposite price (`rbegin` of the opposite ladder) and retyped
`GoodTillCancel` — i.e. it proceeds through the normal admission and matching
path as that converted order — and, on a ladder sorted as the source's maps
are, that worst price is the maximum ask price for a Buy (resp. the minimum
bid price for a Sell); with an empty opposite side it returns no trades and
leaves the book unchanged. -/
theorem market_order_admission (b : Orderbook) (o : Order)
    (hm : o.orderType = OrderType.Market)
    (hbids : List.Pairwise (· > ·) (b.bids.map Prod.fst))
    (hasks : List.Pairwise (· < ·) (b.asks.map Prod.fst)) :
    (o.side = Side.Buy →
      (b.asks ≠ [] →
        b.AddOrder o =
          b.AddOrder (o.ToGoodTillCancel (((b.asks.getLast?).map Prod.fst).getD 0))
        ∧ ∀ p ∈ b.asks.map Prod.fst, p ≤ ((b.asks.getLast?).map Prod.fst).getD 0)
      ∧ (b.asks = [] → b.AddOrder o = ([], b)))
    ∧ (o.side = Side.Sell →
      (b.bids ≠ [] →
        b.AddOrder o =
          b.AddOrder (o.ToGoodTillCancel (((b.bids.getLast?).map Prod.fst).getD 0))
        ∧ ∀ p ∈ b.bids.map Prod.fst, ((b.bids.getLast?).map Prod.fst).getD 0 ≤ p)
      ∧ (b.bids = [] → b.AddOrder o = ([], b))) := by
  constructor
  · intro hside
    constructor
    · intro hne
      constructor
      · by_cases hc : b.ordersContains o.orderId = true
        · unfold Orderbook.AddOrder
          simp [hc, Order.ToGoodTillCancel]
        · rw [Bool.not_eq_true] at hc
          unfold Orderbook.AddOrder
          simp [hc, Order.ToGoodTillCancel, hm, hside, hne]
      · intro p hp
        obtain ⟨last, hlast⟩ := Option.isSome_iff_exists.mp (List.getLast?_isSome.mpr hne)
        have hmap : (b.asks.map Prod.fst).getLast? = some last.1 := by
          rw [List.getLast?_map Prod.fst b.asks, hlast]
          rfl
        have hw : ((b.asks.getLast?).map Prod.fst).getD 0 = last.1 := by
          rw [hlast]
          rfl
        rw [hw]
        exact le_getLast_of_pairwise_lt hasks hmap hp
    · intro hempty
      by_cases hc : b.ordersContains o.orderId = true
      · unfold Orderbook.AddOrder
        simp [hc]
      · rw [Bool.not_eq_true] at hc
        unfold Orderbook.AddOrder
        simp [hc, hm, hside, hempty]
  · intro hside
    constructor
    · intro hne
      constructor
      · by_cases hc : b.ordersContains o.orderId = true
        · unfold Orderbook.AddOrder
          simp [hc, Order.ToGoodTillCancel]
        · rw [Bool.not_eq_true] at hc
          unfold Orderbook.AddOrder
          simp [hc, Order.ToGoodTillCancel, hm, hside, hne]
      · intro p hp
        obtain ⟨last, hlast⟩ := Option.isSome_iff_exists.mp (List.getLast?_isSome.mpr hne)
        have hmap : (b.bids.map Prod.fst).getLast? = some last.1 := by
          rw [List.getLast?_map Prod.fst b.bids, hlast]
          rfl
        have hw : ((b.bids.getLast?).map Prod.fst).getD 0 = last.1 := by
          rw [hlast]
          rfl
        rw [hw]
        exact getLast_le_of_pairwise_gt hbids hmap hp
    · intro hempty
      by_cases hc : b.ordersContains o.orderId = true
      · unfold Orderbook.AddOrder
        simp [hc]
      · rw [Bool.not_eq_true] at hc
        unfold Orderbook.AddOrder
        simp [hc, hm, hside, hempty]

/-- Witness for `market_order_admission`: on a book holding the single ask
`(id 1, Sell, 100, 5)`, adding `(id 2, Market, Buy)` equals adding the same
order converted to GoodTillCancel at the worst (here: only) ask price. -/
theorem market_order_admission_witness :
    (Orderbook.empty.AddOrder ⟨OrderType.GoodTillCancel, 1, Side.Sell, 100, 5, 5⟩).2.AddOrder
        ⟨OrderType.Market, 2, Side.Buy, 0, 5, 5⟩ =
      (Orderbook.empty.AddOrder ⟨OrderType.GoodTillCancel, 1, Side.Sell, 100, 5, 5⟩).2.AddOrder
        (Order.ToGoodTillCancel ⟨OrderType.Market, 2, Side.Buy, 0, 5, 5⟩
          ((((Orderbook.empty.AddOrder
              ⟨OrderType.GoodTillCancel, 1, Side.Sell, 100, 5, 5⟩).2.asks.getLast?).map
                Prod.fst).getD 0)) :=
  (((market_order_admission
      (Orderbook.empty.AddOrder ⟨OrderType.GoodTillCancel, 1, Side.Sell, 100, 5, 5⟩).2
      ⟨OrderType.Market, 2, Side.Buy, 0, 5, 5⟩ rfl (by decide) (by decide)).1 rfl).1
        (by decide)).1

/-- Number of resting orders at a given price. -/
def priceCountIn (orders : List Order) (p : Int) : Nat :=
  orders.countP (fun o => o.price == p)

/-- Total remaining quantity resting at a given price. -/
def priceQtyIn (orders : List Order) (p : Int) : Nat :=
  ((orders.filter (fun o => o.price == p)).map Order.remainingQuantity).sum

/-- The level aggregates are consistent with a list of resting orders: a price
has an entry exactly when at least one order rests there, and the entry then
records the number of those orders and the sum of their remaining quantities
(spec 8, invariant 5). -/
def consistentWith (d : List (Int × LevelData)) (orders : List Order) : Prop :=
  ∀ p : Int, dataGet? d p =
    if priceCountIn orders p = 0 then none
    else some ⟨priceQtyIn orders p, priceCountIn orders p⟩

theorem priceCountIn_nil (p : Int) : priceCountIn [] p = 0 := rfl

theorem priceCountIn_append (l1 l2 : List Order) (p : Int) :
    priceCountIn (l1 ++ l2) p = priceCountIn l1 p + priceCountIn l2 p := by
  simp [priceCountIn, List.countP_append]

theorem priceCountIn_cons (o : Order) (l : List Order) (p : Int) :
    priceCountIn (o :: l) p = (if o.price = p then 1 else 0) + priceCountIn l p := by
  simp only [priceCountIn, List.countP_cons]
  by_cases h : o.price = p
  · simp only [h, if_pos rfl, beq_self_eq_true, if_true]
    omega
  · simp [h]

theorem priceQtyIn_nil (p : Int) : priceQtyIn [] p = 0 := rfl

theorem priceQtyIn_append (l1 l2 : List Order) (p : Int) :
    priceQtyIn (l1 ++ l2) p = priceQtyIn l1 p + priceQtyIn l2 p := by
  simp [priceQtyIn, List.filter_append]

theorem priceQtyIn_cons (o : Order) (l : List Order) (p : Int) :
    priceQtyIn (o :: l) p =
      (if o.price = p then o.remainingQuantity else 0) + priceQtyIn l p := by
  by_cases h : o.price = p <;> simp [priceQtyIn, List.filter_cons, h]

theorem dataGet?_dataSet_self (d : List (Int × LevelData)) (p : Int) (v : LevelData) :
    dataGet? (dataSet d p v) p = some v := by
  induction d with
  | nil => simp [dataSet, dataGet?]
  | cons e rest ih =>
    by_cases h1 : p = e.1
    · simp [dataSet, dataGet?, h1]
    · by_cases h2 : p < e.1
      · simp [dataSet, dataGet?, h1, h2]
      · simp [dataSet, dataGet?, h1, h2, ih]

theorem dataGet?_dataSet_ne (d : List (Int × LevelData)) (p : Int) (v : LevelData)
    (p' : Int) (h : p' ≠ p) : dataGet? (dataSet d p v) p' = dataGet? d p' := by
  induction d with
  | nil => simp [dataSet, dataGet?, h]
  | cons e rest ih =>
    by_cases h1 : p = e.1
    · subst h1
      simp [dataSet, dataGet?, h]
    · by_cases h2 : p < e.1
      · by_cases h3 : p' = e.1
        · subst h3
          simp [dataSet, dataGet?, h1, h2, h]
        · simp [dataSet, dataGet?, h1, h2, h3, h]
      · by_cases h3 : p' = e.1
        · subst h3
          simp [dataSet, dataGet?, h1, h2, h]
        · simp [dataSet, dataGet?, h1, h2, h3, h, ih]

theorem dataGet?_dataErase_ne (d : List (Int × LevelData)) (p p' : Int)
    (h : p' ≠ p) : dataGet? (dataErase d p) p' = dataGet? d p' := by
  induction d with
  | nil => simp [dataErase]
  | cons e rest ih =>
    by_cases h1 : p = e.1
    · subst h1
      simp [dataErase, dataGet?, h]
    · by_cases h3 : p' = e.1 <;> simp [dataErase, dataGet?, h1, h3, h, ih]

theorem dataErase_keys_sublist (d : List (Int × LevelData)) (p : Int) :
    ((dataErase d p).map Prod.fst).Sublist (d.map Prod.fst) := by
  induction d with
  | nil => simp [dataErase]
  | cons e rest ih =>
    by_cases h1 : p = e.1
    · simp only [dataErase, h1, if_pos rfl]
      exact (List.sublist_cons_self e.1 (rest.map Prod.fst)).trans (by simp)
    · simp only [dataErase, if_neg (fun hh => h1 hh)]
      simpa using ih.cons₂ e.1

theorem dataGet?_eq_none_of_not_mem (d : List (Int × LevelData)) (p : Int)
    (h : p ∉ d.map Prod.fst) : dataGet? d p = none := by
  induction d with
  | nil => rfl
  | cons e rest ih =>
    have h' : ¬ (p = e.1 ∨ p ∈ rest.map Prod.fst) := by simpa using h
    simp only [dataGet?, if_neg (fun hh => h' (Or.inl hh))]
    exact ih (fun hm => h' (Or.inr hm))

theorem not_mem_keys_dataErase (d : List (Int × LevelData)) (p : Int)
    (hnd : (d.map Prod.fst).Nodup) : p ∉ (dataErase d p).map Prod.fst := by
  induction d with
  | nil => simp [dataErase]
  | cons e rest ih =>
    by_cases h1 : p = e.1
    · subst h1
      simp only [dataErase, if_pos rfl]
      simpa using (List.nodup_cons.mp hnd).1
    · simp only [dataErase, if_neg (fun hh => h1 hh), List.map_cons, List.mem_cons]
      rintro (hh | hm)
      · exact h1 hh
      · exact ih (List.nodup_cons.mp hnd).2 hm

theorem dataGet?_dataErase_self (d : List (Int × LevelData)) (p : Int)
    (hnd : (d.map Prod.fst).Nodup) : dataGet? (dataErase d p) p = none :=
  dataGet?_eq_none_of_not_mem _ _ (not_mem_keys_dataErase d p hnd)

theorem mem_keys_dataSet (d : List (Int × LevelData)) (p : Int) (v : LevelData) :
    ∀ x ∈ (dataSet d p v).map Prod.fst, x ∈ d.map Prod.fst ∨ x = p := by
  induction d with
  | nil =>
    intro x hx
    simp only [dataSet, List.map_cons, List.map_nil, List.mem_singleton] at hx
    exact Or.inr hx
  | cons e rest ih =>
    intro x hx
    by_cases h1 : p = e.1
    · simp only [dataSet, if_pos h1, List.map_cons, List.mem_cons] at hx
      rcases hx with rfl | hm
      · exact Or.inr h1.symm
      · exact Or.inl (by simp only [List.map_cons, List.mem_cons]; exact Or.inr hm)
    · by_cases h2 : p < e.1
      · simp only [dataSet, if_neg h1, if_pos h2, List.map_cons, List.mem_cons] at hx
        rcases hx with rfl | hx2
        · exact Or.inr rfl
        · rcases hx2 with rfl | hm
          · exact Or.inl (by simp)
          · exact Or.inl (by simp only [List.map_cons, List.mem_cons]; exact Or.inr hm)
      · simp only [dataSet, if_neg h1, if_neg h2, List.map_cons, List.mem_cons] at hx
        rcases hx with rfl | hm
        · exact Or.inl (by simp)
        · rcases ih x hm with hm2 | rfl
          · exact Or.inl (by simp only [List.map_cons, List.mem_cons]; exact Or.inr hm2)
          · exact Or.inr rfl

theorem dataSet_sorted (d : List (Int × LevelData)) (p : Int) (v : LevelData)
    (h : List.Pairwise (· < ·) (d.map Prod.fst)) :
    List.Pairwise (· < ·) ((dataSet d p v).map Prod.fst) := by
  induction d with
  | nil => simp [dataSet]
  | cons e rest ih =>
    rcases List.pairwise_cons.mp h with ⟨hb, ht⟩
    by_cases h1 : p = e.1
    · subst h1
      simp only [dataSet, if_pos rfl, List.map_cons]
      exact List.pairwise_cons.mpr ⟨hb, ht⟩
    · by_cases h2 : p < e.1
      · simp only [dataSet, if_neg h1, if_pos h2, List.map_cons]
        refine List.pairwise_cons.mpr ⟨?_, List.pairwise_cons.mpr ⟨hb, ht⟩⟩
        intro x hx
        rcases List.mem_cons.mp hx with rfl | hm
        · exact h2
        · exact lt_trans h2 (hb x hm)
      · simp only [dataSet, if_neg h1, if_neg h2, List.map_cons]
        refine List.pairwise_cons.mpr ⟨?_, ih ht⟩
        intro x hx
        rcases mem_keys_dataSet rest p v x hx with hm | rfl
        · exact hb x hm
        · omega

theorem dataErase_sorted (d : List (Int × LevelData)) (p : Int)
    (h : List.Pairwise (· < ·) (d.map Prod.fst)) :
    List.Pairwise (· < ·) ((dataErase d p).map Prod.fst) :=
  List.Pairwise.sublist (dataErase_keys_sublist d p) h

theorem priceQtyIn_eq_zero {l : List Order} {p : Int}
    (h : priceCountIn l p = 0) : priceQtyIn l p = 0 := by
  have hnil : l.filter (fun o => o.price == p) = [] :=
    List.filter_eq_nil_iff.mpr (List.countP_eq_zero.mp h)
  simp [priceQtyIn, hnil]

theorem updateLevelData_Match_eq (d : List (Int × LevelData)) (p : Int) (q : Nat) :
    updateLevelData d p q LevelAction.Match =
      (if (dataGet d p).count = 0 then dataErase d p
       else dataSet d p ⟨(dataGet d p).quantity - q, (dataGet d p).count⟩) := rfl

theorem updateLevelData_Remove_eq (d : List (Int × LevelData)) (p : Int) (q : Nat) :
    updateLevelData d p q LevelAction.Remove =
      (if (dataGet d p).count - 1 = 0 then dataErase d p
       else dataSet d p ⟨(dataGet d p).quantity - q, (dataGet d p).count - 1⟩) := rfl

theorem updateLevelData_Add_eq (d : List (Int × LevelData)) (p : Int) (q : Nat) :
    updateLevelData d p q LevelAction.Add =
      (if (dataGet d p).count + 1 = 0 then dataErase d p
       else dataSet d p ⟨(dataGet d p).quantity + q, (dataGet d p).count + 1⟩) := rfl

/-- The aggregate read `data_[price]` under consistency, with the distinguished
order `o` resting at its price. -/
theorem dataGet_of_consistent {d : List (Int × LevelData)} {l1 l2 : List Order}
    {o : Order} (hc : consistentWith d (l1 ++ o :: l2)) :
    dataGet d o.price =
      ⟨priceQtyIn l1 o.price + (o.remainingQuantity + priceQtyIn l2 o.price),
       priceCountIn l1 o.price + (1 + priceCountIn l2 o.price)⟩ := by
  have hco := hc o.price
  rw [priceCountIn_append, priceCountIn_cons, if_pos rfl, priceQtyIn_append,
      priceQtyIn_cons, if_pos rfl] at hco
  have hcnt : ¬ (priceCountIn l1 o.price + (1 + priceCountIn l2 o.price) = 0) := by
    omega
  rw [if_neg hcnt] at hco
  unfold dataGet
  rw [hco]
  rfl

/-- Partial-fill (Match) level delta: replacing one resting order by the same
order debited by `q` and debiting the aggregate at its price by `q` preserves
consistency. -/
theorem consistentWith_match {d : List (Int × LevelData)} {l1 l2 : List Order}
    {o o' : Order} {q : Nat}
    (hc : consistentWith d (l1 ++ o :: l2))
    (hp : o'.price = o.price)
    (hq : o.remainingQuantity = o'.remainingQuantity + q) :
    consistentWith (updateLevelData d o.price q LevelAction.Match) (l1 ++ o' :: l2) := by
  have hcur := dataGet_of_consistent hc
  intro p
  rw [updateLevelData_Match_eq, hcur]
  simp only []
  rw [if_neg (by omega : ¬ (priceCountIn l1 o.price + (1 + priceCountIn l2 o.price) = 0))]
  by_cases hpp : p = o.price
  · subst hpp
    rw [dataGet?_dataSet_self]
    have hcnt : ¬ (priceCountIn (l1 ++ o' :: l2) o.price = 0) := by
      rw [priceCountIn_append, priceCountIn_cons, hp, if_pos rfl]
      omega
    rw [if_neg hcnt, priceCountIn_append, priceCountIn_cons, hp, if_pos rfl,
        priceQtyIn_append, priceQtyIn_cons, hp, if_pos rfl]
    simp only [Option.some.injEq, LevelData.mk.injEq]
    exact ⟨by omega, by trivial⟩
  · have hno : ¬ o.price = p := fun hh => hpp hh.symm
    have hno' : ¬ o'.price = p := fun hh => hpp (hh.symm.trans hp)
    rw [dataGet?_dataSet_ne _ _ _ _ hpp, hc p]
    simp [priceCountIn_append, priceCountIn_cons, priceQtyIn_append, priceQtyIn_cons,
      hno, hno']

/-- Removal level delta (cancellation, or a fill that empties the order, where
the traded quantity equals the prior remaining quantity): dropping one resting
order and debiting the aggregate at its price by its remaining quantity
preserves consistency. -/
theorem consistentWith_remove {d : List (Int × LevelData)} {l1 l2 : List Order}
    {o : Order}
    (hnd : (d.map Prod.fst).Nodup)
    (hc : consistentWith d (l1 ++ o :: l2)) :
    consistentWith (updateLevelData d o.price o.remainingQuantity LevelAction.Remove)
      (l1 ++ l2) := by
  have hcur := dataGet_of_consistent hc
  intro p
  rw [updateLevelData_Remove_eq, hcur]
  simp only []
  by_cases hz : priceCountIn l1 o.price + priceCountIn l2 o.price = 0
  · rw [if_pos (by omega)]
    by_cases hpp : p = o.price
    · subst hpp
      rw [dataGet?_dataErase_self _ _ hnd,
          if_pos (by rw [priceCountIn_append]; omega)]
    · have hno : ¬ o.price = p := fun hh => hpp hh.symm
      rw [dataGet?_dataErase_ne _ _ _ hpp, hc p]
      simp [priceCountIn_append, priceCountIn_cons, priceQtyIn_append, priceQtyIn_cons,
        hno]
  · rw [if_neg (by omega)]
    by_cases hpp : p = o.price
    · subst hpp
      rw [dataGet?_dataSet_self, priceCountIn_append, priceQtyIn_append,
          if_neg (by omega)]
      simp only [Option.some.injEq, LevelData.mk.injEq]
      exact ⟨by omega, by omega⟩
    · have hno : ¬ o.price = p := fun hh => hpp hh.symm
      rw [dataGet?_dataSet_ne _ _ _ _ hpp, hc p]
      simp [priceCountIn_append, priceCountIn_cons, priceQtyIn_append, priceQtyIn_cons,
        hno]

/-- Admission level delta: inserting a fresh order (remaining = initial) and
crediting the aggregate at its price by its initial quantity preserves
consistency. -/
theorem consistentWith_add {d : List (Int × LevelData)} {l1 l2 : List Order}
    {o : Order}
    (hc : consistentWith d (l1 ++ l2))
    (hinit : o.remainingQuantity = o.initialQuantity) :
    consistentWith (updateLevelData d o.price o.initialQuantity LevelAction.Add)
      (l1 ++ o :: l2) := by
  have hcur : dataGet d o.price =
      ⟨priceQtyIn l1 o.price + priceQtyIn l2 o.price,
       priceCountIn l1 o.price + priceCountIn l2 o.price⟩ := by
    unfold dataGet
    rw [hc o.price, priceCountIn_append, priceQtyIn_append]
    by_cases hz : priceCountIn l1 o.price + priceCountIn l2 o.price = 0
    · rw [if_pos hz]
      have h1 : priceQtyIn l1 o.price = 0 := priceQtyIn_eq_zero (by omega)
      have h2 : priceQtyIn l2 o.price = 0 := priceQtyIn_eq_zero (by omega)
      rw [h1, h2, hz]
      rfl
    · rw [if_neg hz]
      rfl
  intro p
  rw [updateLevelData_Add_eq, hcur]
  simp only []
  rw [if_neg (by omega)]
  by_cases hpp : p = o.price
  · subst hpp
    rw [dataGet?_dataSet_self]
    have hcnt : ¬ (priceCountIn (l1 ++ o :: l2) o.price = 0) := by
      rw [priceCountIn_append, priceCountIn_cons, if_pos rfl]
      omega
    rw [if_neg hcnt, priceCountIn_append, priceCountIn_cons, if_pos rfl,
        priceQtyIn_append, priceQtyIn_cons, if_pos rfl]
    simp only [Option.some.injEq, LevelData.mk.injEq]
    exact ⟨by omega, by omega⟩
  · have hno : ¬ o.price = p := fun hh => hpp hh.symm
    rw [dataGet?_dataSet_ne _ _ _ _ hpp, hc p]
    simp [priceCountIn_append, priceCountIn_cons, priceQtyIn_append, priceQtyIn_cons,
      hno]

theorem ladderOrders_nil : ladderOrders [] = [] := rfl

theorem ladderOrders_cons (p : Int) (os : List Order) (rest : List (Int × List Order)) :
    ladderOrders ((p, os) :: rest) = os ++ ladderOrders rest := by
  simp [ladderOrders]

/-- Inserting an order into the bid ladder splits its order sequence around the
new order. -/
theorem bidsAdd_split (l : List (Int × List Order)) (p : Int) (o : Order) :
    ∃ l1 l2, ladderOrders l = l1 ++ l2
      ∧ ladderOrders (bidsAdd l p o) = l1 ++ o :: l2 := by
  induction l with
  | nil => exact ⟨[], [], rfl, by simp [bidsAdd, ladderOrders]⟩
  | cons e rest ih =>
    obtain ⟨q, os⟩ := e
    by_cases h1 : p = q
    · refine ⟨os, ladderOrders rest, ladderOrders_cons q os rest, ?_⟩
      simp [bidsAdd, h1, ladderOrders_cons]
    · by_cases h2 : p > q
      · refine ⟨[], ladderOrders ((q, os) :: rest), rfl, ?_⟩
        simp [bidsAdd, h1, h2, ladderOrders_cons]
      · obtain ⟨l1, l2, hsplit, hadd⟩ := ih
        refine ⟨os ++ l1, l2, ?_, ?_⟩
        · rw [ladderOrders_cons, hsplit, List.append_assoc]
        · simp only [bidsAdd, if_neg h1, if_neg h2, ladderOrders_cons, hadd]
          rw [List.append_assoc]

/-- Inserting an order into the ask ladder splits its order sequence around the
new order. -/
theorem asksAdd_split (l : List (Int × List Order)) (p : Int) (o : Order) :
    ∃ l1 l2, ladderOrders l = l1 ++ l2
      ∧ ladderOrders (asksAdd l p o) = l1 ++ o :: l2 := by
  induction l with
  | nil => exact ⟨[], [], rfl, by simp [asksAdd, ladderOrders]⟩
  | cons e rest ih =>
    obtain ⟨q, os⟩ := e
    by_cases h1 : p = q
    · refine ⟨os, ladderOrders rest, ladderOrders_cons q os rest, ?_⟩
      simp [asksAdd, h1, ladderOrders_cons]
    · by_cases h2 : p < q
      · refine ⟨[], ladderOrders ((q, os) :: rest), rfl, ?_⟩
        simp [asksAdd, h1, h2, ladderOrders_cons]
      · obtain ⟨l1, l2, hsplit, hadd⟩ := ih
        refine ⟨os ++ l1, l2, ?_, ?_⟩
        · rw [ladderOrders_cons, hsplit, List.append_assoc]
        · simp only [asksAdd, if_neg h1, if_neg h2, ladderOrders_cons, hadd]
          rw [List.append_assoc]

theorem mem_keys_bidsAdd (l : List (Int × List Order)) (p : Int) (o : Order) :
    ∀ x ∈ (bidsAdd l p o).map Prod.fst, x ∈ l.map Prod.fst ∨ x = p := by
  induction l with
  | nil =>
    intro x hx
    simp only [bidsAdd, List.map_cons, List.map_nil, List.mem_singleton] at hx
    exact Or.inr hx
  | cons e rest ih =>
    obtain ⟨q, os⟩ := e
    intro x hx
    by_cases h1 : p = q
    · simp only [bidsAdd, if_pos h1, List.map_cons, List.mem_cons] at hx
      rcases hx with rfl | hm
      · exact Or.inl (by simp)
      · exact Or.inl (by simp only [List.map_cons, List.mem_cons]; exact Or.inr hm)
    · by_cases h2 : p > q
      · simp only [bidsAdd, if_neg h1, if_pos h2, List.map_cons, List.mem_cons] at hx
        rcases hx with rfl | hx2
        · exact Or.inr rfl
        · rcases hx2 with rfl | hm
          · exact Or.inl (by simp)
          · exact Or.inl (by simp only [List.map_cons, List.mem_cons]; exact Or.inr hm)
      · simp only [bidsAdd, if_neg h1, if_neg h2, List.map_cons, List.mem_cons] at hx
        rcases hx with rfl | hm
        · exact Or.inl (by simp)
        · rcases ih x hm with hm2 | rfl
          · exact Or.inl (by simp only [List.map_cons, List.mem_cons]; exact Or.inr hm2)
          · exact Or.inr rfl

theorem mem_keys_asksAdd (l : List (Int × List Order)) (p : Int) (o : Order) :
    ∀ x ∈ (asksAdd l p o).map Prod.fst, x ∈ l.map Prod.fst ∨ x = p := by
  induction l with
  | nil =>
    intro x hx
    simp only [asksAdd, List.map_cons, List.map_nil, List.mem_singleton] at hx
    exact Or.inr hx
  | cons e rest ih =>
    obtain ⟨q, os⟩ := e
    intro x hx
    by_cases h1 : p = q
    · simp only [asksAdd, if_pos h1, List.map_cons, List.mem_cons] at hx
      rcases hx with rfl | hm
      · exact Or.inl (by simp)
      · exact Or.inl (by simp only [List.map_cons, List.mem_cons]; exact Or.inr hm)
    · by_cases h2 : p < q
      · simp only [asksAdd, if_neg h1, if_pos h2, List.map_cons, List.mem_cons] at hx
        rcases hx with rfl | hx2
        · exact Or.inr rfl
        · rcases hx2 with rfl | hm
          · exact Or.inl (by simp)
          · exact Or.inl (by simp only [List.map_cons, List.mem_cons]; exact Or.inr hm)
      · simp only [asksAdd, if_neg h1, if_neg h2, List.map_cons, List.mem_cons] at hx
        rcases hx with rfl | hm
        · exact Or.inl (by simp)
        · rcases ih x hm with hm2 | rfl
          · exact Or.inl (by simp only [List.map_cons, List.mem_cons]; exact Or.inr hm2)
          · exact Or.inr rfl

theorem bidsAdd_sorted (l : List (Int × List Order)) (p : Int) (o : Order)
    (h : List.Pairwise (· > ·) (l.map Prod.fst)) :
    List.Pairwise (· > ·) ((bidsAdd l p o).map Prod.fst) := by
  induction l with
  | nil => simp [bidsAdd]
  | cons e rest ih =>
    obtain ⟨q, os⟩ := e
    rcases List.pairwise_cons.mp h with ⟨hb, ht⟩
    by_cases h1 : p = q
    · subst h1
      simp only [bidsAdd, if_pos rfl, List.map_cons]
      exact List.pairwise_cons.mpr ⟨hb, ht⟩
    · by_cases h2 : p > q
      · simp only [bidsAdd, if_neg h1, if_pos h2, List.map_cons]
        refine List.pairwise_cons.mpr ⟨?_, List.pairwise_cons.mpr ⟨hb, ht⟩⟩
        intro x hx
        rcases List.mem_cons.mp hx with rfl | hm
        · exact h2
        · exact lt_trans (hb x hm) h2
      · simp only [bidsAdd, if_neg h1, if_neg h2, List.map_cons]
        refine List.pairwise_cons.mpr ⟨?_, ih ht⟩
        intro x hx
        rcases mem_keys_bidsAdd rest p o x hx with hm | rfl
        · exact hb x hm
        · omega

theorem asksAdd_sorted (l : List (Int × List Order)) (p : Int) (o : Order)
    (h : List.Pairwise (· < ·) (l.map Prod.fst)) :
    List.Pairwise (· < ·) ((asksAdd l p o).map Prod.fst) := by
  induction l with
  | nil => simp [asksAdd]
  | cons e rest ih =>
    obtain ⟨q, os⟩ := e
    rcases List.pairwise_cons.mp h with ⟨hb, ht⟩
    by_cases h1 : p = q
    · subst h1
      simp only [asksAdd, if_pos rfl, List.map_cons]
      exact List.pairwise_cons.mpr ⟨hb, ht⟩
    · by_cases h2 : p < q
      · simp only [asksAdd, if_neg h1, if_pos h2, List.map_cons]
        refine List.pairwise_cons.mpr ⟨?_, List.pairwise_cons.mpr ⟨hb, ht⟩⟩
        intro x hx
        rcases List.mem_cons.mp hx with rfl | hm
        · exact h2
        · exact lt_trans h2 (hb x hm)
      · simp only [asksAdd, if_neg h1, if_neg h2, List.map_cons]
        refine List.pairwise_cons.mpr ⟨?_, ih ht⟩
        intro x hx
        rcases mem_keys_asksAdd rest p o x hx with hm | rfl
        · exact hb x hm
        · omega

theorem bidsAdd_buckets_ne (l : List (Int × List Order)) (p : Int) (o : Order)
    (h : ∀ pr ∈ l, pr.2 ≠ []) : ∀ pr ∈ bidsAdd l p o, pr.2 ≠ [] := by
  induction l with
  | nil =>
    intro pr hpr
    simp only [bidsAdd, List.mem_singleton] at hpr
    subst hpr
    simp
  | cons e rest ih =>
    obtain ⟨q, os⟩ := e
    intro pr hpr
    by_cases h1 : p = q
    · simp only [bidsAdd, if_pos h1, List.mem_cons] at hpr
      rcases hpr with rfl | hm
      · simp
      · exact h pr (List.mem_cons_of_mem _ hm)
    · by_cases h2 : p > q
      · simp only [bidsAdd, if_neg h1, if_pos h2, List.mem_cons] at hpr
        rcases hpr with rfl | hm
        · simp
        · exact h pr (List.mem_cons.mpr hm)
      · simp only [bidsAdd, if_neg h1, if_neg h2, List.mem_cons] at hpr
        rcases hpr with rfl | hm
        · exact h (q, os) (List.mem_cons_self _ _)
        · exact ih (fun x hx => h x (List.mem_cons_of_mem _ hx)) pr hm

theorem asksAdd_buckets_ne (l : List (Int × List Order)) (p : Int) (o : Order)
    (h : ∀ pr ∈ l, pr.2 ≠ []) : ∀ pr ∈ asksAdd l p o, pr.2 ≠ [] := by
  induction l with
  | nil =>
    intro pr hpr
    simp only [asksAdd, List.mem_singleton] at hpr
    subst hpr
    simp
  | cons e rest ih =>
    obtain ⟨q, os⟩ := e
    intro pr hpr
    by_cases h1 : p = q
    · simp only [asksAdd, if_pos h1, List.mem_cons] at hpr
      rcases hpr with rfl | hm
      · simp
      · exact h pr (List.mem_cons_of_mem _ hm)
    · by_cases h2 : p < q
      · simp only [asksAdd, if_neg h1, if_pos h2, List.mem_cons] at hpr
        rcases hpr with rfl | hm
        · simp
        · exact h pr (List.mem_cons.mpr hm)
      · simp only [asksAdd, if_neg h1, if_neg h2, List.mem_cons] at hpr
        rcases hpr with rfl | hm
        · exact h (q, os) (List.mem_cons_self _ _)
        · exact ih (fun x hx => h x (List.mem_cons_of_mem _ hx)) pr hm

theorem bidsAdd_placed (l : List (Int × List Order)) (p : Int) (o : Order)
    (P : Order → Int → Prop)
    (h : ∀ pr ∈ l, ∀ x ∈ pr.2, P x pr.1) (ho : P o p) :
    ∀ pr ∈ bidsAdd l p o, ∀ x ∈ pr.2, P x pr.1 := by
  induction l with
  | nil =>
    intro pr hpr x hx
    simp only [bidsAdd, List.mem_singleton] at hpr
    subst hpr
    rcases List.mem_singleton.mp hx with rfl
    exact ho
  | cons e rest ih =>
    obtain ⟨q, os⟩ := e
    intro pr hpr x hx
    by_cases h1 : p = q
    · simp only [bidsAdd, if_pos h1, List.mem_cons] at hpr
      rcases hpr with rfl | hm
      · rcases List.mem_append.mp hx with hx1 | hx2
        · exact h (q, os) (List.mem_cons_self _ _) x hx1
        · rcases List.mem_singleton.mp hx2 with rfl
          exact h1 ▸ ho
      · exact h pr (List.mem_cons_of_mem _ hm) x hx
    · by_cases h2 : p > q
      · simp only [bidsAdd, if_neg h1, if_pos h2, List.mem_cons] at hpr
        rcases hpr with rfl | hm
        · rcases List.mem_singleton.mp hx with rfl
          exact ho
        · exact h pr (List.mem_cons.mpr hm) x hx
      · simp only [bidsAdd, if_neg h1, if_neg h2, List.mem_cons] at hpr
        rcases hpr with rfl | hm
        · exact h (q, os) (List.mem_cons_self _ _) x hx
        · exact ih (fun y hy => h y (List.mem_cons_of_mem _ hy)) pr hm x hx

theorem asksAdd_placed (l : List (Int × List Order)) (p : Int) (o : Order)
    (P : Order → Int → Prop)
    (h : ∀ pr ∈ l, ∀ x ∈ pr.2, P x pr.1) (ho : P o p) :
    ∀ pr ∈ asksAdd l p o, ∀ x ∈ pr.2, P x pr.1 := by
  induction l with
  | nil =>
    intro pr hpr x hx
    simp only [asksAdd, List.mem_singleton] at hpr
    subst hpr
    rcases List.mem_singleton.mp hx with rfl
    exact ho
  | cons e rest ih =>
    obtain ⟨q, os⟩ := e
    intro pr hpr x hx
    by_cases h1 : p = q
    · simp only [asksAdd, if_pos h1, List.mem_cons] at hpr
      rcases hpr with rfl | hm
      · rcases List.mem_append.mp hx with hx1 | hx2
        · exact h (q, os) (List.mem_cons_self _ _) x hx1
        · rcases List.mem_singleton.mp hx2 with rfl
          exact h1 ▸ ho
      · exact h pr (List.mem_cons_of_mem _ hm) x hx
    · by_cases h2 : p < q
      · simp only [asksAdd, if_neg h1, if_pos h2, List.mem_cons] at hpr
        rcases hpr with rfl | hm
        · rcases List.mem_singleton.mp hx with rfl
          exact ho
        · exact h pr (List.mem_cons.mpr hm) x hx
      · simp only [asksAdd, if_neg h1, if_neg h2, List.mem_cons] at hpr
        rcases hpr with rfl | hm
        · exact h (q, os) (List.mem_cons_self _ _) x hx
        · exact ih (fun y hy => h y (List.mem_cons_of_mem _ hy)) pr hm x hx

/-- The head order of the top bucket of a ladder (the candidate the residual
FillAndKill cleanup inspects). -/
def topOrder : List (Int × List Order) → Option Order
  | (_, x :: _) :: _ => some x
  | _ => none

theorem bidsAdd_topOrder (l : List (Int × List Order)) (p : Int) (o : Order)
    (hne : ∀ pr ∈ l, pr.2 ≠ []) :
    topOrder (bidsAdd l p o) = some o
      ∨ (∃ x, topOrder l = some x ∧ topOrder (bidsAdd l p o) = some x) := by
  cases l with
  | nil => exact Or.inl rfl
  | cons e rest =>
    obtain ⟨q, os⟩ := e
    have hosne : os ≠ [] := hne (q, os) (List.mem_cons_self _ _)
    obtain ⟨y, os2, rfl⟩ := List.exists_cons_of_ne_nil hosne
    by_cases h1 : p = q
    · refine Or.inr ⟨y, rfl, ?_⟩
      simp only [bidsAdd, if_pos h1]
      rfl
    · by_cases h2 : p > q
      · refine Or.inl ?_
        simp only [bidsAdd, if_neg h1, if_pos h2]
        rfl
      · refine Or.inr ⟨y, rfl, ?_⟩
        simp only [bidsAdd, if_neg h1, if_neg h2]
        rfl

theorem asksAdd_topOrder (l : List (Int × List Order)) (p : Int) (o : Order)
    (hne : ∀ pr ∈ l, pr.2 ≠ []) :
    topOrder (asksAdd l p o) = some o
      ∨ (∃ x, topOrder l = some x ∧ topOrder (asksAdd l p o) = some x) := by
  cases l with
  | nil => exact Or.inl rfl
  | cons e rest =>
    obtain ⟨q, os⟩ := e
    have hosne : os ≠ [] := hne (q, os) (List.mem_cons_self _ _)
    obtain ⟨y, os2, rfl⟩ := List.exists_cons_of_ne_nil hosne
    by_cases h1 : p = q
    · refine Or.inr ⟨y, rfl, ?_⟩
      simp only [asksAdd, if_pos h1]
      rfl
    · by_cases h2 : p < q
      · refine Or.inl ?_
        simp only [asksAdd, if_neg h1, if_pos h2]
        rfl
      · refine Or.inr ⟨y, rfl, ?_⟩
        simp only [asksAdd, if_neg h1, if_neg h2]
        rfl

theorem bidsAdd_top_key (l : List (Int × List Order)) (p : Int) (o : Order) :
    ((bidsAdd l p o).map Prod.fst).head? =
      some (match (l.map Prod.fst).head? with
            | none => p
            | some q => max p q) := by
  cases l with
  | nil => simp [bidsAdd]
  | cons e rest =>
    obtain ⟨q, os⟩ := e
    by_cases h1 : p = q
    · subst h1
      simp [bidsAdd]
    · by_cases h2 : p > q
      · simp [bidsAdd, h1, h2, max_eq_left (le_of_lt h2)]
      · have h3 : p < q := by omega
        simp [bidsAdd, h1, h2, max_eq_right (le_of_lt h3)]

theorem asksAdd_top_key (l : List (Int × List Order)) (p : Int) (o : Order) :
    ((asksAdd l p o).map Prod.fst).head? =
      some (match (l.map Prod.fst).head? with
            | none => p
            | some q => min p q) := by
  cases l with
  | nil => simp [asksAdd]
  | cons e rest =>
    obtain ⟨q, os⟩ := e
    by_cases h1 : p = q
    · subst h1
      simp [asksAdd]
    · by_cases h2 : p < q
      · simp [asksAdd, h1, h2, min_eq_left (le_of_lt h2)]
      · have h3 : q < p := by omega
        simp [asksAdd, h1, h2, min_eq_right (le_of_lt h3)]

theorem ladderRemove_bidsAdd (l : List (Int × List Order)) (p : Int) (o : Order)
    (hfresh : ∀ x ∈ ladderOrders l, x.orderId ≠ o.orderId)
    (hne : ∀ pr ∈ l, pr.2 ≠ []) :
    ladderRemove (bidsAdd l p o) p o.orderId = l := by
  induction l with
  | nil =>
    simp [bidsAdd, ladderRemove, List.eraseP_cons, List.eraseP_nil]
  | cons e rest ih =>
    obtain ⟨q, os⟩ := e
    by_cases h1 : p = q
    · subst h1
      simp only [bidsAdd, if_pos rfl, ladderRemove, if_pos rfl, if_true]
      have hno : ∀ x ∈ os, ¬ (x.orderId == o.orderId) = true := by
        intro x hx
        simp only [beq_iff_eq]
        exact hfresh x (by
          rw [ladderOrders_cons]
          exact List.mem_append_left _ hx)
      rw [List.eraseP_append_right _ hno]
      simp only [List.eraseP_cons, beq_self_eq_true, cond_true, List.append_nil]
      rw [if_neg]
      simp only [List.isEmpty_iff]
      exact hne (p, os) (List.mem_cons_self _ _)
    · by_cases h2 : p > q
      · simp only [bidsAdd, if_neg h1, if_pos h2]
        simp only [ladderRemove, if_pos rfl, if_true, List.eraseP_cons, beq_self_eq_true,
          cond_true, List.isEmpty_nil]
      · simp only [bidsAdd, if_neg h1, if_neg h2, ladderRemove, if_neg h1]
        rw [ih (fun x hx => hfresh x (by
          rw [ladderOrders_cons]
          exact List.mem_append_right _ hx))
          (fun pr hpr => hne pr (List.mem_cons_of_mem _ hpr))]

theorem ladderRemove_asksAdd (l : List (Int × List Order)) (p : Int) (o : Order)
    (hfresh : ∀ x ∈ ladderOrders l, x.orderId ≠ o.orderId)
    (hne : ∀ pr ∈ l, pr.2 ≠ []) :
    ladderRemove (asksAdd l p o) p o.orderId = l := by
  induction l with
  | nil =>
    simp [asksAdd, ladderRemove, List.eraseP_cons, List.eraseP_nil]
  | cons e rest ih =>
    obtain ⟨q, os⟩ := e
    by_cases h1 : p = q
    · subst h1
      simp only [asksAdd, if_pos rfl, ladderRemove, if_pos rfl, if_true]
      have hno : ∀ x ∈ os, ¬ (x.orderId == o.orderId) = true := by
        intro x hx
        simp only [beq_iff_eq]
        exact hfresh x (by
          rw [ladderOrders_cons]
          exact List.mem_append_left _ hx)
      rw [List.eraseP_append_right _ hno]
      simp only [List.eraseP_cons, beq_self_eq_true, cond_true, List.append_nil]
      rw [if_neg]
      simp only [List.isEmpty_iff]
      exact hne (p, os) (List.mem_cons_self _ _)
    · by_cases h2 : p < q
      · simp only [asksAdd, if_neg h1, if_pos h2]
        simp only [ladderRemove, if_pos rfl, if_true, List.eraseP_cons, beq_self_eq_true,
          cond_true, List.isEmpty_nil]
      · simp only [asksAdd, if_neg h1, if_neg h2, ladderRemove, if_neg h1]
        rw [ih (fun x hx => hfresh x (by
          rw [ladderOrders_cons]
          exact List.mem_append_right _ hx))
          (fun pr hpr => hne pr (List.mem_cons_of_mem _ hpr))]

theorem mem_ladderOrders {x : Order} {l : List (Int × List Order)} :
    x ∈ ladderOrders l ↔ ∃ pr ∈ l, x ∈ pr.2 := by
  simp only [ladderOrders, List.mem_flatten, List.mem_map]
  constructor
  · rintro ⟨os, ⟨pr, hpr, rfl⟩, hx⟩
    exact ⟨pr, hpr, hx⟩
  · rintro ⟨pr, hpr, hx⟩
    exact ⟨pr.2, ⟨pr, hpr, rfl⟩, hx⟩

theorem ladderOrders_ladderRemove_sublist (l : List (Int × List Order))
    (p : Int) (orderId : Nat) :
    (ladderOrders (ladderRemove l p orderId)).Sublist (ladderOrders l) := by
  induction l with
  | nil => simp [ladderRemove]
  | cons e rest ih =>
    obtain ⟨q, os⟩ := e
    by_cases h1 : p = q
    · simp only [ladderRemove, if_pos h1]
      by_cases hemp : (os.eraseP (fun o => o.orderId == orderId)).isEmpty
      · rw [if_pos hemp, ladderOrders_cons]
        exact List.sublist_append_right os (ladderOrders rest)
      · rw [if_neg hemp, ladderOrders_cons, ladderOrders_cons]
        exact (List.eraseP_sublist os).append (List.Sublist.refl _)
    · simp only [ladderRemove, if_neg h1]
      rw [ladderOrders_cons, ladderOrders_cons]
      exact (List.Sublist.refl os).append ih

theorem ladderRemove_keys_sublist (l : List (Int × List Order))
    (p : Int) (orderId : Nat) :
    ((ladderRemove l p orderId).map Prod.fst).Sublist (l.map Prod.fst) := by
  induction l with
  | nil => simp [ladderRemove]
  | cons e rest ih =>
    obtain ⟨q, os⟩ := e
    by_cases h1 : p = q
    · simp only [ladderRemove, if_pos h1]
      by_cases hemp : (os.eraseP (fun o => o.orderId == orderId)).isEmpty
      · rw [if_pos hemp]
        simp only [List.map_cons]
        exact (List.sublist_cons_self _ _)
      · rw [if_neg hemp]
        simp
    · simp only [ladderRemove, if_neg h1, List.map_cons]
      exact ih.cons₂ q

theorem ladderRemove_buckets_ne (l : List (Int × List Order)) (p : Int)
    (orderId : Nat) (hne : ∀ pr ∈ l, pr.2 ≠ []) :
    ∀ pr ∈ ladderRemove l p orderId, pr.2 ≠ [] := by
  induction l with
  | nil => simp [ladderRemove]
  | cons e rest ih =>
    obtain ⟨q, os⟩ := e
    intro pr hpr
    by_cases h1 : p = q
    · simp only [ladderRemove, if_pos h1] at hpr
      by_cases hemp : (os.eraseP (fun o => o.orderId == orderId)).isEmpty
      · rw [if_pos hemp] at hpr
        exact hne pr (List.mem_cons_of_mem _ hpr)
      · rw [if_neg hemp] at hpr
        rcases List.mem_cons.mp hpr with rfl | hm
        · simpa [List.isEmpty_iff] using hemp
        · exact hne pr (List.mem_cons_of_mem _ hm)
    · simp only [ladderRemove, if_neg h1] at hpr
      rcases List.mem_cons.mp hpr with rfl | hm
      · exact hne (q, os) (List.mem_cons_self _ _)
      · exact ih (fun x hx => hne x (List.mem_cons_of_mem _ hx)) pr hm

theorem ladderRemove_placed (l : List (Int × List Order)) (p : Int)
    (orderId : Nat) (P : Order → Int → Prop)
    (h : ∀ pr ∈ l, ∀ x ∈ pr.2, P x pr.1) :
    ∀ pr ∈ ladderRemove l p orderId, ∀ x ∈ pr.2, P x pr.1 := by
  induction l with
  | nil => simp [ladderRemove]
  | cons e rest ih =>
    obtain ⟨q, os⟩ := e
    intro pr hpr x hx
    by_cases h1 : p = q
    · simp only [ladderRemove, if_pos h1] at hpr
      by_cases hemp : (os.eraseP (fun o => o.orderId == orderId)).isEmpty
      · rw [if_pos hemp] at hpr
        exact h pr (List.mem_cons_of_mem _ hpr) x hx
      · rw [if_neg hemp] at hpr
        rcases List.mem_cons.mp hpr with rfl | hm
        · exact h (q, os) (List.mem_cons_self _ _) x
            ((List.eraseP_sublist os).mem hx)
        · exact h pr (List.mem_cons_of_mem _ hm) x hx
    · simp only [ladderRemove, if_neg h1] at hpr
      rcases List.mem_cons.mp hpr with rfl | hm
      · exact h (q, os) (List.mem_cons_self _ _) x hx
      · exact ih (fun y hy => h y (List.mem_cons_of_mem _ hy)) pr hm x hx

/-- Removing a resting order via its stored locator splits the the ladder's
order sequence around exactly that order (well-placed buckets, unique keys and
unique ids). -/
theorem ladderRemove_split {l : List (Int × List Order)} {x : Order}
    (hplaced : ∀ pr ∈ l, ∀ y ∈ pr.2, y.price = pr.1)
    (hkeys : (l.map Prod.fst).Nodup)
    (huni : ((ladderOrders l).map Order.orderId).Nodup)
    (hx : x ∈ ladderOrders l) :
    ∃ l1 l2, ladderOrders l = l1 ++ x :: l2
      ∧ ladderOrders (ladderRemove l x.price x.orderId) = l1 ++ l2 := by
  induction l with
  | nil => simp [ladderOrders] at hx
  | cons e rest ih =>
    obtain ⟨q, os⟩ := e
    rw [ladderOrders_cons] at hx huni
    by_cases h1 : x.price = q
    · have hxos : x ∈ os := by
        rcases List.mem_append.mp hx with hin | hin
        · exact hin
        · exfalso
          rcases mem_ladderOrders.mp hin with ⟨pr, hpr, hxpr⟩
          have := hplaced pr (List.mem_cons_of_mem _ hpr) x hxpr
          have hqmem : q ∈ rest.map Prod.fst := by
            rw [← h1, this]
            exact List.mem_map_of_mem Prod.fst hpr
          exact (List.nodup_cons.mp hkeys).1 hqmem
      have hex : ∃ a os1 os2, (∀ b ∈ os1, ¬(b.orderId == x.orderId) = true)
          ∧ (a.orderId == x.orderId) = true ∧ os = os1 ++ a :: os2
          ∧ os.eraseP (fun o => o.orderId == x.orderId) = os1 ++ os2 :=
        List.exists_of_eraseP hxos (by simp)
      obtain ⟨a, os1, os2, hos1, hpa, hoseq, herase⟩ := hex
      have hax : a = x := by
        have hamem : a ∈ os := by
          rw [hoseq]
          exact List.mem_append_right _ (List.mem_cons_self _ _)
        have haid : a.orderId = x.orderId := by simpa using hpa
        exact List.inj_on_of_nodup_map huni
          (List.mem_append_left _ hamem) (List.mem_append_left _ hxos) haid
      subst hax
      refine ⟨os1, os2 ++ ladderOrders rest, ?_, ?_⟩
      · rw [ladderOrders_cons, hoseq]
        simp
      · simp only [ladderRemove, if_pos h1, herase]
        by_cases hemp : (os1 ++ os2).isEmpty
        · rw [if_pos hemp]
          have : os1 = [] ∧ os2 = [] := by
            rcases List.isEmpty_iff.mp hemp |> List.append_eq_nil.mp with ⟨ha, hb⟩
            exact ⟨ha, hb⟩
          rcases this with ⟨rfl, rfl⟩
          simp
        · rw [if_neg hemp, ladderOrders_cons]
          simp
    · have hxos : x ∉ os := by
        intro hin
        exact h1 (hplaced (q, os) (List.mem_cons_self _ _) x hin)
      have hxrest : x ∈ ladderOrders rest := by
        rcases List.mem_append.mp hx with hin | hin
        · exact absurd hin hxos
        · exact hin
      obtain ⟨l1, l2, hsplit, hrem⟩ := ih
        (fun pr hpr => hplaced pr (List.mem_cons_of_mem _ hpr))
        (List.nodup_cons.mp hkeys).2
        (by
          rw [List.map_append] at huni
          exact huni.of_append_right)
        hxrest
      exact ⟨os ++ l1, l2, by rw [ladderOrders_cons, hsplit, List.append_assoc],
        by
          simp only [ladderRemove, if_neg h1, ladderOrders_cons, hrem]
          rw [List.append_assoc]⟩

/-- Well-formedness of a book state: the source's representation invariants
(spec 4.2/4.3 and 8): ladders sorted in their map's key order with only
non-empty buckets, every resting order in the bucket of its own price on the
ladder of its own side, ids unique across the book, and level aggregates
consistent with the ladders.  (The model keeps `data_` sorted as its canonical
representation of the unordered map.) -/
structure Orderbook.WF (b : Orderbook) : Prop where
  bidsSorted : List.Pairwise (· > ·) (b.bids.map Prod.fst)
  asksSorted : List.Pairwise (· < ·) (b.asks.map Prod.fst)
  dataSorted : List.Pairwise (· < ·) (b.data.map Prod.fst)
  bidsNE : ∀ pr ∈ b.bids, pr.2 ≠ []
  asksNE : ∀ pr ∈ b.asks, pr.2 ≠ []
  bidsPlaced : ∀ pr ∈ b.bids, ∀ o ∈ pr.2, o.price = pr.1 ∧ o.side = Side.Buy
  asksPlaced : ∀ pr ∈ b.asks, ∀ o ∈ pr.2, o.price = pr.1 ∧ o.side = Side.Sell
  idsNodup : (b.allOrders.map Order.orderId).Nodup
  consistent : consistentWith b.data b.allOrders

/-- The cross-side invariant: `topBid < topAsk` whenever both sides are
non-empty (spec 4.3 / invariant 3; restored by the matching loop). -/
def Orderbook.NonCrossing (b : Orderbook) : Prop :=
  ∀ bp ∈ (b.bids.map Prod.fst).head?, ∀ ap ∈ (b.asks.map Prod.fst).head?, bp < ap

/-- No FillAndKill order rests in the book (spec 8, law: IOC never rests). -/
def Orderbook.NoRestingFAK (b : Orderbook) : Prop :=
  ∀ o ∈ b.allOrders, o.orderType ≠ OrderType.FillAndKill

theorem findOrder_mem {b : Orderbook} {orderId : Nat} {o : Order}
    (h : b.findOrder orderId = some o) : o ∈ b.allOrders ∧ o.orderId = orderId := by
  unfold Orderbook.findOrder at h
  refine ⟨List.mem_of_find?_eq_some h, ?_⟩
  have := List.find?_some h
  simpa using this

theorem findOrder_eq_none {b : Orderbook} {orderId : Nat}
    (h : b.ordersContains orderId = false) : b.findOrder orderId = none := by
  unfold Orderbook.ordersContains at h
  unfold Orderbook.findOrder
  rw [List.find?_eq_none]
  intro x hx
  intro hbeq
  have : b.allOrders.any (fun o => o.orderId == orderId) = true :=
    List.any_eq_true.mpr ⟨x, hx, hbeq⟩
  rw [h] at this
  cases this

theorem ordersContains_of_findOrder {b : Orderbook} {orderId : Nat} {o : Order}
    (h : b.findOrder orderId = some o) : b.ordersContains orderId = true := by
  obtain ⟨hm, hid⟩ := findOrder_mem h
  unfold Orderbook.ordersContains
  exact List.any_eq_true.mpr ⟨o, hm, by simpa using hid⟩

theorem nodup_ids_sub {l l' : List Order}
    (hsub : l'.Sublist l) (h : (l.map Order.orderId).Nodup) :
    (l'.map Order.orderId).Nodup :=
  List.Nodup.sublist (List.Sublist.map Order.orderId hsub) h

/-- Pairwise strict ascending keys are unique. -/
theorem nodup_of_pairwise_lt {l : List Int} (h : List.Pairwise (· < ·) l) :
    l.Nodup :=
  h.imp (fun hlt => ne_of_lt hlt)

/-- Pairwise strict descending keys are unique. -/
theorem nodup_of_pairwise_gt {l : List Int} (h : List.Pairwise (· > ·) l) :
    l.Nodup :=
  h.imp (fun hlt => ne_of_gt hlt)

theorem updateLevelData_sorted (d : List (Int × LevelData)) (p : Int) (q : Nat)
    (a : LevelAction) (h : List.Pairwise (· < ·) (d.map Prod.fst)) :
    List.Pairwise (· < ·) ((updateLevelData d p q a).map Prod.fst) := by
  unfold updateLevelData
  by_cases hc : (match a with
    | LevelAction.Remove => (dataGet d p).count - 1
    | LevelAction.Add => (dataGet d p).count + 1
    | LevelAction.Match => (dataGet d p).count) = 0
  · rw [if_pos hc]
    exact dataErase_sorted d p h
  · rw [if_neg hc]
    exact dataSet_sorted d p _ h

theorem allOrders_set_bids (b : Orderbook) (B : List (Int × List Order)) :
    ({ b with bids := B } : Orderbook).allOrders = ladderOrders B ++ ladderOrders b.asks := rfl

theorem allOrders_set_asks (b : Orderbook) (A : List (Int × List Order)) :
    ({ b with asks := A } : Orderbook).allOrders = ladderOrders b.bids ++ ladderOrders A := rfl

theorem allOrders_updateLevelData (b : Orderbook) (p : Int) (q : Nat) (a : LevelAction) :
    (b.UpdateLevelData p q a).allOrders = b.allOrders := rfl

/-- `CancelOrderInternal` preserves well-formedness and shrinks the ladders. -/
theorem cancelOrderInternal_WF {b : Orderbook} (orderId : Nat) (hwf : b.WF) :
    (b.CancelOrderInternal orderId).WF
    ∧ (ladderOrders (b.CancelOrderInternal orderId).bids).Sublist (ladderOrders b.bids)
    ∧ (ladderOrders (b.CancelOrderInternal orderId).asks).Sublist (ladderOrders b.asks)
    ∧ ((b.CancelOrderInternal orderId).bids.map Prod.fst).Sublist (b.bids.map Prod.fst)
    ∧ ((b.CancelOrderInternal orderId).asks.map Prod.fst).Sublist (b.asks.map Prod.fst) := by
  cases hfind : b.findOrder orderId with
  | none =>
    unfold Orderbook.CancelOrderInternal
    rw [hfind]
    exact ⟨hwf, List.Sublist.refl _, List.Sublist.refl _, List.Sublist.refl _,
      List.Sublist.refl _⟩
  | some o =>
    obtain ⟨hmem, hid⟩ := findOrder_mem hfind
    subst hid
    unfold Orderbook.CancelOrderInternal
    rw [hfind]
    cases hside : o.side with
    | Buy =>
      have hobids : o ∈ ladderOrders b.bids := by
        rcases List.mem_append.mp hmem with hin | hin
        · exact hin
        · exfalso
          rcases mem_ladderOrders.mp hin with ⟨pr, hpr, hxpr⟩
          have := (hwf.asksPlaced pr hpr o hxpr).2
          rw [hside] at this
          cases this
      obtain ⟨l1, l2, hsplit, hrem⟩ := ladderRemove_split
        (fun pr hpr y hy => (hwf.bidsPlaced pr hpr y hy).1)
        (nodup_of_pairwise_gt hwf.bidsSorted)
        (by
          have := hwf.idsNodup
          unfold Orderbook.allOrders at this
          rw [List.map_append] at this
          exact this.of_append_left)
        hobids
      simp only [hside]
      unfold Orderbook.OnOrderCancelled Orderbook.UpdateLevelData
      have hall : b.allOrders = l1 ++ o :: (l2 ++ ladderOrders b.asks) := by
        unfold Orderbook.allOrders
        rw [hsplit]
        simp
      have hall2 : ladderOrders (ladderRemove b.bids o.price o.orderId)
            ++ ladderOrders b.asks = l1 ++ (l2 ++ ladderOrders b.asks) := by
        rw [hrem]
        simp
      refine ⟨⟨?_, ?_, ?_, ?_, ?_, ?_, ?_, ?_, ?_⟩, ?_, ?_, ?_, ?_⟩
      · exact List.Pairwise.sublist (ladderRemove_keys_sublist _ _ _) hwf.bidsSorted
      · exact hwf.asksSorted
      · show List.Pairwise (· < ·)
            ((updateLevelData b.data o.price o.remainingQuantity LevelAction.Remove).map
              Prod.fst)
        exact updateLevelData_sorted _ _ _ _ hwf.dataSorted
      · exact ladderRemove_buckets_ne _ _ _ hwf.bidsNE
      · exact hwf.asksNE
      · exact ladderRemove_placed _ _ _
          (fun x p => x.price = p ∧ x.side = Side.Buy) hwf.bidsPlaced
      · exact hwf.asksPlaced
      · show (List.map Order.orderId
            (ladderOrders (ladderRemove b.bids o.price o.orderId)
              ++ ladderOrders b.asks)).Nodup
        rw [hall2]
        have := hwf.idsNodup
        rw [hall] at this
        refine nodup_ids_sub ?_ this
        exact (List.Sublist.refl l1).append (List.sublist_cons_self o _)
      · show consistentWith
            (updateLevelData b.data o.price o.remainingQuantity LevelAction.Remove)
            (ladderOrders (ladderRemove b.bids o.price o.orderId)
              ++ ladderOrders b.asks)
        rw [hall2]
        have hcons := hwf.consistent
        rw [hall] at hcons
        exact consistentWith_remove (nodup_of_pairwise_lt hwf.dataSorted) hcons
      · exact ladderOrders_ladderRemove_sublist _ _ _
      · exact List.Sublist.refl _
      · exact ladderRemove_keys_sublist _ _ _
      · exact List.Sublist.refl _
    | Sell =>
      have hoasks : o ∈ ladderOrders b.asks := by
        rcases List.mem_append.mp hmem with hin | hin
        · exfalso
          rcases mem_ladderOrders.mp hin with ⟨pr, hpr, hxpr⟩
          have := (hwf.bidsPlaced pr hpr o hxpr).2
          rw [hside] at this
          cases this
        · exact hin
      obtain ⟨l1, l2, hsplit, hrem⟩ := ladderRemove_split
        (fun pr hpr y hy => (hwf.asksPlaced pr hpr y hy).1)
        (nodup_of_pairwise_lt hwf.asksSorted)
        (by
          have := hwf.idsNodup
          unfold Orderbook.allOrders at this
          rw [List.map_append] at this
          exact this.of_append_right)
        hoasks
      simp only [hside]
      unfold Orderbook.OnOrderCancelled Orderbook.UpdateLevelData
      have hall : b.allOrders = (ladderOrders b.bids ++ l1) ++ o :: l2 := by
        unfold Orderbook.allOrders
        rw [hsplit]
        simp
      have hall2 : ladderOrders b.bids
            ++ ladderOrders (ladderRemove b.asks o.price o.orderId)
            = (ladderOrders b.bids ++ l1) ++ l2 := by
        rw [hrem]
        simp
      refine ⟨⟨?_, ?_, ?_, ?_, ?_, ?_, ?_, ?_, ?_⟩, ?_, ?_, ?_, ?_⟩
      · exact hwf.bidsSorted
      · exact List.Pairwise.sublist (ladderRemove_keys_sublist _ _ _) hwf.asksSorted
      · show List.Pairwise (· < ·)
            ((updateLevelData b.data o.price o.remainingQuantity LevelAction.Remove).map
              Prod.fst)
        exact updateLevelData_sorted _ _ _ _ hwf.dataSorted
      · exact hwf.bidsNE
      · exact ladderRemove_buckets_ne _ _ _ hwf.asksNE
      · exact hwf.bidsPlaced
      · exact ladderRemove_placed _ _ _
          (fun x p => x.price = p ∧ x.side = Side.Sell) hwf.asksPlaced
      · show (List.map Order.orderId
            (ladderOrders b.bids
              ++ ladderOrders (ladderRemove b.asks o.price o.orderId))).Nodup
        rw [hall2]
        have := hwf.idsNodup
        rw [hall] at this
        refine nodup_ids_sub ?_ this
        exact (List.Sublist.refl _).append (List.sublist_cons_self o _)
      · show consistentWith
            (updateLevelData b.data o.price o.remainingQuantity LevelAction.Remove)
            (ladderOrders b.bids
              ++ ladderOrders (ladderRemove b.asks o.price o.orderId))
        rw [hall2]
        have hcons := hwf.consistent
        rw [hall] at hcons
        exact consistentWith_remove (nodup_of_pairwise_lt hwf.dataSorted) hcons
      · exact List.Sublist.refl _
      · exact ladderOrders_ladderRemove_sublist _ _ _
      · exact List.Sublist.refl _
      · exact ladderRemove_keys_sublist _ _ _

/-- Cancelling a present id removes exactly that order from the order
sequence. -/
theorem cancelOrderInternal_orders {b : Orderbook} {orderId : Nat} {o : Order}
    (hwf : b.WF) (hfind : b.findOrder orderId = some o) :
    ∃ l1 l2, b.allOrders = l1 ++ o :: l2
      ∧ (b.CancelOrderInternal orderId).allOrders = l1 ++ l2 := by
  obtain ⟨hmem, hid⟩ := findOrder_mem hfind
  subst hid
  unfold Orderbook.CancelOrderInternal
  rw [hfind]
  cases hside : o.side with
  | Buy =>
    have hobids : o ∈ ladderOrders b.bids := by
      rcases List.mem_append.mp hmem with hin | hin
      · exact hin
      · exfalso
        rcases mem_ladderOrders.mp hin with ⟨pr, hpr, hxpr⟩
        have := (hwf.asksPlaced pr hpr o hxpr).2
        rw [hside] at this
        cases this
    obtain ⟨l1, l2, hsplit, hrem⟩ := ladderRemove_split
      (fun pr hpr y hy => (hwf.bidsPlaced pr hpr y hy).1)
      (nodup_of_pairwise_gt hwf.bidsSorted)
      (by
        have := hwf.idsNodup
        unfold Orderbook.allOrders at this
        rw [List.map_append] at this
        exact this.of_append_left)
      hobids
    simp only [hside]
    unfold Orderbook.OnOrderCancelled Orderbook.UpdateLevelData
    refine ⟨l1, l2 ++ ladderOrders b.asks, ?_, ?_⟩
    · unfold Orderbook.allOrders
      rw [hsplit]
      simp
    · show ladderOrders (ladderRemove b.bids o.price o.orderId)
          ++ ladderOrders b.asks = _
      rw [hrem]
      simp
  | Sell =>
    have hoasks : o ∈ ladderOrders b.asks := by
      rcases List.mem_append.mp hmem with hin | hin
      · exfalso
        rcases mem_ladderOrders.mp hin with ⟨pr, hpr, hxpr⟩
        have := (hwf.bidsPlaced pr hpr o hxpr).2
        rw [hside] at this
        cases this
      · exact hin
    obtain ⟨l1, l2, hsplit, hrem⟩ := ladderRemove_split
      (fun pr hpr y hy => (hwf.asksPlaced pr hpr y hy).1)
      (nodup_of_pairwise_lt hwf.asksSorted)
      (by
        have := hwf.idsNodup
        unfold Orderbook.allOrders at this
        rw [List.map_append] at this
        exact this.of_append_right)
      hoasks
    simp only [hside]
    unfold Orderbook.OnOrderCancelled Orderbook.UpdateLevelData
    refine ⟨ladderOrders b.bids ++ l1, l2, ?_, ?_⟩
    · unfold Orderbook.allOrders
      rw [hsplit]
      simp
    · show ladderOrders b.bids
          ++ ladderOrders (ladderRemove b.asks o.price o.orderId) = _
      rw [hrem]
      simp

/-- After cancelling a present id, that id is gone from the index. -/
theorem cancel_removes_id {b : Orderbook} {orderId : Nat} {o : Order}
    (hwf : b.WF) (hfind : b.findOrder orderId = some o) :
    (b.CancelOrderInternal orderId).ordersContains orderId = false := by
  obtain ⟨l1, l2, h1, h2⟩ := cancelOrderInternal_orders hwf hfind
  obtain ⟨hmem, hid⟩ := findOrder_mem hfind
  have hnd := hwf.idsNodup
  rw [h1, List.map_append, List.map_cons] at hnd
  rw [List.nodup_append] at hnd
  obtain ⟨_, hndr, hdisj⟩ := hnd
  have ho1 : o.orderId ∉ l1.map Order.orderId := fun hin =>
    hdisj hin (List.mem_cons_self _ _)
  have ho2 : o.orderId ∉ l2.map Order.orderId := (List.nodup_cons.mp hndr).1
  unfold Orderbook.ordersContains
  rw [h2]
  rw [List.any_eq_false]
  intro x hx
  simp only [beq_iff_eq]
  rcases List.mem_append.mp hx with hin | hin
  · intro hxid
    exact ho1 (hid ▸ hxid ▸ List.mem_map_of_mem Order.orderId hin)
  · intro hxid
    exact ho2 (hid ▸ hxid ▸ List.mem_map_of_mem Order.orderId hin)

theorem dataGet?_mem {d : List (Int × LevelData)} {p : Int}
    (hk : p ∈ d.map Prod.fst) : ∃ v, dataGet? d p = some v ∧ (p, v) ∈ d := by
  induction d with
  | nil => cases hk
  | cons e rest ih =>
    by_cases h1 : p = e.1
    · subst h1
      exact ⟨e.2, by simp [dataGet?], by simp⟩
    · have : p ∈ rest.map Prod.fst := by
        rw [List.map_cons, List.mem_cons] at hk
        rcases hk with hh | hh
        · exact absurd hh h1
        · exact hh
      obtain ⟨v, hv, hvm⟩ := ih this
      exact ⟨v, by simp [dataGet?, h1, hv], List.mem_cons_of_mem _ hvm⟩

/-- A finite check sufficient for aggregate consistency: every stored level is
exactly the aggregate of the orders at its price, and every resting order's
price has a stored level.  (Used to certify concrete witness states.) -/
theorem consistentWith_of_forall (d : List (Int × LevelData)) (orders : List Order)
    (h1 : ∀ pr ∈ d, priceCountIn orders pr.1 ≠ 0
          ∧ pr.2 = ⟨priceQtyIn orders pr.1, priceCountIn orders pr.1⟩)
    (h2 : ∀ o ∈ orders, o.price ∈ d.map Prod.fst) :
    consistentWith d orders := by
  intro p
  by_cases hk : p ∈ d.map Prod.fst
  · obtain ⟨v, hv, hvm⟩ := dataGet?_mem hk
    obtain ⟨hcnt, hval⟩ := h1 (p, v) hvm
    simp only [] at hcnt hval
    rw [hv, if_neg hcnt, hval]
  · rw [dataGet?_eq_none_of_not_mem d p hk]
    have hz : priceCountIn orders p = 0 := by
      rw [priceCountIn, List.countP_eq_zero]
      intro o ho
      simp only [beq_iff_eq]
      intro hop
      exact hk (hop ▸ h2 o ho)
    rw [if_pos hz]

/-- Claim C9.  `ModifyOrder` does not roll back its cancel step: if the
modified id rests with type FillAndKill (resp. FillOrKill) and the re-added
order fails its `CanMatch` (resp. `CanFullyFill`) admission check on the
post-cancel book, then `ModifyOrder` returns no trades, the resulting book is
exactly the post-cancel book, and the id is absent from it. -/
theorem modifyOrder_no_rollback (b : Orderbook) (m : OrderModify) (ex : Order)
    (hwf : b.WF)
    (hfind : b.findOrder m.orderId = some ex)
    (hadm : (ex.orderType = OrderType.FillAndKill
              ∧ (b.CancelOrder m.orderId).CanMatch m.side m.price = false)
          ∨ (ex.orderType = OrderType.FillOrKill
              ∧ (b.CancelOrder m.orderId).CanFullyFill m.side m.price m.quantity = false)) :
    b.ModifyOrder m = ([], b.CancelOrder m.orderId)
    ∧ (b.CancelOrder m.orderId).ordersContains m.orderId = false := by
  have hgone : (b.CancelOrder m.orderId).ordersContains m.orderId = false :=
    cancel_removes_id hwf hfind
  refine ⟨?_, hgone⟩
  unfold Orderbook.ModifyOrder
  rw [hfind]
  unfold Orderbook.AddOrder
  rcases hadm with ⟨hty, hcm⟩ | ⟨hty, hcf⟩
  · simp [hgone, hty, hcm, OrderModify.ToOrderPointer]
  · simp [hgone, hty, hcf, OrderModify.ToOrderPointer]

/-- Witness for `modifyOrder_no_rollback`: a book holding the single resting
FillAndKill bid `(id 1, Buy, 100, 5)`; modifying id 1 to `(Buy, 100, 5)` fails
the re-add's `CanMatch` check (the ask side is empty), so the cancel is not
rolled back. -/
theorem modifyOrder_no_rollback_witness :
    (Orderbook.mk [((100 : Int), ⟨5, 1⟩)]
        [((100 : Int), [⟨OrderType.FillAndKill, 1, Side.Buy, 100, 5, 5⟩])] []).ModifyOrder
        ⟨1, Side.Buy, 100, 5⟩
      = ([], (Orderbook.mk [((100 : Int), ⟨5, 1⟩)]
          [((100 : Int), [⟨OrderType.FillAndKill, 1, Side.Buy, 100, 5, 5⟩])] []).CancelOrder 1)
    ∧ ((Orderbook.mk [((100 : Int), ⟨5, 1⟩)]
          [((100 : Int), [⟨OrderType.FillAndKill, 1, Side.Buy, 100, 5, 5⟩])] []).CancelOrder
            1).ordersContains 1 = false :=
  modifyOrder_no_rollback _ _ ⟨OrderType.FillAndKill, 1, Side.Buy, 100, 5, 5⟩
    ⟨by decide, by decide, by decide, by decide, by decide, by decide, by decide, by decide,
      consistentWith_of_forall _ _ (by decide) (by decide)⟩
    (by decide)
    (Or.inl ⟨rfl, by decide⟩)

/-- The levels `canFullyFill`'s walk accumulates: those passing both the
threshold guard and the price constraint. -/
def levelEligible (side : Side) (price threshold lp : Int) : Bool :=
  !((side == Side.Buy && decide (threshold > lp))
      || (side == Side.Sell && decide (threshold < lp)))
  && !((side == Side.Buy && decide (lp > price))
      || (side == Side.Sell && decide (lp < price)))

/-- For a positive quantity, the level walk succeeds exactly when the eligible
levels' total quantity reaches it (independent of the iteration order). -/
theorem canFullyFillLoop_iff (side : Side) (price threshold : Int)
    (d : List (Int × LevelData)) (q : Nat) (hq : 0 < q) :
    (canFullyFillLoop side price threshold d q = true ↔
      q ≤ ((d.filter (fun e => levelEligible side price threshold e.1)).map
            (fun e => e.2.quantity)).sum) := by
  induction d generalizing q with
  | nil =>
    simp only [canFullyFillLoop, List.filter_nil, List.map_nil, List.sum_nil]
    constructor
    · intro h
      cases h
    · intro h
      omega
  | cons e rest ih =>
    obtain ⟨lp, ld⟩ := e
    by_cases h1 : ((side == Side.Buy && decide (threshold > lp))
        || (side == Side.Sell && decide (threshold < lp))) = true
    · have helig : levelEligible side price threshold lp = false := by
        simp [levelEligible, h1]
      simp only [canFullyFillLoop, if_pos h1, List.filter_cons, helig,
        Bool.false_eq_true, if_neg (by simp : ¬ False)]
      exact ih q hq
    · by_cases h2 : ((side == Side.Buy && decide (lp > price))
          || (side == Side.Sell && decide (lp < price))) = true
      · have helig : levelEligible side price threshold lp = false := by
          simp only [levelEligible, h2]
          simp
        simp only [canFullyFillLoop, if_neg h1, if_pos h2, List.filter_cons, helig,
          Bool.false_eq_true, if_neg (by simp : ¬ False)]
        exact ih q hq
      · have helig : levelEligible side price threshold lp = true := by
          simp only [levelEligible]
          rw [Bool.not_eq_true] at h1 h2
          simp [h1, h2]
        simp only [canFullyFillLoop, if_neg h1, if_neg h2, List.filter_cons, helig,
          eq_self_iff_true, if_true, List.map_cons, List.sum_cons]
        by_cases h3 : q ≤ ld.quantity
        · rw [if_pos h3]
          constructor
          · intro _
            omega
          · intro _
            rfl
        · rw [if_neg h3, ih (q - ld.quantity) (by omega)]
          omega

theorem sum_filter_split (l : List Order) (A B : Order → Bool) (f : Order → Nat) :
    ((l.filter A).map f).sum
      = ((l.filter (fun o => A o && B o)).map f).sum
        + ((l.filter (fun o => A o && !B o)).map f).sum := by
  induction l with
  | nil => rfl
  | cons o t ih =>
    by_cases hA : A o = true
    · by_cases hB : B o = true
      · simp only [List.filter_cons, hA, hB, Bool.and_self, Bool.not_true,
          Bool.and_false, Bool.and_true, eq_self_iff_true, if_true,
          List.map_cons, List.sum_cons, Bool.false_eq_true,
          if_neg (by simp : ¬ False)]
        omega
      · rw [Bool.not_eq_true] at hB
        simp only [List.filter_cons, hA, hB, Bool.and_self, Bool.not_false,
          Bool.and_false, Bool.and_true, eq_self_iff_true, if_true,
          List.map_cons, List.sum_cons, Bool.false_eq_true,
          if_neg (by simp : ¬ False)]
        omega
    · rw [Bool.not_eq_true] at hA
      simp only [List.filter_cons, hA, Bool.false_and,
        Bool.false_eq_true, if_neg (by simp : ¬ False)]
      exact ih

/-- Summing stored level quantities over any price predicate equals summing
remaining quantities of the resting orders whose price satisfies it, on
consistent aggregates. -/
theorem sum_data_filter (d : List (Int × LevelData)) (orders : List Order)
    (P : Int → Bool)
    (hsorted : List.Pairwise (· < ·) (d.map Prod.fst))
    (hc : consistentWith d orders) :
    ((d.filter (fun e => P e.1)).map (fun e => e.2.quantity)).sum
      = ((orders.filter (fun o => P o.price)).map Order.remainingQuantity).sum := by
  induction d generalizing orders with
  | nil =>
    have hnone : orders = [] := by
      cases horders : orders with
      | nil => rfl
      | cons o t =>
        exfalso
        have := hc o.price
        rw [horders] at this
        have hcnt : priceCountIn (o :: t) o.price ≠ 0 := by
          rw [priceCountIn_cons, if_pos rfl]
          omega
        rw [if_neg hcnt] at this
        simp [dataGet?] at this
    rw [hnone]
    rfl
  | cons e rest ih =>
    obtain ⟨lp, ld⟩ := e
    have hhead := hc lp
    have hget : dataGet? ((lp, ld) :: rest) lp = some ld := by
      simp [dataGet?]
    rw [hget] at hhead
    have hcnt : priceCountIn orders lp ≠ 0 := by
      intro hz
      rw [if_pos hz] at hhead
      cases hhead
    rw [if_neg hcnt] at hhead
    have hld : ld = ⟨priceQtyIn orders lp, priceCountIn orders lp⟩ := by
      injection hhead
    have hlpnotin : lp ∉ rest.map Prod.fst := by
      intro hin
      have := (List.pairwise_cons.mp hsorted).1 lp hin
      omega
    have hcrest : consistentWith rest (orders.filter (fun o => !(o.price == lp))) := by
      intro p
      by_cases hp : p = lp
      · subst hp
        rw [dataGet?_eq_none_of_not_mem rest p hlpnotin]
        have hz : priceCountIn (orders.filter (fun o => !(o.price == p))) p = 0 := by
          rw [priceCountIn, List.countP_filter]
          rw [List.countP_eq_zero]
          intro o _
          simp
        rw [if_pos hz]
      · have hgp : dataGet? rest p = dataGet? ((lp, ld) :: rest) p := by
          simp [dataGet?, hp]
        rw [hgp, hc p]
        have hcnteq : priceCountIn (orders.filter (fun o => !(o.price == lp))) p
            = priceCountIn orders p := by
          rw [priceCountIn, List.countP_filter, priceCountIn]
          refine List.countP_congr ?_
          intro o _
          constructor
          · intro hh
            exact (Bool.and_eq_true_iff.mp hh).1
          · intro hh
            have : o.price = p := by simpa using hh
            simp [hh, this, hp]
        have hqtyeq : priceQtyIn (orders.filter (fun o => !(o.price == lp))) p
            = priceQtyIn orders p := by
          rw [priceQtyIn, List.filter_filter, priceQtyIn]
          have hfe : orders.filter (fun a => (a.price == p) && !(a.price == lp))
              = orders.filter (fun o => o.price == p) := by
            refine List.filter_congr ?_
            intro o _
            by_cases hop : o.price = p
            · simp [hop, hp]
            · simp [hop]
          rw [hfe]
        rw [hcnteq, hqtyeq]
    have hrec := ih (orders.filter (fun o => !(o.price == lp)))
      (List.pairwise_cons.mp hsorted).2 hcrest
    by_cases hP : P lp = true
    · simp only [List.filter_cons, hP, eq_self_iff_true, if_true, List.map_cons,
        List.sum_cons]
      rw [hrec]
      have hsplit := sum_filter_split orders (fun o => P o.price)
        (fun o => o.price == lp) Order.remainingQuantity
      have hAB : orders.filter (fun o => (P o.price) && (o.price == lp))
          = orders.filter (fun o => o.price == lp) := by
        refine List.filter_congr ?_
        intro o _
        by_cases hop : o.price = lp
        · simp [hop, hP]
        · simp [hop]
      have hAnB : orders.filter (fun o => (P o.price) && !(o.price == lp))
          = (orders.filter (fun o => !(o.price == lp))).filter (fun o => P o.price) := by
        rw [List.filter_filter]
      rw [hAB, hAnB] at hsplit
      rw [hsplit, hld]
      have : priceQtyIn orders lp
          = ((orders.filter (fun o => o.price == lp)).map Order.remainingQuantity).sum := rfl
      rw [this]
    · rw [Bool.not_eq_true] at hP
      simp only [List.filter_cons, hP, Bool.false_eq_true, if_neg (by simp : ¬ False)]
      rw [hrec]
      have hsplit := sum_filter_split orders (fun o => P o.price)
        (fun o => o.price == lp) Order.remainingQuantity
      have hAB : orders.filter (fun o => (P o.price) && (o.price == lp)) = [] := by
        rw [List.filter_eq_nil_iff]
        intro o _
        by_cases hop : o.price = lp
        · simp [hop, hP]
        · simp [hop]
      have hAnB : orders.filter (fun o => (P o.price) && !(o.price == lp))
          = (orders.filter (fun o => !(o.price == lp))).filter (fun o => P o.price) := by
        rw [List.filter_filter]
      rw [hAB, hAnB] at hsplit
      rw [hsplit]
      simp

theorem le_head_of_pairwise_gt {l : List Int} {x y : Int}
    (hs : List.Pairwise (· > ·) l) (hx : x ∈ l) (hy : l.head? = some y) :
    x ≤ y := by
  cases l with
  | nil => cases hx
  | cons a t =>
    have hya : y = a := by
      simp only [List.head?_cons, Option.some.injEq] at hy
      omega
    subst hya
    rcases List.mem_cons.mp hx with rfl | hxt
    · omega
    · have := (List.pairwise_cons.mp hs).1 x hxt
      omega

theorem price_mem_keys {l : List (Int × List Order)} {o : Order}
    (hplaced : ∀ pr ∈ l, ∀ y ∈ pr.2, y.price = pr.1 ∧ True)
    (ho : o ∈ ladderOrders l) : o.price ∈ l.map Prod.fst := by
  rcases mem_ladderOrders.mp ho with ⟨pr, hpr, hopr⟩
  rw [(hplaced pr hpr o hopr).1]
  exact List.mem_map_of_mem Prod.fst hpr

/-- On a well-formed, non-crossing book and for positive quantity,
`CanFullyFill` returns true exactly when the opposite-side liquidity at levels
satisfying the price constraint reaches the quantity. -/
theorem canFullyFill_liquidity_aux (b : Orderbook) (side : Side) (price : Int)
    (q : Nat) (hwf : b.WF) (hnc : b.NonCrossing) (hq : 0 < q) :
    (b.CanFullyFill side price q = true ↔ q ≤ b.oppositeLiquidity side price) := by
  cases side with
  | Buy =>
    cases hasks : b.asks with
    | nil =>
      have hcm : b.CanMatch Side.Buy price = false := by
        simp [Orderbook.CanMatch, hasks]
      unfold Orderbook.CanFullyFill
      rw [if_pos (by rw [hcm]; simp)]
      unfold Orderbook.oppositeLiquidity
      rw [hasks]
      simp only [ladderOrders_nil, List.filter_nil, List.map_nil, List.sum_nil]
      constructor
      · intro h
        cases h
      · intro h
        omega
    | cons top rest =>
      obtain ⟨bestAsk, topQ⟩ := top
      have hthr : ((b.asks.head?.map Prod.fst).getD 0) = bestAsk := by
        rw [hasks]
        rfl
      have haskmem : ∀ o ∈ ladderOrders b.asks, bestAsk ≤ o.price := by
        intro o ho
        refine head_le_of_pairwise_lt hwf.asksSorted
          (price_mem_keys (fun pr hpr y hy => ⟨(hwf.asksPlaced pr hpr y hy).1, trivial⟩) ho) ?_
        rw [hasks]
        rfl
      by_cases hpge : price ≥ bestAsk
      · have hcm : b.CanMatch Side.Buy price = true := by
          simp only [Orderbook.CanMatch, hasks]
          exact decide_eq_true hpge
        unfold Orderbook.CanFullyFill
        rw [if_neg (by rw [hcm]; simp)]
        simp only [hthr]
        rw [canFullyFillLoop_iff Side.Buy price bestAsk b.data q hq]
        rw [sum_data_filter b.data b.allOrders _ hwf.dataSorted hwf.consistent]
        have hallsplit : b.allOrders = ladderOrders b.bids ++ ladderOrders b.asks := rfl
        rw [hallsplit, List.filter_append, List.map_append, List.sum_append]
        have hbidzero : (ladderOrders b.bids).filter
            (fun o => levelEligible Side.Buy price bestAsk o.price) = [] := by
          rw [List.filter_eq_nil_iff]
          intro o ho
          have hkey := price_mem_keys
            (fun pr hpr y hy => ⟨(hwf.bidsPlaced pr hpr y hy).1, trivial⟩) ho
          cases hbids : b.bids with
          | nil =>
            rw [hbids] at hkey
            cases hkey
          | cons btop brest =>
            have htopb : o.price ≤ btop.1 := by
              refine le_head_of_pairwise_gt hwf.bidsSorted hkey ?_
              rw [hbids]
              rfl
            have hcross : btop.1 < bestAsk := by
              refine hnc btop.1 ?_ bestAsk ?_
              · rw [hbids]
                rfl
              · rw [hasks]
                rfl
            have hdec : decide (bestAsk > o.price) = true := by
              rw [decide_eq_true_eq]
              omega
            simp [levelEligible, hdec]
        rw [hbidzero]
        have haskeq : (ladderOrders b.asks).filter
            (fun o => levelEligible Side.Buy price bestAsk o.price)
            = (ladderOrders b.asks).filter (fun o => decide (o.price ≤ price)) := by
          refine List.filter_congr ?_
          intro o ho
          have hge := haskmem o ho
          simp only [levelEligible]
          by_cases hle : o.price ≤ price
          · simp only [decide_eq_true hle]
            have h1 : decide (bestAsk > o.price) = false := by
              rw [decide_eq_false_iff_not]
              omega
            have h2 : decide (o.price > price) = false := by
              rw [decide_eq_false_iff_not]
              omega
            simp [h1, h2]
          · have h2 : decide (o.price > price) = true := by
              rw [decide_eq_true_eq]
              omega
            simp only [h2]
            simp [hle]
        rw [haskeq]
        unfold Orderbook.oppositeLiquidity
        simp
      · have hcm : b.CanMatch Side.Buy price = false := by
          simp only [Orderbook.CanMatch, hasks]
          exact decide_eq_false hpge
        unfold Orderbook.CanFullyFill
        rw [if_pos (by rw [hcm]; simp)]
        have hzero : (ladderOrders b.asks).filter (fun o => decide (o.price ≤ price)) = [] := by
          rw [List.filter_eq_nil_iff]
          intro o ho
          have := haskmem o ho
          rw [decide_eq_true_eq]
          omega
        unfold Orderbook.oppositeLiquidity
        rw [hzero]
        simp only [List.map_nil, List.sum_nil]
        constructor
        · intro h
          cases h
        · intro h
          omega
  | Sell =>
    cases hbids : b.bids with
    | nil =>
      have hcm : b.CanMatch Side.Sell price = false := by
        simp [Orderbook.CanMatch, hbids]
      unfold Orderbook.CanFullyFill
      rw [if_pos (by rw [hcm]; simp)]
      unfold Orderbook.oppositeLiquidity
      rw [hbids]
      simp only [ladderOrders_nil, List.filter_nil, List.map_nil, List.sum_nil]
      constructor
      · intro h
        cases h
      · intro h
        omega
    | cons top rest =>
      obtain ⟨bestBid, topQ⟩ := top
      have hthr : ((b.bids.head?.map Prod.fst).getD 0) = bestBid := by
        rw [hbids]
        rfl
      have hbidmem : ∀ o ∈ ladderOrders b.bids, o.price ≤ bestBid := by
        intro o ho
        refine le_head_of_pairwise_gt hwf.bidsSorted
          (price_mem_keys (fun pr hpr y hy => ⟨(hwf.bidsPlaced pr hpr y hy).1, trivial⟩) ho) ?_
        rw [hbids]
        rfl
      by_cases hple : price ≤ bestBid
      · have hcm : b.CanMatch Side.Sell price = true := by
          simp only [Orderbook.CanMatch, hbids]
          exact decide_eq_true hple
        unfold Orderbook.CanFullyFill
        rw [if_neg (by rw [hcm]; simp)]
        simp only [hthr]
        rw [canFullyFillLoop_iff Side.Sell price bestBid b.data q hq]
        rw [sum_data_filter b.data b.allOrders _ hwf.dataSorted hwf.consistent]
        have hallsplit : b.allOrders = ladderOrders b.bids ++ ladderOrders b.asks := rfl
        rw [hallsplit, List.filter_append, List.map_append, List.sum_append]
        have haskzero : (ladderOrders b.asks).filter
            (fun o => levelEligible Side.Sell price bestBid o.price) = [] := by
          rw [List.filter_eq_nil_iff]
          intro o ho
          have hkey := price_mem_keys
            (fun pr hpr y hy => ⟨(hwf.asksPlaced pr hpr y hy).1, trivial⟩) ho
          cases hasks : b.asks with
          | nil =>
            rw [hasks] at hkey
            cases hkey
          | cons atop arest =>
            have htopa : atop.1 ≤ o.price := by
              refine head_le_of_pairwise_lt hwf.asksSorted hkey ?_
              rw [hasks]
              rfl
            have hcross : bestBid < atop.1 := by
              refine hnc bestBid ?_ atop.1 ?_
              · rw [hbids]
                rfl
              · rw [hasks]
                rfl
            have hdec : decide (bestBid < o.price) = true := by
              rw [decide_eq_true_eq]
              omega
            simp [levelEligible, hdec]
        rw [haskzero]
        have hbideq : (ladderOrders b.bids).filter
            (fun o => levelEligible Side.Sell price bestBid o.price)
            = (ladderOrders b.bids).filter (fun o => decide (price ≤ o.price)) := by
          refine List.filter_congr ?_
          intro o ho
          have hle := hbidmem o ho
          simp only [levelEligible]
          by_cases hge : price ≤ o.price
          · simp only [decide_eq_true hge]
            have h1 : decide (bestBid < o.price) = false := by
              rw [decide_eq_false_iff_not]
              omega
            have h2 : decide (o.price < price) = false := by
              rw [decide_eq_false_iff_not]
              omega
            simp [h1, h2]
          · have h2 : decide (o.price < price) = true := by
              rw [decide_eq_true_eq]
              omega
            simp only [h2]
            simp [hge]
        rw [hbideq]
        unfold Orderbook.oppositeLiquidity
        simp
      · have hcm : b.CanMatch Side.Sell price = false := by
          simp only [Orderbook.CanMatch, hbids]
          exact decide_eq_false hple
        unfold Orderbook.CanFullyFill
        rw [if_pos (by rw [hcm]; simp)]
        have hzero : (ladderOrders b.bids).filter (fun o => decide (price ≤ o.price)) = [] := by
          rw [List.filter_eq_nil_iff]
          intro o ho
          have := hbidmem o ho
          rw [decide_eq_true_eq]
          omega
        unfold Orderbook.oppositeLiquidity
        rw [hzero]
        simp only [List.map_nil, List.sum_nil]
        constructor
        · intro h
          cases h
        · intro h
          omega

/-- Amended claim C4.  On a well-formed, non-crossing book and for positive
quantity, `CanFullyFill(side, price, quantity)` returns true exactly when the
liquidity resting on the opposite side at levels satisfying the price
constraint (ask levels at or below `price` for a Buy, bid levels at or above
`price` for a Sell — every such level is automatically at or beyond the
opposite-side top) reaches `quantity`; same-side levels contribute nothing.
(The `&&`/`||` parenthesization slip in the source walk is semantically inert
because `threshold` is always engaged.)  The claim's equivalence fails only at
`quantity = 0`, where `CanFullyFill` is false by its `CanMatch` pre-check. -/
theorem canFullyFill_iff_liquidity (b : Orderbook) (side : Side) (price : Int)
    (q : Nat) (hwf : b.WF) (hnc : b.NonCrossing) (hq : 0 < q) :
    (b.CanFullyFill side price q = true ↔ q ≤ b.oppositeLiquidity side price) :=
  canFullyFill_liquidity_aux b side price q hwf hnc hq

/-- Witness for `canFullyFill_iff_liquidity`: on the book with the single ask
`(id 1, Sell, 100, 5)`, a Buy at price 100 for quantity 5 can be fully filled
and the eligible opposite liquidity is exactly 5. -/
theorem canFullyFill_iff_liquidity_witness :
    (0 : Nat) < 5
    ∧ ((Orderbook.mk [((100 : Int), ⟨5, 1⟩)] []
          [((100 : Int), [⟨OrderType.GoodTillCancel, 1, Side.Sell, 100, 5, 5⟩])]).CanFullyFill
            Side.Buy 100 5 = true
        ↔ 5 ≤ (Orderbook.mk [((100 : Int), ⟨5, 1⟩)] []
            [((100 : Int), [⟨OrderType.GoodTillCancel, 1, Side.Sell, 100, 5, 5⟩])]).oppositeLiquidity
              Side.Buy 100) :=
  ⟨by decide,
    canFullyFill_iff_liquidity _ _ _ _
      ⟨by decide, by decide, by decide, by decide, by decide, by decide, by decide, by decide,
        consistentWith_of_forall _ _ (by decide) (by decide)⟩
      (by
        intro bp hbp ap hap
        simp at hbp)
      (by decide)⟩

/-- The crossing loop does nothing on a non-crossing book. -/
theorem matchLoop_noop (fuel : Nat) (b : Orderbook) (acc : List Trade)
    (hnc : b.NonCrossing) : matchLoop fuel b acc = (acc, b) := by
  cases fuel with
  | zero => rfl
  | succ n =>
    unfold matchLoop
    cases hb : b.bids with
    | nil =>
      cases ha : b.asks with
      | nil => rfl
      | cons atop arest => rfl
    | cons btop brest =>
      cases ha : b.asks with
      | nil => rfl
      | cons atop arest =>
        obtain ⟨bp, bq⟩ := btop
        obtain ⟨ap, aq⟩ := atop
        have hlt : bp < ap := by
          refine hnc bp ?_ ap ?_
          · rw [hb]
            rfl
          · rw [ha]
            rfl
        simp only [if_pos hlt]

theorem topOrder_mem {l : List (Int × List Order)} {x : Order}
    (h : topOrder l = some x) : x ∈ ladderOrders l := by
  cases l with
  | nil => cases h
  | cons e rest =>
    obtain ⟨p, os⟩ := e
    cases os with
    | nil => cases h
    | cons y t =>
      have : y = x := by
        simpa [topOrder] using h
      subst this
      rw [ladderOrders_cons]
      exact List.mem_append_left _ (List.mem_cons_self _ _)

/-- The residual FillAndKill cleanup does nothing when neither top head is a
FillAndKill order. -/
theorem pruneTop_noop (b : Orderbook)
    (hb : ∀ x, topOrder b.bids = some x → x.orderType ≠ OrderType.FillAndKill)
    (ha : ∀ x, topOrder b.asks = some x → x.orderType ≠ OrderType.FillAndKill) :
    b.pruneTopFillAndKill = b := by
  unfold Orderbook.pruneTopFillAndKill
  have hb1 : (match b.bids with
      | (_, order :: _) :: _ =>
        if order.orderType == OrderType.FillAndKill then b.CancelOrder order.orderId else b
      | _ => b) = b := by
    cases hbids : b.bids with
    | nil => rfl
    | cons top rest =>
      obtain ⟨p, os⟩ := top
      cases os with
      | nil => rfl
      | cons o t =>
        show (if (o.orderType == OrderType.FillAndKill) = true
            then b.CancelOrder o.orderId else b) = b
        rw [if_neg]
        simp only [beq_iff_eq]
        exact hb o (by rw [hbids]; rfl)
  rw [hb1]
  show (match b.asks with
    | (_, order :: _) :: _ =>
      if (order.orderType == OrderType.FillAndKill) = true
      then b.CancelOrder order.orderId else b
    | _ => b) = b
  cases hasks : b.asks with
  | nil => rfl
  | cons top rest =>
    obtain ⟨p, os⟩ := top
    cases os with
    | nil => rfl
    | cons o t =>
      show (if (o.orderType == OrderType.FillAndKill) = true
          then b.CancelOrder o.orderId else b) = b
      rw [if_neg]
      simp only [beq_iff_eq]
      exact ha o (by rw [hasks]; rfl)

/-- `MatchOrders` is the identity on a non-crossing book with no FillAndKill
order at either top. -/
theorem matchOrders_noop (b : Orderbook) (hnc : b.NonCrossing)
    (hb : ∀ x, topOrder b.bids = some x → x.orderType ≠ OrderType.FillAndKill)
    (ha : ∀ x, topOrder b.asks = some x → x.orderType ≠ OrderType.FillAndKill) :
    b.MatchOrders = ([], b) := by
  unfold Orderbook.MatchOrders
  rw [matchLoop_noop _ _ _ hnc]
  simp only []
  rw [pruneTop_noop b hb ha]

theorem find?_middle {l1 l2 : List Order} {o : Order}
    (hno : ∀ x ∈ l1, (x.orderId == o.orderId) = false) :
    (l1 ++ o :: l2).find? (fun x => x.orderId == o.orderId) = some o := by
  induction l1 with
  | nil => simp [List.find?]
  | cons y t ih =>
    rw [List.cons_append, List.find?_cons, hno y (List.mem_cons_self _ _)]
    exact ih (fun x hx => hno x (List.mem_cons_of_mem _ hx))

theorem not_contains_forall {b : Orderbook} {orderId : Nat}
    (h : b.ordersContains orderId = false) :
    ∀ x ∈ b.allOrders, (x.orderId == orderId) = false := by
  unfold Orderbook.ordersContains at h
  rw [List.any_eq_false] at h
  intro x hx
  have := h x hx
  simpa using this

theorem mem_bidsAdd_bucket (l : List (Int × List Order)) (p : Int) (o : Order) :
    ∃ pr ∈ bidsAdd l p o, pr.1 = p ∧ o ∈ pr.2 := by
  induction l with
  | nil => exact ⟨(p, [o]), by simp [bidsAdd], rfl, by simp⟩
  | cons e rest ih =>
    obtain ⟨q, os⟩ := e
    by_cases h1 : p = q
    · exact ⟨(q, os ++ [o]), by simp [bidsAdd, h1], h1.symm, by simp⟩
    · by_cases h2 : p > q
      · exact ⟨(p, [o]), by simp [bidsAdd, h1, h2], rfl, by simp⟩
      · obtain ⟨pr, hpr, hp1, hp2⟩ := ih
        exact ⟨pr, by
          simp only [bidsAdd, if_neg h1, if_neg h2, List.mem_cons]
          exact Or.inr hpr, hp1, hp2⟩

theorem mem_asksAdd_bucket (l : List (Int × List Order)) (p : Int) (o : Order) :
    ∃ pr ∈ asksAdd l p o, pr.1 = p ∧ o ∈ pr.2 := by
  induction l with
  | nil => exact ⟨(p, [o]), by simp [asksAdd], rfl, by simp⟩
  | cons e rest ih =>
    obtain ⟨q, os⟩ := e
    by_cases h1 : p = q
    · exact ⟨(q, os ++ [o]), by simp [asksAdd, h1], h1.symm, by simp⟩
    · by_cases h2 : p < q
      · exact ⟨(p, [o]), by simp [asksAdd, h1, h2], rfl, by simp⟩
      · obtain ⟨pr, hpr, hp1, hp2⟩ := ih
        exact ⟨pr, by
          simp only [asksAdd, if_neg h1, if_neg h2, List.mem_cons]
          exact Or.inr hpr, hp1, hp2⟩

/-- Inserting a non-crossing buy keeps the book non-crossing. -/
theorem bidsAdd_noncross (b : Orderbook) (o : Order) (hnc : b.NonCrossing)
    (hncm : b.CanMatch Side.Buy o.price = false) :
    ({ b with bids := bidsAdd b.bids o.price o } : Orderbook).NonCrossing := by
  intro bp hbp ap hap
  have hap' : ap ∈ (b.asks.map Prod.fst).head? := hap
  cases hasks : b.asks with
  | nil =>
    rw [hasks] at hap'
    cases hap'
  | cons atop arest =>
    have hap2 : atop.1 = ap := by
      rw [hasks] at hap'
      simpa using hap'
    have hole : o.price < atop.1 := by
      unfold Orderbook.CanMatch at hncm
      rw [hasks] at hncm
      have := of_decide_eq_false hncm
      omega
    have hbp' := hbp
    rw [bidsAdd_top_key] at hbp'
    have hbpval : (match (b.bids.map Prod.fst).head? with
        | none => o.price
        | some q => max o.price q) = bp :=
      Option.some.inj (Option.mem_def.mp hbp')
    cases hbids : b.bids with
    | nil =>
      rw [hbids] at hbpval
      simp only [List.map_nil, List.head?_nil] at hbpval
      omega
    | cons btop brest =>
      rw [hbids] at hbpval
      simp only [List.map_cons, List.head?_cons] at hbpval
      have hq : btop.1 < atop.1 := by
        refine hnc btop.1 ?_ atop.1 ?_
        · rw [hbids]
          rfl
        · rw [hasks]
          rfl
      rw [max_def] at hbpval
      split at hbpval <;> omega

/-- Inserting a non-crossing sell keeps the book non-crossing. -/
theorem asksAdd_noncross (b : Orderbook) (o : Order) (hnc : b.NonCrossing)
    (hncm : b.CanMatch Side.Sell o.price = false) :
    ({ b with asks := asksAdd b.asks o.price o } : Orderbook).NonCrossing := by
  intro bp hbp ap hap
  have hbp' : bp ∈ (b.bids.map Prod.fst).head? := hbp
  cases hbids : b.bids with
  | nil =>
    rw [hbids] at hbp'
    cases hbp'
  | cons btop brest =>
    have hbp2 : btop.1 = bp := by
      rw [hbids] at hbp'
      simpa using hbp'
    have hole : btop.1 < o.price := by
      unfold Orderbook.CanMatch at hncm
      rw [hbids] at hncm
      have := of_decide_eq_false hncm
      omega
    have hap' := hap
    rw [asksAdd_top_key] at hap'
    have hapval : (match (b.asks.map Prod.fst).head? with
        | none => o.price
        | some q => min o.price q) = ap :=
      Option.some.inj (Option.mem_def.mp hap')
    cases hasks : b.asks with
    | nil =>
      rw [hasks] at hapval
      simp only [List.map_nil, List.head?_nil] at hapval
      omega
    | cons atop arest =>
      rw [hasks] at hapval
      simp only [List.map_cons, List.head?_cons] at hapval
      have hq : btop.1 < atop.1 := by
        refine hnc btop.1 ?_ atop.1 ?_
        · rw [hbids]
          rfl
        · rw [hasks]
          rfl
      rw [min_def] at hapval
      split at hapval <;> omega

/-- A fresh GoodTillCancel or GoodForDay order passes every admission guard:
`AddOrder` inserts it and runs the crossing loop. -/
theorem addOrder_plain (b : Orderbook) (o : Order)
    (hfresh : b.ordersContains o.orderId = false)
    (hty : o.orderType = OrderType.GoodTillCancel ∨ o.orderType = OrderType.GoodForDay) :
    b.AddOrder o = Orderbook.MatchOrders
      (Orderbook.OnOrderAdded
        (match o.side with
          | Side.Buy => { b with bids := bidsAdd b.bids o.price o }
          | Side.Sell => { b with asks := asksAdd b.asks o.price o }) o) := by
  unfold Orderbook.AddOrder
  have hstep : ∀ xty : OrderType, o.orderType = xty
      → (xty == OrderType.Market) = false
      → (xty == OrderType.FillAndKill) = false
      → (xty == OrderType.FillOrKill) = false
      → (if b.ordersContains o.orderId = true then ([], b)
        else match (if (o.orderType == OrderType.Market) = true then
            (if (o.side == Side.Buy && !b.asks.isEmpty) = true then
              some (o.ToGoodTillCancel (((b.asks.getLast?).map Prod.fst).getD 0))
            else if (o.side == Side.Sell && !b.bids.isEmpty) = true then
              some (o.ToGoodTillCancel (((b.bids.getLast?).map Prod.fst).getD 0))
            else none)
          else some o) with
        | none => ([], b)
        | some order =>
          if (order.orderType == OrderType.FillAndKill
              && !(b.CanMatch order.side order.price)) = true then ([], b)
          else if (order.orderType == OrderType.FillOrKill
              && !(b.CanFullyFill order.side order.price order.initialQuantity)) = true
          then ([], b)
          else Orderbook.MatchOrders (Orderbook.OnOrderAdded
            (match order.side with
              | Side.Buy => { b with bids := bidsAdd b.bids order.price order }
              | Side.Sell => { b with asks := asksAdd b.asks order.price order }) order))
      = Orderbook.MatchOrders (Orderbook.OnOrderAdded
          (match o.side with
            | Side.Buy => { b with bids := bidsAdd b.bids o.price o }
            | Side.Sell => { b with asks := asksAdd b.asks o.price o }) o) := by
    intro xty hx h1 h2 h3
    rw [if_neg (by rw [hfresh]; simp)]
    rw [if_neg (by rw [hx, h1]; simp)]
    show (if (o.orderType == OrderType.FillAndKill && !(b.CanMatch o.side o.price)) = true
        then (([] : List Trade), b)
      else if (o.orderType == OrderType.FillOrKill
          && !(b.CanFullyFill o.side o.price o.initialQuantity)) = true
        then (([] : List Trade), b)
      else ((match o.side with
          | Side.Buy => { b with bids := bidsAdd b.bids o.price o }
          | Side.Sell => { b with asks := asksAdd b.asks o.price o }).OnOrderAdded o).MatchOrders)
      = ((match o.side with
          | Side.Buy => { b with bids := bidsAdd b.bids o.price o }
          | Side.Sell => { b with asks := asksAdd b.asks o.price o }).OnOrderAdded o).MatchOrders
    rw [if_neg (by rw [hx, h2]; simp)]
    rw [if_neg (by rw [hx, h3]; simp)]
  rcases hty with hty | hty
  · exact hstep OrderType.GoodTillCancel hty (by decide) (by decide) (by decide)
  · exact hstep OrderType.GoodForDay hty (by decide) (by decide) (by decide)

/-- Claim C10.  `AddOrder` applies no positivity check: a fresh, non-crossing
GoodTillCancel order with `initialQuantity = 0` is admitted — no trades, Size
grows by one, the order is reachable through the index, rests in the bucket of
its price, and already reports `IsFilled`. -/
theorem addOrder_zero_quantity_rests (b : Orderbook) (o : Order)
    (hwf : b.WF) (hnc : b.NonCrossing) (hnofak : b.NoRestingFAK)
    (hty : o.orderType = OrderType.GoodTillCancel)
    (hrem : o.remainingQuantity = 0)
    (hfresh : b.ordersContains o.orderId = false)
    (hncm : b.CanMatch o.side o.price = false) :
    (b.AddOrder o).1 = []
    ∧ (b.AddOrder o).2.Size = b.Size + 1
    ∧ (b.AddOrder o).2.findOrder o.orderId = some o
    ∧ (∃ pr, pr ∈ (b.AddOrder o).2.bids ++ (b.AddOrder o).2.asks
        ∧ pr.1 = o.price ∧ o ∈ pr.2)
    ∧ o.IsFilled = true := by
  have hplain := addOrder_plain b o hfresh (Or.inl hty)
  have hfa : ∀ x ∈ b.allOrders, (x.orderId == o.orderId) = false :=
    not_contains_forall hfresh
  cases hside : o.side with
  | Buy =>
    rw [hside] at hplain
    simp only [] at hplain
    have hres : b.AddOrder o =
        ([], Orderbook.OnOrderAdded
          ({ b with bids := bidsAdd b.bids o.price o }) o) := by
      rw [hplain]
      refine matchOrders_noop _ ?_ ?_ ?_
      · exact bidsAdd_noncross b o hnc (hside ▸ hncm)
      · intro x hx
        have hx' : topOrder (bidsAdd b.bids o.price o) = some x := hx
        rcases bidsAdd_topOrder b.bids o.price o hwf.bidsNE with htop | ⟨y, hy1, hy2⟩
        · have : x = o := by
            rw [htop] at hx'
            exact (Option.some.inj hx').symm
          rw [this, hty]
          intro hcontra
          cases hcontra
        · have : x = y := by
            rw [hy2] at hx'
            exact (Option.some.inj hx').symm
          subst this
          exact hnofak x (List.mem_append_left _ (topOrder_mem hy1))
      · intro x hx
        exact hnofak x (List.mem_append_right _ (topOrder_mem hx))
    obtain ⟨l1, l2, hs1, hs2⟩ := bidsAdd_split b.bids o.price o
    have hallB2 : (Orderbook.OnOrderAdded
        ({ b with bids := bidsAdd b.bids o.price o }) o).allOrders
        = ladderOrders (bidsAdd b.bids o.price o) ++ ladderOrders b.asks := rfl
    have hallb : b.allOrders = ladderOrders b.bids ++ ladderOrders b.asks := rfl
    refine ⟨by rw [hres], ?_, ?_, ?_, ?_⟩
    · unfold Orderbook.Size
      rw [hres]
      simp only []
      rw [hallB2, hallb, hs1, hs2]
      simp only [List.length_append, List.length_cons]
      omega
    · rw [hres]
      unfold Orderbook.findOrder
      simp only []
      rw [hallB2, hs2, List.append_assoc, List.cons_append]
      refine find?_middle ?_
      intro x hx
      refine hfa x ?_
      rw [hallb, hs1]
      exact List.mem_append_left _ (List.mem_append_left _ hx)
    · obtain ⟨pr, hpr, hp1, hp2⟩ := mem_bidsAdd_bucket b.bids o.price o
      refine ⟨pr, ?_, hp1, hp2⟩
      rw [hres]
      exact List.mem_append_left _ hpr
    · simp [Order.IsFilled, hrem]
  | Sell =>
    rw [hside] at hplain
    simp only [] at hplain
    have hres : b.AddOrder o =
        ([], Orderbook.OnOrderAdded
          ({ b with asks := asksAdd b.asks o.price o }) o) := by
      rw [hplain]
      refine matchOrders_noop _ ?_ ?_ ?_
      · exact asksAdd_noncross b o hnc (hside ▸ hncm)
      · intro x hx
        exact hnofak x (List.mem_append_left _ (topOrder_mem hx))
      · intro x hx
        have hx' : topOrder (asksAdd b.asks o.price o) = some x := hx
        rcases asksAdd_topOrder b.asks o.price o hwf.asksNE with htop | ⟨y, hy1, hy2⟩
        · have : x = o := by
            rw [htop] at hx'
            exact (Option.some.inj hx').symm
          rw [this, hty]
          intro hcontra
          cases hcontra
        · have : x = y := by
            rw [hy2] at hx'
            exact (Option.some.inj hx').symm
          subst this
          exact hnofak x (List.mem_append_right _ (topOrder_mem hy1))
    obtain ⟨l1, l2, hs1, hs2⟩ := asksAdd_split b.asks o.price o
    have hallB2 : (Orderbook.OnOrderAdded
        ({ b with asks := asksAdd b.asks o.price o }) o).allOrders
        = ladderOrders b.bids ++ ladderOrders (asksAdd b.asks o.price o) := rfl
    have hallb : b.allOrders = ladderOrders b.bids ++ ladderOrders b.asks := rfl
    refine ⟨by rw [hres], ?_, ?_, ?_, ?_⟩
    · unfold Orderbook.Size
      rw [hres]
      simp only []
      rw [hallB2, hallb, hs1, hs2]
      simp only [List.length_append, List.length_cons]
      omega
    · rw [hres]
      unfold Orderbook.findOrder
      simp only []
      rw [hallB2, hs2]
      rw [show ladderOrders b.bids ++ (l1 ++ o :: l2)
          = (ladderOrders b.bids ++ l1) ++ o :: l2 by rw [List.append_assoc]]
      refine find?_middle ?_
      intro x hx
      refine hfa x ?_
      rw [hallb, hs1]
      rcases List.mem_append.mp hx with hin | hin
      · exact List.mem_append_left _ hin
      · exact List.mem_append_right _ (List.mem_append_left _ hin)
    · obtain ⟨pr, hpr, hp1, hp2⟩ := mem_asksAdd_bucket b.asks o.price o
      refine ⟨pr, ?_, hp1, hp2⟩
      rw [hres]
      exact List.mem_append_right _ hpr
    · simp [Order.IsFilled, hrem]

/-- Witness for `addOrder_zero_quantity_rests`: the zero-quantity GoodTillCancel
buy `(id 1, Buy, 100, 0)` is admitted into the empty book. -/
theorem addOrder_zero_quantity_rests_witness :
    (Orderbook.empty.AddOrder ⟨OrderType.GoodTillCancel, 1, Side.Buy, 100, 0, 0⟩).1 = []
    ∧ (Orderbook.empty.AddOrder
        ⟨OrderType.GoodTillCancel, 1, Side.Buy, 100, 0, 0⟩).2.Size = Orderbook.empty.Size + 1
    ∧ (Orderbook.empty.AddOrder
        ⟨OrderType.GoodTillCancel, 1, Side.Buy, 100, 0, 0⟩).2.findOrder 1 =
        some ⟨OrderType.GoodTillCancel, 1, Side.Buy, 100, 0, 0⟩
    ∧ (∃ pr, pr ∈ (Orderbook.empty.AddOrder
          ⟨OrderType.GoodTillCancel, 1, Side.Buy, 100, 0, 0⟩).2.bids
            ++ (Orderbook.empty.AddOrder
              ⟨OrderType.GoodTillCancel, 1, Side.Buy, 100, 0, 0⟩).2.asks
        ∧ pr.1 = (100 : Int)
        ∧ (⟨OrderType.GoodTillCancel, 1, Side.Buy, 100, 0, 0⟩ : Order) ∈ pr.2)
    ∧ (⟨OrderType.GoodTillCancel, 1, Side.Buy, 100, 0, 0⟩ : Order).IsFilled = true :=
  addOrder_zero_quantity_rests Orderbook.empty ⟨OrderType.GoodTillCancel, 1, Side.Buy, 100, 0, 0⟩
    ⟨by decide, by decide, by decide, by decide, by decide, by decide, by decide, by decide,
      consistentWith_of_forall _ _ (by decide) (by decide)⟩
    (by
      intro bp hbp ap hap
      simp [Orderbook.empty] at hbp)
    (by
      intro x hx
      simp [Orderbook.allOrders, ladderOrders, Orderbook.empty] at hx)
    rfl rfl (by decide) (by decide)

/-- A fresh FillAndKill order that cannot match is silently rejected. -/
theorem addOrder_fak_reject (b : Orderbook) (o : Order)
    (hfresh : b.ordersContains o.orderId = false)
    (hty : o.orderType = OrderType.FillAndKill)
    (hncm : b.CanMatch o.side o.price = false) :
    b.AddOrder o = ([], b) := by
  unfold Orderbook.AddOrder
  rw [if_neg (by rw [hfresh]; simp)]
  rw [if_neg (by rw [hty]; decide)]
  show (if (o.orderType == OrderType.FillAndKill && !(b.CanMatch o.side o.price)) = true
      then (([] : List Trade), b)
    else if (o.orderType == OrderType.FillOrKill
        && !(b.CanFullyFill o.side o.price o.initialQuantity)) = true
      then (([] : List Trade), b)
    else ((match o.side with
        | Side.Buy => { b with bids := bidsAdd b.bids o.price o }
        | Side.Sell => { b with asks := asksAdd b.asks o.price o }).OnOrderAdded o).MatchOrders)
    = ([], b)
  rw [if_pos (by rw [hty, hncm]; simp)]

/-- A fresh FillOrKill order that cannot match (hence cannot fully fill) is
silently rejected. -/
theorem addOrder_fok_reject (b : Orderbook) (o : Order)
    (hfresh : b.ordersContains o.orderId = false)
    (hty : o.orderType = OrderType.FillOrKill)
    (hncm : b.CanMatch o.side o.price = false) :
    b.AddOrder o = ([], b) := by
  have hcf : b.CanFullyFill o.side o.price o.initialQuantity = false := by
    unfold Orderbook.CanFullyFill
    rw [if_pos (by rw [hncm]; simp)]
  unfold Orderbook.AddOrder
  rw [if_neg (by rw [hfresh]; simp)]
  rw [if_neg (by rw [hty]; decide)]
  show (if (o.orderType == OrderType.FillAndKill && !(b.CanMatch o.side o.price)) = true
      then (([] : List Trade), b)
    else if (o.orderType == OrderType.FillOrKill
        && !(b.CanFullyFill o.side o.price o.initialQuantity)) = true
      then (([] : List Trade), b)
    else ((match o.side with
        | Side.Buy => { b with bids := bidsAdd b.bids o.price o }
        | Side.Sell => { b with asks := asksAdd b.asks o.price o }).OnOrderAdded o).MatchOrders)
    = ([], b)
  rw [if_neg (by rw [hty]; simp)]
  rw [if_pos (by rw [hty, hcf]; simp)]

/-- A fresh non-crossing GoodTillCancel/GoodForDay order rests: no trades, and
it is found in the index of the resulting book. -/
theorem addOrder_noncross_spec (b : Orderbook) (o : Order)
    (hwf : b.WF) (hnc : b.NonCrossing) (hnofak : b.NoRestingFAK)
    (hty : o.orderType = OrderType.GoodTillCancel ∨ o.orderType = OrderType.GoodForDay)
    (hfresh : b.ordersContains o.orderId = false)
    (hncm : b.CanMatch o.side o.price = false) :
    b.AddOrder o = ([], Orderbook.OnOrderAdded
      (match o.side with
        | Side.Buy => { b with bids := bidsAdd b.bids o.price o }
        | Side.Sell => { b with asks := asksAdd b.asks o.price o }) o)
    ∧ (b.AddOrder o).2.findOrder o.orderId = some o := by
  have hplain := addOrder_plain b o hfresh hty
  have hfa : ∀ x ∈ b.allOrders, (x.orderId == o.orderId) = false :=
    not_contains_forall hfresh
  have hnfak : o.orderType ≠ OrderType.FillAndKill := by
    rcases hty with hty | hty <;> rw [hty] <;> intro hcontra <;> cases hcontra
  have hallb : b.allOrders = ladderOrders b.bids ++ ladderOrders b.asks := rfl
  cases hside : o.side with
  | Buy =>
    rw [hside] at hplain
    simp only [] at hplain
    have hres : b.AddOrder o =
        ([], Orderbook.OnOrderAdded
          ({ b with bids := bidsAdd b.bids o.price o }) o) := by
      rw [hplain]
      refine matchOrders_noop _ ?_ ?_ ?_
      · exact bidsAdd_noncross b o hnc (hside ▸ hncm)
      · intro x hx
        have hx' : topOrder (bidsAdd b.bids o.price o) = some x := hx
        rcases bidsAdd_topOrder b.bids o.price o hwf.bidsNE with htop | ⟨y, hy1, hy2⟩
        · have : x = o := by
            rw [htop] at hx'
            exact (Option.some.inj hx').symm
          rw [this]
          exact hnfak
        · have : x = y := by
            rw [hy2] at hx'
            exact (Option.some.inj hx').symm
          subst this
          exact hnofak x (List.mem_append_left _ (topOrder_mem hy1))
      · intro x hx
        exact hnofak x (List.mem_append_right _ (topOrder_mem hx))
    refine ⟨hres, ?_⟩
    obtain ⟨l1, l2, hs1, hs2⟩ := bidsAdd_split b.bids o.price o
    rw [hres]
    unfold Orderbook.findOrder
    simp only []
    have hallB2 : (Orderbook.OnOrderAdded
        ({ b with bids := bidsAdd b.bids o.price o }) o).allOrders
        = ladderOrders (bidsAdd b.bids o.price o) ++ ladderOrders b.asks := rfl
    rw [hallB2, hs2, List.append_assoc, List.cons_append]
    refine find?_middle ?_
    intro x hx
    refine hfa x ?_
    rw [hallb, hs1]
    exact List.mem_append_left _ (List.mem_append_left _ hx)
  | Sell =>
    rw [hside] at hplain
    simp only [] at hplain
    have hres : b.AddOrder o =
        ([], Orderbook.OnOrderAdded
          ({ b with asks := asksAdd b.asks o.price o }) o) := by
      rw [hplain]
      refine matchOrders_noop _ ?_ ?_ ?_
      · exact asksAdd_noncross b o hnc (hside ▸ hncm)
      · intro x hx
        exact hnofak x (List.mem_append_left _ (topOrder_mem hx))
      · intro x hx
        have hx' : topOrder (asksAdd b.asks o.price o) = some x := hx
        rcases asksAdd_topOrder b.asks o.price o hwf.asksNE with htop | ⟨y, hy1, hy2⟩
        · have : x = o := by
            rw [htop] at hx'
            exact (Option.some.inj hx').symm
          rw [this]
          exact hnfak
        · have : x = y := by
            rw [hy2] at hx'
            exact (Option.some.inj hx').symm
          subst this
          exact hnofak x (List.mem_append_right _ (topOrder_mem hy1))
    refine ⟨hres, ?_⟩
    obtain ⟨l1, l2, hs1, hs2⟩ := asksAdd_split b.asks o.price o
    rw [hres]
    unfold Orderbook.findOrder
    simp only []
    have hallB2 : (Orderbook.OnOrderAdded
        ({ b with asks := asksAdd b.asks o.price o }) o).allOrders
        = ladderOrders b.bids ++ ladderOrders (asksAdd b.asks o.price o) := rfl
    rw [hallB2, hs2]
    rw [show ladderOrders b.bids ++ (l1 ++ o :: l2)
        = (ladderOrders b.bids ++ l1) ++ o :: l2 by rw [List.append_assoc]]
    refine find?_middle ?_
    intro x hx
    refine hfa x ?_
    rw [hallb, hs1]
    rcases List.mem_append.mp hx with hin | hin
    · exact List.mem_append_left _ hin
    · exact List.mem_append_right _ (List.mem_append_left _ hin)

theorem size_eq_of_ladders (b1 b2 : Orderbook) (hb : b1.bids = b2.bids)
    (ha : b1.asks = b2.asks) : b1.Size = b2.Size := by
  unfold Orderbook.Size Orderbook.allOrders
  rw [hb, ha]

theorem getOrderInfos_eq_of_ladders (b1 b2 : Orderbook) (hb : b1.bids = b2.bids)
    (ha : b1.asks = b2.asks) : b1.GetOrderInfos = b2.GetOrderInfos := by
  unfold Orderbook.GetOrderInfos
  rw [hb, ha]

/-- Amended claim C8.  For every non-Market order with a fresh id whose price
does not cross the opposite side, `AddOrder` followed by `CancelOrder` of its
id restores both `Size` and the level snapshot (`GetOrderInfos`) to their
pre-add values.  (A Market order is excluded: it is repriced at admission, so
its own price being non-crossing does not prevent it from trading — see the
counterexample.) -/
theorem add_cancel_restores (b : Orderbook) (o : Order)
    (hwf : b.WF) (hnc : b.NonCrossing) (hnofak : b.NoRestingFAK)
    (hnm : o.orderType ≠ OrderType.Market)
    (hfresh : b.ordersContains o.orderId = false)
    (hncm : b.CanMatch o.side o.price = false) :
    ((b.AddOrder o).2.CancelOrder o.orderId).Size = b.Size
    ∧ ((b.AddOrder o).2.CancelOrder o.orderId).GetOrderInfos = b.GetOrderInfos := by
  have hcnone : b.CancelOrder o.orderId = b := by
    unfold Orderbook.CancelOrder Orderbook.CancelOrderInternal
    rw [findOrder_eq_none hfresh]
  have hfa : ∀ x ∈ b.allOrders, (x.orderId == o.orderId) = false :=
    not_contains_forall hfresh
  have hrest : (o.orderType = OrderType.GoodTillCancel
      ∨ o.orderType = OrderType.GoodForDay) →
      ((b.AddOrder o).2.CancelOrder o.orderId).Size = b.Size
      ∧ ((b.AddOrder o).2.CancelOrder o.orderId).GetOrderInfos = b.GetOrderInfos := by
    intro hty
    obtain ⟨hres, hfind⟩ := addOrder_noncross_spec b o hwf hnc hnofak hty hfresh hncm
    rw [hres] at hfind
    rw [hres]
    simp only [] at hfind ⊢
    unfold Orderbook.CancelOrder Orderbook.CancelOrderInternal
    rw [hfind]
    cases hside : o.side with
    | Buy =>
      simp only [hside]
      have hfr : ∀ x ∈ ladderOrders b.bids, x.orderId ≠ o.orderId := by
        intro x hx
        have := hfa x (List.mem_append_left _ hx)
        simpa using this
      have hrt : ladderRemove (bidsAdd b.bids o.price o) o.price o.orderId = b.bids :=
        ladderRemove_bidsAdd b.bids o.price o hfr hwf.bidsNE
      refine ⟨size_eq_of_ladders _ _ ?_ ?_, getOrderInfos_eq_of_ladders _ _ ?_ ?_⟩
      · exact hrt
      · rfl
      · exact hrt
      · rfl
    | Sell =>
      simp only [hside]
      have hfr : ∀ x ∈ ladderOrders b.asks, x.orderId ≠ o.orderId := by
        intro x hx
        have := hfa x (List.mem_append_right _ hx)
        simpa using this
      have hrt : ladderRemove (asksAdd b.asks o.price o) o.price o.orderId = b.asks :=
        ladderRemove_asksAdd b.asks o.price o hfr hwf.asksNE
      refine ⟨size_eq_of_ladders _ _ ?_ ?_, getOrderInfos_eq_of_ladders _ _ ?_ ?_⟩
      · rfl
      · exact hrt
      · rfl
      · exact hrt
  cases hty : o.orderType with
  | Market => exact absurd hty hnm
  | FillAndKill =>
    rw [addOrder_fak_reject b o hfresh hty hncm]
    simp only []
    rw [hcnone]
    exact ⟨rfl, rfl⟩
  | FillOrKill =>
    rw [addOrder_fok_reject b o hfresh hty hncm]
    simp only []
    rw [hcnone]
    exact ⟨rfl, rfl⟩
  | GoodTillCancel => exact hrest (Or.inl hty)
  | GoodForDay => exact hrest (Or.inr hty)

/-- Witness for `add_cancel_restores`: adding the non-crossing GoodTillCancel
buy `(id 2, Buy, 90, 3)` to a book holding the single ask `(id 1, Sell, 100, 5)`
and then cancelling id 2 restores Size and the snapshot. -/
theorem add_cancel_restores_witness :
    (((Orderbook.mk [((100 : Int), ⟨5, 1⟩)] []
        [((100 : Int), [⟨OrderType.GoodTillCancel, 1, Side.Sell, 100, 5, 5⟩])]).AddOrder
          ⟨OrderType.GoodTillCancel, 2, Side.Buy, 90, 3, 3⟩).2.CancelOrder 2).Size
      = (Orderbook.mk [((100 : Int), ⟨5, 1⟩)] []
        [((100 : Int), [⟨OrderType.GoodTillCancel, 1, Side.Sell, 100, 5, 5⟩])]).Size
    ∧ (((Orderbook.mk [((100 : Int), ⟨5, 1⟩)] []
        [((100 : Int), [⟨OrderType.GoodTillCancel, 1, Side.Sell, 100, 5, 5⟩])]).AddOrder
          ⟨OrderType.GoodTillCancel, 2, Side.Buy, 90, 3, 3⟩).2.CancelOrder 2).GetOrderInfos
      = (Orderbook.mk [((100 : Int), ⟨5, 1⟩)] []
        [((100 : Int), [⟨OrderType.GoodTillCancel, 1, Side.Sell, 100, 5, 5⟩])]).GetOrderInfos :=
  add_cancel_restores _ ⟨OrderType.GoodTillCancel, 2, Side.Buy, 90, 3, 3⟩
    ⟨by decide, by decide, by decide, by decide, by decide, by decide, by decide, by decide,
      consistentWith_of_forall _ _ (by decide) (by decide)⟩
    (by
      intro bp hbp ap hap
      simp at hbp)
    (by
      intro x hx
      simp only [Orderbook.allOrders, ladderOrders, List.map_cons, List.map_nil,
        List.flatten, List.append_nil, List.nil_append, List.mem_cons,
        List.not_mem_nil, or_false] at hx
      rw [hx]
      decide)
    (by decide)
    (by decide)
    (by decide)

/-- The termination measure on a plain order list. -/
def ordersFuel (l : List Order) : Nat :=
  (l.map (fun o => o.remainingQuantity + 1)).sum

theorem ordersFuel_append (l1 l2 : List Order) :
    ordersFuel (l1 ++ l2) = ordersFuel l1 + ordersFuel l2 := by
  simp [ordersFuel]

theorem ordersFuel_cons (o : Order) (l : List Order) :
    ordersFuel (o :: l) = o.remainingQuantity + 1 + ordersFuel l := by
  simp [ordersFuel]

theorem loopFuel_eq (b : Orderbook) : b.loopFuel = ordersFuel b.allOrders := rfl

theorem ladderOrders_sideAfterFill (price : Int) (rest : List Order) (o' : Order)
    (t : List (Int × List Order)) :
    ladderOrders (sideAfterFill price rest o' t)
      = (if o'.IsFilled then rest else o' :: rest) ++ ladderOrders t := by
  unfold sideAfterFill
  by_cases hf : o'.IsFilled
  · rw [if_pos hf, if_pos hf]
    by_cases hr : rest.isEmpty
    · rw [if_pos hr]
      have : rest = [] := by simpa [List.isEmpty_iff] using hr
      rw [this]
      rfl
    · rw [if_neg hr, ladderOrders_cons]
  · rw [if_neg hf, if_neg hf, ladderOrders_cons]

theorem sideAfterFill_keys (price : Int) (rest : List Order) (o' : Order)
    (t : List (Int × List Order)) :
    ((sideAfterFill price rest o' t).map Prod.fst).Sublist (price :: t.map Prod.fst) := by
  unfold sideAfterFill
  by_cases hf : o'.IsFilled
  · rw [if_pos hf]
    by_cases hr : rest.isEmpty
    · rw [if_pos hr]
      exact List.sublist_cons_self _ _
    · rw [if_neg hr]
      simp
  · rw [if_neg hf]
    simp

theorem sideAfterFill_ne (price : Int) (rest : List Order) (o' : Order)
    (t : List (Int × List Order)) (ht : ∀ pr ∈ t, pr.2 ≠ []) :
    ∀ pr ∈ sideAfterFill price rest o' t, pr.2 ≠ [] := by
  unfold sideAfterFill
  by_cases hf : o'.IsFilled
  · rw [if_pos hf]
    by_cases hr : rest.isEmpty
    · rw [if_pos hr]
      exact ht
    · rw [if_neg hr]
      intro pr hpr
      rcases List.mem_cons.mp hpr with rfl | hm
      · simpa [List.isEmpty_iff] using hr
      · exact ht pr hm
  · rw [if_neg hf]
    intro pr hpr
    rcases List.mem_cons.mp hpr with rfl | hm
    · simp
    · exact ht pr hm

theorem sideAfterFill_placed (price : Int) (rest : List Order) (o' : Order)
    (t : List (Int × List Order)) (P : Order → Int → Prop)
    (hrest : ∀ x ∈ rest, P x price) (ho : P o' price)
    (ht : ∀ pr ∈ t, ∀ x ∈ pr.2, P x pr.1) :
    ∀ pr ∈ sideAfterFill price rest o' t, ∀ x ∈ pr.2, P x pr.1 := by
  unfold sideAfterFill
  by_cases hf : o'.IsFilled
  · rw [if_pos hf]
    by_cases hr : rest.isEmpty
    · rw [if_pos hr]
      exact ht
    · rw [if_neg hr]
      intro pr hpr x hx
      rcases List.mem_cons.mp hpr with rfl | hm
      · exact hrest x hx
      · exact ht pr hm x hx
  · rw [if_neg hf]
    intro pr hpr x hx
    rcases List.mem_cons.mp hpr with rfl | hm
    · rcases List.mem_cons.mp hx with rfl | hm2
      · exact ho
      · exact hrest x hm2
    · exact ht pr hm x hx

theorem sideAfterFill_ids (price : Int) (rest : List Order) (o o' : Order)
    (t : List (Int × List Order)) (hid : o'.orderId = o.orderId) :
    ((ladderOrders (sideAfterFill price rest o' t)).map Order.orderId).Sublist
      (o.orderId :: ((rest ++ ladderOrders t).map Order.orderId)) := by
  rw [ladderOrders_sideAfterFill]
  by_cases hf : o'.IsFilled
  · rw [if_pos hf]
    exact List.sublist_cons_self _ _
  · rw [if_neg hf, List.cons_append, List.map_cons, hid]

/-- One pairing step of the crossing loop preserves well-formedness and
strictly decreases the termination measure. -/
theorem matchStep_WF (b : Orderbook) (bidPrice askPrice : Int) (bid ask : Order)
    (bidRest askRest : List Order) (restBids restAsks : List (Int × List Order))
    (hb : b.bids = (bidPrice, bid :: bidRest) :: restBids)
    (ha : b.asks = (askPrice, ask :: askRest) :: restAsks)
    (hwf : b.WF) :
    (matchStep b bidPrice askPrice bid ask bidRest askRest restBids restAsks).2.WF
    ∧ (matchStep b bidPrice askPrice bid ask bidRest askRest restBids restAsks).2.loopFuel
        < b.loopFuel := by
  have hbmem : (bidPrice, bid :: bidRest) ∈ b.bids := by
    rw [hb]
    exact List.mem_cons_self _ _
  have hamem : (askPrice, ask :: askRest) ∈ b.asks := by
    rw [ha]
    exact List.mem_cons_self _ _
  have hbidpl := hwf.bidsPlaced _ hbmem bid (List.mem_cons_self _ _)
  have haskpl := hwf.asksPlaced _ hamem ask (List.mem_cons_self _ _)
  have hres : (matchStep b bidPrice askPrice bid ask bidRest askRest restBids restAsks).2 =
      ⟨updateLevelData
          (updateLevelData b.data bid.price (min bid.remainingQuantity ask.remainingQuantity)
            (if (bid.Fill (min bid.remainingQuantity ask.remainingQuantity)).IsFilled
              then LevelAction.Remove else LevelAction.Match))
          ask.price (min bid.remainingQuantity ask.remainingQuantity)
          (if (ask.Fill (min bid.remainingQuantity ask.remainingQuantity)).IsFilled
            then LevelAction.Remove else LevelAction.Match),
        sideAfterFill bidPrice bidRest
          (bid.Fill (min bid.remainingQuantity ask.remainingQuantity)) restBids,
        sideAfterFill askPrice askRest
          (ask.Fill (min bid.remainingQuantity ask.remainingQuantity)) restAsks⟩ := rfl
  rw [hres]
  generalize hq : min bid.remainingQuantity ask.remainingQuantity = q
  have hqb : q ≤ bid.remainingQuantity := by
    rw [← hq]
    exact Nat.min_le_left _ _
  have hqa : q ≤ ask.remainingQuantity := by
    rw [← hq]
    exact Nat.min_le_right _ _
  have hmin : q = bid.remainingQuantity ∨ q = ask.remainingQuantity := by
    rcases Nat.le_total bid.remainingQuantity ask.remainingQuantity with h | h
    · exact Or.inl (by rw [← hq]; exact Nat.min_eq_left h)
    · exact Or.inr (by rw [← hq]; exact Nat.min_eq_right h)
  have hbrem : (bid.Fill q).remainingQuantity = bid.remainingQuantity - q := rfl
  have harem : (ask.Fill q).remainingQuantity = ask.remainingQuantity - q := rfl
  have hall : b.allOrders
      = (bid :: (bidRest ++ ladderOrders restBids))
        ++ (ask :: (askRest ++ ladderOrders restAsks)) := by
    show ladderOrders b.bids ++ ladderOrders b.asks = _
    rw [hb, ha, ladderOrders_cons, ladderOrders_cons]
    simp [List.append_assoc]
  have hc0 : consistentWith b.data
      (bid :: ((bidRest ++ ladderOrders restBids)
        ++ ask :: (askRest ++ ladderOrders restAsks))) := by
    have hcw := hwf.consistent
    rw [hall, List.cons_append] at hcw
    exact hcw
  have hnd0 : (b.data.map Prod.fst).Nodup := nodup_of_pairwise_lt hwf.dataSorted
  have hkey : consistentWith
      (updateLevelData
        (updateLevelData b.data bid.price q
          (if (bid.Fill q).IsFilled then LevelAction.Remove else LevelAction.Match))
        ask.price q
        (if (ask.Fill q).IsFilled then LevelAction.Remove else LevelAction.Match))
      (ladderOrders (sideAfterFill bidPrice bidRest (bid.Fill q) restBids)
        ++ ladderOrders (sideAfterFill askPrice askRest (ask.Fill q) restAsks))
    ∧ ordersFuel (ladderOrders (sideAfterFill bidPrice bidRest (bid.Fill q) restBids)
        ++ ladderOrders (sideAfterFill askPrice askRest (ask.Fill q) restAsks))
      < ordersFuel b.allOrders := by
    by_cases hbf : bid.remainingQuantity - q = 0
    · have hbfill : (bid.Fill q).IsFilled = true := by
        simp [Order.IsFilled, Order.Fill, hbf]
      have hbq : bid.remainingQuantity = q := by omega
      have hstep1 := @consistentWith_remove b.data []
        ((bidRest ++ ladderOrders restBids) ++ ask :: (askRest ++ ladderOrders restAsks))
        bid hnd0 hc0
      rw [hbq] at hstep1
      have hnd1 : ((updateLevelData b.data bid.price q LevelAction.Remove).map Prod.fst).Nodup :=
        nodup_of_pairwise_lt (updateLevelData_sorted _ _ _ _ hwf.dataSorted)
      by_cases haf : ask.remainingQuantity - q = 0
      · have hafill : (ask.Fill q).IsFilled = true := by
          simp [Order.IsFilled, Order.Fill, haf]
        have haq : ask.remainingQuantity = q := by omega
        have hstep2 := @consistentWith_remove
          (updateLevelData b.data bid.price q LevelAction.Remove)
          (bidRest ++ ladderOrders restBids) (askRest ++ ladderOrders restAsks)
          ask hnd1 hstep1
        rw [haq] at hstep2
        rw [ladderOrders_sideAfterFill, ladderOrders_sideAfterFill, hbfill, hafill]
        simp only [eq_self_iff_true, if_true]
        refine ⟨hstep2, ?_⟩
        simp only [hall, List.cons_append, ordersFuel_append, ordersFuel_cons, hbrem, harem]
        omega
      · have hafill : (ask.Fill q).IsFilled = false := by
          simp [Order.IsFilled, Order.Fill, haf]
        have haq : ask.remainingQuantity = (ask.Fill q).remainingQuantity + q := by
          rw [harem]
          omega
        have hstep2 := @consistentWith_match
          (updateLevelData b.data bid.price q LevelAction.Remove)
          (bidRest ++ ladderOrders restBids) (askRest ++ ladderOrders restAsks)
          ask (ask.Fill q) q hstep1 rfl haq
        rw [ladderOrders_sideAfterFill, ladderOrders_sideAfterFill, hbfill, hafill]
        simp only [eq_self_iff_true, if_true, Bool.false_eq_true, if_false]
        refine ⟨hstep2, ?_⟩
        simp only [hall, List.cons_append, ordersFuel_append, ordersFuel_cons, hbrem, harem]
        omega
    · have hbfill : (bid.Fill q).IsFilled = false := by
        simp [Order.IsFilled, Order.Fill, hbf]
      have hbq : bid.remainingQuantity = (bid.Fill q).remainingQuantity + q := by
        rw [hbrem]
        omega
      have hstep1 := @consistentWith_match b.data []
        ((bidRest ++ ladderOrders restBids) ++ ask :: (askRest ++ ladderOrders restAsks))
        bid (bid.Fill q) q hc0 rfl hbq
      have hstep1' : consistentWith (updateLevelData b.data bid.price q LevelAction.Match)
          ((bid.Fill q :: (bidRest ++ ladderOrders restBids))
            ++ ask :: (askRest ++ ladderOrders restAsks)) := by
        rw [List.cons_append]
        exact hstep1
      have hnd1 : ((updateLevelData b.data bid.price q LevelAction.Match).map Prod.fst).Nodup :=
        nodup_of_pairwise_lt (updateLevelData_sorted _ _ _ _ hwf.dataSorted)
      by_cases haf : ask.remainingQuantity - q = 0
      · have hafill : (ask.Fill q).IsFilled = true := by
          simp [Order.IsFilled, Order.Fill, haf]
        have haq : ask.remainingQuantity = q := by omega
        have hstep2 := @consistentWith_remove
          (updateLevelData b.data bid.price q LevelAction.Match)
          (bid.Fill q :: (bidRest ++ ladderOrders restBids))
          (askRest ++ ladderOrders restAsks)
          ask hnd1 hstep1'
        rw [haq] at hstep2
        rw [ladderOrders_sideAfterFill, ladderOrders_sideAfterFill, hbfill, hafill]
        simp only [eq_self_iff_true, if_true, Bool.false_eq_true, if_false]
        refine ⟨hstep2, ?_⟩
        simp only [hall, List.cons_append, ordersFuel_append, ordersFuel_cons, hbrem, harem]
        omega
      · have hafill : (ask.Fill q).IsFilled = false := by
          simp [Order.IsFilled, Order.Fill, haf]
        have haq : ask.remainingQuantity = (ask.Fill q).remainingQuantity + q := by
          rw [harem]
          omega
        have hstep2 := @consistentWith_match
          (updateLevelData b.data bid.price q LevelAction.Match)
          (bid.Fill q :: (bidRest ++ ladderOrders restBids))
          (askRest ++ ladderOrders restAsks)
          ask (ask.Fill q) q hstep1' rfl haq
        rw [ladderOrders_sideAfterFill, ladderOrders_sideAfterFill, hbfill, hafill]
        simp only [Bool.false_eq_true, if_false]
        refine ⟨hstep2, ?_⟩
        simp only [hall, List.cons_append, ordersFuel_append, ordersFuel_cons, hbrem, harem]
        omega
  refine ⟨⟨?_, ?_, ?_, ?_, ?_, ?_, ?_, ?_, hkey.1⟩, hkey.2⟩
  · have hsort : List.Pairwise (· > ·) (bidPrice :: restBids.map Prod.fst) := by
      have hs := hwf.bidsSorted
      rw [hb, List.map_cons] at hs
      exact hs
    exact List.Pairwise.sublist (sideAfterFill_keys _ _ _ _) hsort
  · have hsort : List.Pairwise (· < ·) (askPrice :: restAsks.map Prod.fst) := by
      have hs := hwf.asksSorted
      rw [ha, List.map_cons] at hs
      exact hs
    exact List.Pairwise.sublist (sideAfterFill_keys _ _ _ _) hsort
  · exact updateLevelData_sorted _ _ _ _ (updateLevelData_sorted _ _ _ _ hwf.dataSorted)
  · exact sideAfterFill_ne _ _ _ _
      (fun pr hpr => hwf.bidsNE pr (by rw [hb]; exact List.mem_cons_of_mem _ hpr))
  · exact sideAfterFill_ne _ _ _ _
      (fun pr hpr => hwf.asksNE pr (by rw [ha]; exact List.mem_cons_of_mem _ hpr))
  · exact sideAfterFill_placed bidPrice bidRest _ restBids
      (fun x p => x.price = p ∧ x.side = Side.Buy)
      (fun x hx => hwf.bidsPlaced _ hbmem x (List.mem_cons_of_mem _ hx))
      ⟨hbidpl.1, hbidpl.2⟩
      (fun pr hpr => hwf.bidsPlaced pr (by rw [hb]; exact List.mem_cons_of_mem _ hpr))
  · exact sideAfterFill_placed askPrice askRest _ restAsks
      (fun x p => x.price = p ∧ x.side = Side.Sell)
      (fun x hx => hwf.asksPlaced _ hamem x (List.mem_cons_of_mem _ hx))
      ⟨haskpl.1, haskpl.2⟩
      (fun pr hpr => hwf.asksPlaced pr (by rw [ha]; exact List.mem_cons_of_mem _ hpr))
  · have h1 := sideAfterFill_ids bidPrice bidRest bid (bid.Fill q) restBids rfl
    have h2 := sideAfterFill_ids askPrice askRest ask (ask.Fill q) restAsks rfl
    have hnodup := hwf.idsNodup
    rw [hall] at hnodup
    have hmapeq : (((bid :: (bidRest ++ ladderOrders restBids))
          ++ (ask :: (askRest ++ ladderOrders restAsks))).map Order.orderId)
        = (bid.orderId :: ((bidRest ++ ladderOrders restBids).map Order.orderId))
          ++ (ask.orderId :: ((askRest ++ ladderOrders restAsks).map Order.orderId)) := by
      rw [List.map_append, List.map_cons, List.map_cons]
    rw [hmapeq] at hnodup
    show ((ladderOrders (sideAfterFill bidPrice bidRest (bid.Fill q) restBids)
        ++ ladderOrders (sideAfterFill askPrice askRest (ask.Fill q) restAsks)).map
          Order.orderId).Nodup
    rw [List.map_append]
    exact List.Nodup.sublist (List.Sublist.append h1 h2) hnodup

theorem ordersFuel_eq_zero {l : List Order} (h : ordersFuel l = 0) : l = [] := by
  cases l with
  | nil => rfl
  | cons o t =>
    rw [ordersFuel_cons] at h
    omega

theorem ladder_nil_of_orders_nil {l : List (Int × List Order)}
    (hne : ∀ pr ∈ l, pr.2 ≠ []) (h : ladderOrders l = []) : l = [] := by
  cases l with
  | nil => rfl
  | cons pr rest =>
    obtain ⟨p, os⟩ := pr
    rw [ladderOrders_cons] at h
    have hos : os = [] := by
      cases os with
      | nil => rfl
      | cons a t => simp at h
    exact absurd hos (hne (p, os) (List.mem_cons_self _ _))

/-- The crossing loop preserves well-formedness and, given enough fuel, leaves
a non-crossing book. -/
theorem matchLoop_WF (fuel : Nat) : ∀ (b : Orderbook) (acc : List Trade),
    b.loopFuel ≤ fuel → b.WF →
    (matchLoop fuel b acc).2.WF ∧ (matchLoop fuel b acc).2.NonCrossing := by
  induction fuel with
  | zero =>
    intro b acc hfuel hwf
    have hz : ordersFuel b.allOrders = 0 := by
      have hf := hfuel
      rw [loopFuel_eq] at hf
      omega
    have hnil : b.allOrders = [] := ordersFuel_eq_zero hz
    have hbnil : ladderOrders b.bids = [] := by
      have happ : ladderOrders b.bids ++ ladderOrders b.asks = [] := hnil
      exact (List.append_eq_nil.mp happ).1
    have hb : b.bids = [] := ladder_nil_of_orders_nil hwf.bidsNE hbnil
    show b.WF ∧ b.NonCrossing
    refine ⟨hwf, ?_⟩
    intro bp hbp ap hap
    rw [hb] at hbp
    simp at hbp
  | succ fuel ih =>
    intro b acc hfuel hwf
    unfold matchLoop
    cases hb : b.bids with
    | nil =>
      have hnc : b.NonCrossing := by
        intro bp hbp ap hap
        rw [hb] at hbp
        simp at hbp
      cases ha : b.asks with
      | nil => exact ⟨hwf, hnc⟩
      | cons atop restAsks => exact ⟨hwf, hnc⟩
    | cons btop restBids =>
      cases ha : b.asks with
      | nil =>
        show b.WF ∧ b.NonCrossing
        refine ⟨hwf, ?_⟩
        intro bp hbp ap hap
        rw [ha] at hap
        simp at hap
      | cons atop restAsks =>
        obtain ⟨bidPrice, bidQueue⟩ := btop
        obtain ⟨askPrice, askQueue⟩ := atop
        by_cases hlt : bidPrice < askPrice
        · simp only [if_pos hlt]
          show b.WF ∧ b.NonCrossing
          refine ⟨hwf, ?_⟩
          intro bp hbp ap hap
          rw [hb] at hbp
          rw [ha] at hap
          simp at hbp hap
          omega
        · simp only [if_neg hlt]
          cases bidQueue with
          | nil =>
            have hmem : (bidPrice, ([] : List Order)) ∈ b.bids := by
              rw [hb]
              exact List.mem_cons_self _ _
            exact absurd rfl (hwf.bidsNE _ hmem)
          | cons bid bidRest =>
            cases askQueue with
            | nil =>
              have hmem : (askPrice, ([] : List Order)) ∈ b.asks := by
                rw [ha]
                exact List.mem_cons_self _ _
              exact absurd rfl (hwf.asksNE _ hmem)
            | cons ask askRest =>
              have hstep := matchStep_WF b bidPrice askPrice bid ask bidRest askRest
                restBids restAsks hb ha hwf
              have hfuel' : (matchStep b bidPrice askPrice bid ask bidRest askRest
                  restBids restAsks).2.loopFuel ≤ fuel := by
                have h2 := hstep.2
                omega
              show (matchLoop fuel
                  (matchStep b bidPrice askPrice bid ask bidRest askRest restBids restAsks).2
                  (acc ++ [(matchStep b bidPrice askPrice bid ask bidRest askRest
                    restBids restAsks).1])).2.WF
                ∧ (matchLoop fuel
                  (matchStep b bidPrice askPrice bid ask bidRest askRest restBids restAsks).2
                  (acc ++ [(matchStep b bidPrice askPrice bid ask bidRest askRest
                    restBids restAsks).1])).2.NonCrossing
              exact ih _ _ hfuel' hstep.1

/-- The residual FillAndKill cleanup preserves well-formedness: each of its two
arms is either the identity or a `CancelOrder`. -/
theorem pruneTop_WF (b : Orderbook) (hwf : b.WF) : b.pruneTopFillAndKill.WF := by
  unfold Orderbook.pruneTopFillAndKill
  have hb1 : (match b.bids with
      | (_, order :: _) :: _ =>
        if order.orderType == OrderType.FillAndKill then b.CancelOrder order.orderId else b
      | _ => b).WF := by
    cases hbids : b.bids with
    | nil => exact hwf
    | cons top rest =>
      obtain ⟨p, os⟩ := top
      cases os with
      | nil => exact hwf
      | cons o t =>
        show (if (o.orderType == OrderType.FillAndKill) = true
            then b.CancelOrder o.orderId else b).WF
        by_cases hty : (o.orderType == OrderType.FillAndKill) = true
        · rw [if_pos hty]
          exact (cancelOrderInternal_WF _ hwf).1
        · rw [if_neg hty]
          exact hwf
  generalize hbb : (match b.bids with
      | (_, order :: _) :: _ =>
        if order.orderType == OrderType.FillAndKill then b.CancelOrder order.orderId else b
      | _ => b) = b1 at hb1 ⊢
  show (match b1.asks with
    | (_, order :: _) :: _ =>
      if order.orderType == OrderType.FillAndKill then b1.CancelOrder order.orderId else b1
    | _ => b1).WF
  cases hasks : b1.asks with
  | nil => exact hb1
  | cons top rest =>
    obtain ⟨p, os⟩ := top
    cases os with
    | nil => exact hb1
    | cons o t =>
      show (if (o.orderType == OrderType.FillAndKill) = true
          then b1.CancelOrder o.orderId else b1).WF
      by_cases hty : (o.orderType == OrderType.FillAndKill) = true
      · rw [if_pos hty]
        exact (cancelOrderInternal_WF _ hb1).1
      · rw [if_neg hty]
        exact hb1

/-- Inserting a fresh order (remaining = initial) at the tail of its side's
price bucket, together with the Add level delta, preserves well-formedness. -/
theorem insert_WF (b : Orderbook) (o : Order) (hwf : b.WF)
    (hfresh : b.ordersContains o.orderId = false)
    (hrem : o.remainingQuantity = o.initialQuantity) :
    ((match o.side with
      | Side.Buy => { b with bids := bidsAdd b.bids o.price o }
      | Side.Sell => { b with asks := asksAdd b.asks o.price o }).OnOrderAdded o).WF := by
  cases hside : o.side with
  | Buy =>
    show (({ b with bids := bidsAdd b.bids o.price o } : Orderbook).OnOrderAdded o).WF
    obtain ⟨l1, l2, hsplit, hadd⟩ := bidsAdd_split b.bids o.price o
    have hallb : b.allOrders = l1 ++ (l2 ++ ladderOrders b.asks) := by
      show ladderOrders b.bids ++ ladderOrders b.asks = _
      rw [hsplit, List.append_assoc]
    have hfr : ∀ x ∈ l1 ++ (l2 ++ ladderOrders b.asks), x.orderId ≠ o.orderId := by
      intro x hx heq
      have h1 := not_contains_forall hfresh x (by rw [hallb]; exact hx)
      rw [heq] at h1
      simp at h1
    refine ⟨?_, ?_, ?_, ?_, ?_, ?_, ?_, ?_, ?_⟩
    · exact bidsAdd_sorted _ _ _ hwf.bidsSorted
    · exact hwf.asksSorted
    · exact updateLevelData_sorted b.data o.price o.initialQuantity LevelAction.Add hwf.dataSorted
    · exact bidsAdd_buckets_ne _ _ _ hwf.bidsNE
    · exact hwf.asksNE
    · exact bidsAdd_placed _ _ _ (fun x p => x.price = p ∧ x.side = Side.Buy)
        hwf.bidsPlaced ⟨rfl, hside⟩
    · exact hwf.asksPlaced
    · show ((ladderOrders (bidsAdd b.bids o.price o) ++ ladderOrders b.asks).map
          Order.orderId).Nodup
      rw [hadd, List.append_assoc, List.cons_append]
      simp only [List.map_append, List.map_cons]
      rw [List.nodup_middle, List.nodup_cons]
      constructor
      · intro hmem
        rw [← List.map_append, ← List.map_append] at hmem
        obtain ⟨x, hx, hxid⟩ := List.mem_map.mp hmem
        exact hfr x hx hxid
      · have h0 := hwf.idsNodup
        rw [hallb] at h0
        simp only [List.map_append] at h0
        exact h0
    · show consistentWith (updateLevelData b.data o.price o.initialQuantity LevelAction.Add)
        (ladderOrders (bidsAdd b.bids o.price o) ++ ladderOrders b.asks)
      rw [hadd, List.append_assoc, List.cons_append]
      have hc : consistentWith b.data (l1 ++ (l2 ++ ladderOrders b.asks)) := by
        have h0 := hwf.consistent
        rw [hallb] at h0
        exact h0
      exact @consistentWith_add b.data l1 (l2 ++ ladderOrders b.asks) o hc hrem
  | Sell =>
    show (({ b with asks := asksAdd b.asks o.price o } : Orderbook).OnOrderAdded o).WF
    obtain ⟨l1, l2, hsplit, hadd⟩ := asksAdd_split b.asks o.price o
    have hallb : b.allOrders = (ladderOrders b.bids ++ l1) ++ l2 := by
      show ladderOrders b.bids ++ ladderOrders b.asks = _
      rw [hsplit, List.append_assoc]
    have hfr : ∀ x ∈ (ladderOrders b.bids ++ l1) ++ l2, x.orderId ≠ o.orderId := by
      intro x hx heq
      have h1 := not_contains_forall hfresh x (by rw [hallb]; exact hx)
      rw [heq] at h1
      simp at h1
    refine ⟨?_, ?_, ?_, ?_, ?_, ?_, ?_, ?_, ?_⟩
    · exact hwf.bidsSorted
    · exact asksAdd_sorted _ _ _ hwf.asksSorted
    · exact updateLevelData_sorted b.data o.price o.initialQuantity LevelAction.Add hwf.dataSorted
    · exact hwf.bidsNE
    · exact asksAdd_buckets_ne _ _ _ hwf.asksNE
    · exact hwf.bidsPlaced
    · exact asksAdd_placed _ _ _ (fun x p => x.price = p ∧ x.side = Side.Sell)
        hwf.asksPlaced ⟨rfl, hside⟩
    · show ((ladderOrders b.bids ++ ladderOrders (asksAdd b.asks o.price o)).map
          Order.orderId).Nodup
      rw [hadd, ← List.append_assoc]
      simp only [List.map_append, List.map_cons]
      rw [List.nodup_middle, List.nodup_cons]
      constructor
      · intro hmem
        rw [← List.map_append, ← List.map_append] at hmem
        obtain ⟨x, hx, hxid⟩ := List.mem_map.mp hmem
        exact hfr x hx hxid
      · have h0 := hwf.idsNodup
        rw [hallb] at h0
        simp only [List.map_append] at h0
        exact h0
    · show consistentWith (updateLevelData b.data o.price o.initialQuantity LevelAction.Add)
        (ladderOrders b.bids ++ ladderOrders (asksAdd b.asks o.price o))
      rw [hadd, ← List.append_assoc]
      have hc : consistentWith b.data ((ladderOrders b.bids ++ l1) ++ l2) := by
        have h0 := hwf.consistent
        rw [hallb] at h0
        exact h0
      exact @consistentWith_add b.data (ladderOrders b.bids ++ l1) l2 o hc hrem

/-- Insertion followed by the full matching pass preserves well-formedness. -/
theorem insertMatch_WF (b : Orderbook) (o : Order) (hwf : b.WF)
    (hfresh : b.ordersContains o.orderId = false)
    (hrem : o.remainingQuantity = o.initialQuantity) :
    (((match o.side with
      | Side.Buy => { b with bids := bidsAdd b.bids o.price o }
      | Side.Sell => { b with asks := asksAdd b.asks o.price o }).OnOrderAdded o).MatchOrders).2.WF := by
  have hwf2 := insert_WF b o hwf hfresh hrem
  exact pruneTop_WF _ (matchLoop_WF _ _ _ (le_refl _) hwf2).1

/-- The admission tail of `AddOrder` (everything after the duplicate-id check
and the Market conversion) preserves well-formedness. -/
theorem addOrder_tail_WF (b : Orderbook) (x : Order) (hwf : b.WF)
    (hfresh : b.ordersContains x.orderId = false)
    (hrem : x.remainingQuantity = x.initialQuantity) :
    (if (x.orderType == OrderType.FillAndKill && !(b.CanMatch x.side x.price)) = true
      then (([] : List Trade), b)
      else if (x.orderType == OrderType.FillOrKill
          && !(b.CanFullyFill x.side x.price x.initialQuantity)) = true
        then (([] : List Trade), b)
      else ((match x.side with
        | Side.Buy => { b with bids := bidsAdd b.bids x.price x }
        | Side.Sell => { b with asks := asksAdd b.asks x.price x }).OnOrderAdded x).MatchOrders).2.WF := by
  by_cases h1 : (x.orderType == OrderType.FillAndKill && !(b.CanMatch x.side x.price)) = true
  · rw [if_pos h1]
    exact hwf
  · rw [if_neg h1]
    by_cases h2 : (x.orderType == OrderType.FillOrKill
        && !(b.CanFullyFill x.side x.price x.initialQuantity)) = true
    · rw [if_pos h2]
      exact hwf
    · rw [if_neg h2]
      exact insertMatch_WF b x hwf hfresh hrem

/-- `AddOrder` preserves well-formedness (for orders admitted with
`remainingQuantity = initialQuantity`, as the `Order` constructor guarantees). -/
theorem addOrder_WF (b : Orderbook) (o : Order) (hwf : b.WF)
    (hrem : o.remainingQuantity = o.initialQuantity) : (b.AddOrder o).2.WF := by
  unfold Orderbook.AddOrder
  by_cases hdup : b.ordersContains o.orderId = true
  · rw [if_pos hdup]
    exact hwf
  · have hfresh : b.ordersContains o.orderId = false := by
      cases hc : b.ordersContains o.orderId
      · rfl
      · exact absurd hc hdup
    rw [if_neg hdup]
    by_cases hmkt : (o.orderType == OrderType.Market) = true
    · rw [if_pos hmkt]
      by_cases hbuy : (o.side == Side.Buy && !b.asks.isEmpty) = true
      · rw [if_pos hbuy]
        exact addOrder_tail_WF b _ hwf hfresh hrem
      · rw [if_neg hbuy]
        by_cases hsell : (o.side == Side.Sell && !b.bids.isEmpty) = true
        · rw [if_pos hsell]
          exact addOrder_tail_WF b _ hwf hfresh hrem
        · rw [if_neg hsell]
          exact hwf
    · rw [if_neg hmkt]
      exact addOrder_tail_WF b o hwf hfresh hrem

/-- `ModifyOrder` preserves well-formedness: its cancel and its re-add (whose
fresh order has `remainingQuantity = initialQuantity` by construction) both do. -/
theorem modifyOrder_WF (b : Orderbook) (m : OrderModify) (hwf : b.WF) :
    (b.ModifyOrder m).2.WF := by
  unfold Orderbook.ModifyOrder
  cases hf : b.findOrder m.orderId with
  | none => exact hwf
  | some ex => exact addOrder_WF _ _ (cancelOrderInternal_WF _ hwf).1 rfl

/-- Claim C7.  After every completed public operation on a well-formed book —
`AddOrder` of an order admitted with `remainingQuantity = initialQuantity` (as
the `Order` constructor guarantees), `CancelOrder` of any id, `ModifyOrder` of
any modification — the level aggregates are consistent with the resting
orders: for every price, `data_` holds an entry exactly when at least one
order rests there, and that entry records the number of resting orders at that
price together with the sum of their remaining quantities (so a level is
evicted exactly when its count reaches zero). -/
theorem level_aggregates_consistent (b : Orderbook) (o : Order) (m : OrderModify)
    (orderId : Nat) (hwf : b.WF) (hrem : o.remainingQuantity = o.initialQuantity) :
    consistentWith (b.AddOrder o).2.data (b.AddOrder o).2.allOrders
    ∧ consistentWith (b.CancelOrder orderId).data (b.CancelOrder orderId).allOrders
    ∧ consistentWith (b.ModifyOrder m).2.data (b.ModifyOrder m).2.allOrders :=
  ⟨(addOrder_WF b o hwf hrem).consistent,
   (cancelOrderInternal_WF orderId hwf).1.consistent,
   (modifyOrder_WF b m hwf).consistent⟩

/-- Witness for `level_aggregates_consistent`: the crossing buy `(id 2, Buy,
100, 3)` against the book holding the single ask `(id 1, Sell, 100, 5)`, the
cancellation of id 1, and the modification of id 1 to `(Sell, 101, 4)`. -/
theorem level_aggregates_consistent_witness :
    consistentWith ((Orderbook.mk [((100 : Int), ⟨5, 1⟩)] []
        [((100 : Int), [⟨OrderType.GoodTillCancel, 1, Side.Sell, 100, 5, 5⟩])]).AddOrder
          ⟨OrderType.GoodTillCancel, 2, Side.Buy, 100, 3, 3⟩).2.data
      ((Orderbook.mk [((100 : Int), ⟨5, 1⟩)] []
        [((100 : Int), [⟨OrderType.GoodTillCancel, 1, Side.Sell, 100, 5, 5⟩])]).AddOrder
          ⟨OrderType.GoodTillCancel, 2, Side.Buy, 100, 3, 3⟩).2.allOrders
    ∧ consistentWith ((Orderbook.mk [((100 : Int), ⟨5, 1⟩)] []
        [((100 : Int), [⟨OrderType.GoodTillCancel, 1, Side.Sell, 100, 5, 5⟩])]).CancelOrder 1).data
      ((Orderbook.mk [((100 : Int), ⟨5, 1⟩)] []
        [((100 : Int), [⟨OrderType.GoodTillCancel, 1, Side.Sell, 100, 5, 5⟩])]).CancelOrder 1).allOrders
    ∧ consistentWith ((Orderbook.mk [((100 : Int), ⟨5, 1⟩)] []
        [((100 : Int), [⟨OrderType.GoodTillCancel, 1, Side.Sell, 100, 5, 5⟩])]).ModifyOrder
          ⟨1, Side.Sell, 101, 4⟩).2.data
      ((Orderbook.mk [((100 : Int), ⟨5, 1⟩)] []
        [((100 : Int), [⟨OrderType.GoodTillCancel, 1, Side.Sell, 100, 5, 5⟩])]).ModifyOrder
          ⟨1, Side.Sell, 101, 4⟩).2.allOrders :=
  level_aggregates_consistent _ ⟨OrderType.GoodTillCancel, 2, Side.Buy, 100, 3, 3⟩
    ⟨1, Side.Sell, 101, 4⟩ 1
    ⟨by decide, by decide, by decide, by decide, by decide, by decide, by decide, by decide,
      consistentWith_of_forall _ _ (by decide) (by decide)⟩
    rfl

/-- The quantity a trade list attributes to a given order id on the bid side. -/
def buyTraded (id : Nat) (trades : List Trade) : Nat :=
  ((trades.filter (fun t => t.bidTrade.orderId == id)).map
    (fun t => t.bidTrade.quantity)).sum

/-- The quantity a trade list attributes to a given order id on the ask side. -/
def sellTraded (id : Nat) (trades : List Trade) : Nat :=
  ((trades.filter (fun t => t.askTrade.orderId == id)).map
    (fun t => t.askTrade.quantity)).sum

theorem buyTraded_nil (id : Nat) : buyTraded id [] = 0 := rfl

theorem sellTraded_nil (id : Nat) : sellTraded id [] = 0 := rfl

theorem buyTraded_append (id : Nat) (l1 l2 : List Trade) :
    buyTraded id (l1 ++ l2) = buyTraded id l1 + buyTraded id l2 := by
  simp [buyTraded, List.filter_append]

theorem sellTraded_append (id : Nat) (l1 l2 : List Trade) :
    sellTraded id (l1 ++ l2) = sellTraded id l1 + sellTraded id l2 := by
  simp [sellTraded, List.filter_append]

theorem buyTraded_single (id : Nat) (t : Trade) :
    buyTraded id [t] = if t.bidTrade.orderId = id then t.bidTrade.quantity else 0 := by
  by_cases h : t.bidTrade.orderId = id
  · simp [buyTraded, List.filter_cons, h]
  · simp [buyTraded, List.filter_cons, h]

theorem sellTraded_single (id : Nat) (t : Trade) :
    sellTraded id [t] = if t.askTrade.orderId = id then t.askTrade.quantity else 0 := by
  by_cases h : t.askTrade.orderId = id
  · simp [sellTraded, List.filter_cons, h]
  · simp [sellTraded, List.filter_cons, h]

theorem canFullyFill_canMatch {b : Orderbook} {side : Side} {price : Int} {q : Nat}
    (h : b.CanFullyFill side price q = true) : b.CanMatch side price = true := by
  unfold Orderbook.CanFullyFill at h
  by_cases hcm : b.CanMatch side price = true
  · exact hcm
  · rw [if_pos (by simpa using hcm)] at h
    cases h

theorem canMatch_buy_top {b : Orderbook} {price : Int}
    (h : b.CanMatch Side.Buy price = true) :
    ∃ ap aq restA, b.asks = (ap, aq) :: restA ∧ ap ≤ price := by
  unfold Orderbook.CanMatch at h
  cases ha : b.asks with
  | nil =>
    rw [ha] at h
    cases h
  | cons top rest =>
    obtain ⟨ap, aq⟩ := top
    rw [ha] at h
    exact ⟨ap, aq, rest, rfl, by simpa using h⟩

theorem canMatch_sell_top {b : Orderbook} {price : Int}
    (h : b.CanMatch Side.Sell price = true) :
    ∃ bp bq restB, b.bids = (bp, bq) :: restB ∧ price ≤ bp := by
  unfold Orderbook.CanMatch at h
  cases hbd : b.bids with
  | nil =>
    rw [hbd] at h
    cases h
  | cons top rest =>
    obtain ⟨bp, bq⟩ := top
    rw [hbd] at h
    exact ⟨bp, bq, rest, rfl, by simpa using h⟩

/-- Inserting strictly above the top of the bid ladder opens a fresh singleton
bucket at the front. -/
theorem bidsAdd_front (l : List (Int × List Order)) (p : Int) (o : Order)
    (h : ∀ k ∈ (l.map Prod.fst).head?, k < p) :
    bidsAdd l p o = (p, [o]) :: l := by
  cases l with
  | nil => rfl
  | cons e rest =>
    obtain ⟨q, os⟩ := e
    have hq : q < p := h q (by simp)
    show bidsAdd ((q, os) :: rest) p o = _
    unfold bidsAdd
    rw [if_neg (by omega), if_pos (by omega)]

/-- Inserting strictly below the top of the ask ladder opens a fresh singleton
bucket at the front. -/
theorem asksAdd_front (l : List (Int × List Order)) (p : Int) (o : Order)
    (h : ∀ k ∈ (l.map Prod.fst).head?, p < k) :
    asksAdd l p o = (p, [o]) :: l := by
  cases l with
  | nil => rfl
  | cons e rest =>
    obtain ⟨q, os⟩ := e
    have hq : p < q := h q (by simp)
    show asksAdd ((q, os) :: rest) p o = _
    unfold asksAdd
    rw [if_neg (by omega), if_pos (by omega)]

/-- A pairing step never introduces a new order id. -/
theorem matchStep_ids (b : Orderbook) (bidPrice askPrice : Int) (bid ask : Order)
    (bidRest askRest : List Order) (restBids restAsks : List (Int × List Order))
    (hb : b.bids = (bidPrice, bid :: bidRest) :: restBids)
    (ha : b.asks = (askPrice, ask :: askRest) :: restAsks) :
    (((matchStep b bidPrice askPrice bid ask bidRest askRest restBids restAsks).2.allOrders).map
        Order.orderId).Sublist (b.allOrders.map Order.orderId) := by
  have h1 := sideAfterFill_ids bidPrice bidRest bid
    (bid.Fill (min bid.remainingQuantity ask.remainingQuantity)) restBids rfl
  have h2 := sideAfterFill_ids askPrice askRest ask
    (ask.Fill (min bid.remainingQuantity ask.remainingQuantity)) restAsks rfl
  have hall : b.allOrders
      = (bid :: (bidRest ++ ladderOrders restBids))
        ++ (ask :: (askRest ++ ladderOrders restAsks)) := by
    show ladderOrders b.bids ++ ladderOrders b.asks = _
    rw [hb, ha, ladderOrders_cons, ladderOrders_cons]
    simp [List.append_assoc]
  rw [hall]
  show ((ladderOrders (sideAfterFill bidPrice bidRest
        (bid.Fill (min bid.remainingQuantity ask.remainingQuantity)) restBids)
      ++ ladderOrders (sideAfterFill askPrice askRest
        (ask.Fill (min bid.remainingQuantity ask.remainingQuantity)) restAsks)).map
          Order.orderId).Sublist _
  rw [List.map_append]
  have hmapeq : (((bid :: (bidRest ++ ladderOrders restBids))
        ++ (ask :: (askRest ++ ladderOrders restAsks))).map Order.orderId)
      = (bid.orderId :: ((bidRest ++ ladderOrders restBids).map Order.orderId))
        ++ (ask.orderId :: ((askRest ++ ladderOrders restAsks).map Order.orderId)) := by
    rw [List.map_append, List.map_cons, List.map_cons]
  rw [hmapeq]
  exact List.Sublist.append h1 h2

/-- Cancellation only removes orders. -/
theorem cancel_subset {b : Orderbook} (orderId : Nat) (hwf : b.WF) :
    ∀ x ∈ (b.CancelOrderInternal orderId).allOrders, x ∈ b.allOrders := by
  obtain ⟨_, hbs, has, _, _⟩ := cancelOrderInternal_WF orderId hwf
  intro x hx
  have hx' : x ∈ ladderOrders (b.CancelOrderInternal orderId).bids
      ++ ladderOrders (b.CancelOrderInternal orderId).asks := hx
  rcases List.mem_append.mp hx' with h | h
  · exact List.mem_append_left _ (hbs.subset h)
  · exact List.mem_append_right _ (has.subset h)

/-- The residual FillAndKill cleanup only removes orders. -/
theorem pruneTop_subset (b : Orderbook) (hwf : b.WF) :
    ∀ x ∈ b.pruneTopFillAndKill.allOrders, x ∈ b.allOrders := by
  unfold Orderbook.pruneTopFillAndKill
  have hb1 : (match b.bids with
      | (_, order :: _) :: _ =>
        if order.orderType == OrderType.FillAndKill then b.CancelOrder order.orderId else b
      | _ => b).WF ∧
      (∀ x ∈ (match b.bids with
        | (_, order :: _) :: _ =>
          if order.orderType == OrderType.FillAndKill then b.CancelOrder order.orderId else b
        | _ => b).allOrders, x ∈ b.allOrders) := by
    cases hbids : b.bids with
    | nil => exact ⟨hwf, fun x hx => hx⟩
    | cons top rest =>
      obtain ⟨p, os⟩ := top
      cases os with
      | nil => exact ⟨hwf, fun x hx => hx⟩
      | cons o t =>
        show (if (o.orderType == OrderType.FillAndKill) = true
            then b.CancelOrder o.orderId else b).WF ∧
          (∀ x ∈ (if (o.orderType == OrderType.FillAndKill) = true
            then b.CancelOrder o.orderId else b).allOrders, x ∈ b.allOrders)
        by_cases hty : (o.orderType == OrderType.FillAndKill) = true
        · rw [if_pos hty]
          exact ⟨(cancelOrderInternal_WF _ hwf).1, cancel_subset _ hwf⟩
        · rw [if_neg hty]
          exact ⟨hwf, fun x hx => hx⟩
  generalize hbb : (match b.bids with
      | (_, order :: _) :: _ =>
        if order.orderType == OrderType.FillAndKill then b.CancelOrder order.orderId else b
      | _ => b) = b1 at hb1 ⊢
  obtain ⟨hb1wf, hb1sub⟩ := hb1
  show ∀ x ∈ (match b1.asks with
    | (_, order :: _) :: _ =>
      if order.orderType == OrderType.FillAndKill then b1.CancelOrder order.orderId else b1
    | _ => b1).allOrders, x ∈ b.allOrders
  cases hasks : b1.asks with
  | nil => exact hb1sub
  | cons top rest =>
    obtain ⟨p, os⟩ := top
    cases os with
    | nil => exact hb1sub
    | cons o t =>
      show ∀ x ∈ (if (o.orderType == OrderType.FillAndKill) = true
          then b1.CancelOrder o.orderId else b1).allOrders, x ∈ b.allOrders
      by_cases hty : (o.orderType == OrderType.FillAndKill) = true
      · rw [if_pos hty]
        exact fun x hx => hb1sub x (cancel_subset _ hb1wf x hx)
      · rw [if_neg hty]
        exact hb1sub

/-- When no resting order carries a given id, the crossing loop attributes no
traded quantity to that id and never introduces it. -/
theorem matchLoop_id_free (fuel : Nat) : ∀ (b : Orderbook) (acc : List Trade) (id : Nat),
    b.loopFuel ≤ fuel → b.WF →
    (∀ x ∈ b.allOrders, x.orderId ≠ id) →
    buyTraded id (matchLoop fuel b acc).1 = buyTraded id acc
    ∧ sellTraded id (matchLoop fuel b acc).1 = sellTraded id acc
    ∧ (∀ x ∈ (matchLoop fuel b acc).2.allOrders, x.orderId ≠ id) := by
  induction fuel with
  | zero =>
    intro b acc id hfuel hwf hfree
    exact ⟨rfl, rfl, hfree⟩
  | succ fuel ih =>
    intro b acc id hfuel hwf hfree
    unfold matchLoop
    cases hb : b.bids with
    | nil =>
      cases ha : b.asks with
      | nil => exact ⟨rfl, rfl, hfree⟩
      | cons atop restAsks => exact ⟨rfl, rfl, hfree⟩
    | cons btop restBids =>
      cases ha : b.asks with
      | nil => exact ⟨rfl, rfl, hfree⟩
      | cons atop restAsks =>
        obtain ⟨bidPrice, bidQueue⟩ := btop
        obtain ⟨askPrice, askQueue⟩ := atop
        by_cases hlt : bidPrice < askPrice
        · simp only [if_pos hlt]
          exact ⟨by trivial, by trivial, hfree⟩
        · simp only [if_neg hlt]
          cases bidQueue with
          | nil =>
            have hmem : (bidPrice, ([] : List Order)) ∈ b.bids := by
              rw [hb]
              exact List.mem_cons_self _ _
            exact absurd rfl (hwf.bidsNE _ hmem)
          | cons bid bidRest =>
            cases askQueue with
            | nil =>
              have hmem : (askPrice, ([] : List Order)) ∈ b.asks := by
                rw [ha]
                exact List.mem_cons_self _ _
              exact absurd rfl (hwf.asksNE _ hmem)
            | cons ask askRest =>
              have hstep := matchStep_WF b bidPrice askPrice bid ask bidRest askRest
                restBids restAsks hb ha hwf
              have hfuel' : (matchStep b bidPrice askPrice bid ask bidRest askRest
                  restBids restAsks).2.loopFuel ≤ fuel := by
                have h2 := hstep.2
                omega
              have hfree' : ∀ x ∈ (matchStep b bidPrice askPrice bid ask bidRest askRest
                  restBids restAsks).2.allOrders, x.orderId ≠ id := by
                intro x hx
                have hxid : x.orderId ∈ ((matchStep b bidPrice askPrice bid ask bidRest
                    askRest restBids restAsks).2.allOrders).map Order.orderId :=
                  List.mem_map_of_mem Order.orderId hx
                have hxid' := (matchStep_ids b bidPrice askPrice bid ask bidRest askRest
                  restBids restAsks hb ha).subset hxid
                obtain ⟨y, hy, hyid⟩ := List.mem_map.mp hxid'
                rw [← hyid]
                exact hfree y hy
              have hbid_mem : bid ∈ b.allOrders := by
                refine List.mem_append_left _ ?_
                rw [hb, ladderOrders_cons]
                exact List.mem_append_left _ (List.mem_cons_self _ _)
              have hask_mem : ask ∈ b.allOrders := by
                refine List.mem_append_right _ ?_
                rw [ha, ladderOrders_cons]
                exact List.mem_append_left _ (List.mem_cons_self _ _)
              have ihres := ih _ (acc ++ [(matchStep b bidPrice askPrice bid ask bidRest
                askRest restBids restAsks).1]) id hfuel' hstep.1 hfree'
              show buyTraded id (matchLoop fuel
                  (matchStep b bidPrice askPrice bid ask bidRest askRest restBids restAsks).2
                  (acc ++ [(matchStep b bidPrice askPrice bid ask bidRest askRest
                    restBids restAsks).1])).1 = buyTraded id acc
                ∧ sellTraded id (matchLoop fuel
                  (matchStep b bidPrice askPrice bid ask bidRest askRest restBids restAsks).2
                  (acc ++ [(matchStep b bidPrice askPrice bid ask bidRest askRest
                    restBids restAsks).1])).1 = sellTraded id acc
                ∧ (∀ x ∈ (matchLoop fuel
                  (matchStep b bidPrice askPrice bid ask bidRest askRest restBids restAsks).2
                  (acc ++ [(matchStep b bidPrice askPrice bid ask bidRest askRest
                    restBids restAsks).1])).2.allOrders, x.orderId ≠ id)
              refine ⟨?_, ?_, ihres.2.2⟩
              · rw [ihres.1, buyTraded_append, buyTraded_single]
                rw [if_neg ?hne]
                case hne =>
                  show ¬ bid.orderId = id
                  exact hfree bid hbid_mem
                omega
              · rw [ihres.2.1, sellTraded_append, sellTraded_single]
                rw [if_neg ?hne2]
                case hne2 =>
                  show ¬ ask.orderId = id
                  exact hfree ask hask_mem
                omega

theorem oppLiq_buy (b : Orderbook) (price : Int) :
    b.oppositeLiquidity Side.Buy price
      = (((ladderOrders b.asks).filter (fun x => decide (x.price ≤ price))).map
          Order.remainingQuantity).sum := rfl

theorem oppLiq_sell (b : Orderbook) (price : Int) :
    b.oppositeLiquidity Side.Sell price
      = (((ladderOrders b.bids).filter (fun x => decide (price ≤ x.price))).map
          Order.remainingQuantity).sum := rfl

theorem filterSumLE_cons (x : Order) (l : List Order) (p : Int) :
    (((x :: l).filter (fun y => decide (y.price ≤ p))).map Order.remainingQuantity).sum
      = (if x.price ≤ p then x.remainingQuantity else 0)
        + ((l.filter (fun y => decide (y.price ≤ p))).map Order.remainingQuantity).sum := by
  by_cases h : x.price ≤ p
  · simp [List.filter_cons, h]
  · simp [List.filter_cons, h]

theorem filterSumGE_cons (x : Order) (l : List Order) (p : Int) :
    (((x :: l).filter (fun y => decide (p ≤ y.price))).map Order.remainingQuantity).sum
      = (if p ≤ x.price then x.remainingQuantity else 0)
        + ((l.filter (fun y => decide (p ≤ y.price))).map Order.remainingQuantity).sum := by
  by_cases h : p ≤ x.price
  · simp [List.filter_cons, h]
  · simp [List.filter_cons, h]

/-- The crossing loop fully fills an incoming Buy that heads the bid ladder as
the sole order of its bucket, provided the eligible ask-side liquidity covers
its remaining quantity: the traded quantity attributed to its id on the bid
side grows by exactly its remaining quantity and its id is gone afterwards. -/
theorem matchLoop_fok_buy (fuel : Nat) :
    ∀ (b : Orderbook) (acc : List Trade) (o : Order) (B0 : List (Int × List Order)),
    b.loopFuel ≤ fuel → b.WF →
    b.bids = (o.price, [o]) :: B0 →
    (∀ x ∈ ladderOrders B0, x.orderId ≠ o.orderId) →
    (∀ x ∈ ladderOrders b.asks, x.orderId ≠ o.orderId) →
    o.remainingQuantity ≤ b.oppositeLiquidity Side.Buy o.price →
    (o.remainingQuantity = 0 →
      ∃ ap aq restA, b.asks = (ap, aq) :: restA ∧ ap ≤ o.price) →
    buyTraded o.orderId (matchLoop fuel b acc).1
        = buyTraded o.orderId acc + o.remainingQuantity
    ∧ (∀ x ∈ (matchLoop fuel b acc).2.allOrders, x.orderId ≠ o.orderId) := by
  induction fuel with
  | zero =>
    intro b acc o B0 hfuel hwf hb hfreeB hfreeA helig himp0
    exfalso
    have hz : ordersFuel b.allOrders = 0 := by
      have hf := hfuel
      rw [loopFuel_eq] at hf
      omega
    have hnil : b.allOrders = [] := ordersFuel_eq_zero hz
    have hmem : o ∈ b.allOrders := by
      refine List.mem_append_left _ ?_
      rw [hb, ladderOrders_cons]
      exact List.mem_append_left _ (List.mem_cons_self _ _)
    rw [hnil] at hmem
    cases hmem
  | succ fuel ih =>
    intro b acc o B0 hfuel hwf hb hfreeB hfreeA helig himp0
    unfold matchLoop
    rw [hb]
    cases ha : b.asks with
    | nil =>
      exfalso
      have helig0 : b.oppositeLiquidity Side.Buy o.price = 0 := by
        rw [oppLiq_buy, ha]
        rfl
      rw [helig0] at helig
      obtain ⟨ap, aq, restA, haeq, _⟩ := himp0 (by omega)
      rw [ha] at haeq
      cases haeq
    | cons atop restAsks =>
      obtain ⟨ap, aq⟩ := atop
      have haskmem : ∀ x ∈ ladderOrders b.asks, ap ≤ x.price := by
        intro x hxm
        refine head_le_of_pairwise_lt hwf.asksSorted
          (price_mem_keys (fun pr hpr y hy => ⟨(hwf.asksPlaced pr hpr y hy).1, trivial⟩) hxm) ?_
        rw [ha]
        rfl
      by_cases hlt : o.price < ap
      · exfalso
        have helig0 : b.oppositeLiquidity Side.Buy o.price = 0 := by
          rw [oppLiq_buy]
          have hfil : (ladderOrders b.asks).filter (fun x => decide (x.price ≤ o.price))
              = [] := by
            rw [List.filter_eq_nil_iff]
            intro x hxm
            have hge := haskmem x hxm
            simp only [decide_eq_true_eq]
            omega
          rw [hfil]
          rfl
        rw [helig0] at helig
        obtain ⟨ap', aq', restA', haeq, hle⟩ := himp0 (by omega)
        rw [ha] at haeq
        injection haeq with h1 h2
        injection h1 with hap hq2
        omega
      · cases aq with
        | nil =>
          have hmem : (ap, ([] : List Order)) ∈ b.asks := by
            rw [ha]
            exact List.mem_cons_self _ _
          exact absurd rfl (hwf.asksNE _ hmem)
        | cons ask askRest =>
          simp only [if_neg hlt]
          have haskpl := hwf.asksPlaced _ (by rw [ha]; exact List.mem_cons_self _ _)
            ask (List.mem_cons_self _ _)
          have haskle : ask.price ≤ o.price := by
            have hp1 : ask.price = ap := haskpl.1
            omega
          have haskladder : ladderOrders b.asks = ask :: (askRest ++ ladderOrders restAsks) := by
            rw [ha, ladderOrders_cons, List.cons_append]
          have heligcons : b.oppositeLiquidity Side.Buy o.price
              = ask.remainingQuantity + (((askRest ++ ladderOrders restAsks).filter
                  (fun x => decide (x.price ≤ o.price))).map Order.remainingQuantity).sum := by
            rw [oppLiq_buy, haskladder, filterSumLE_cons, if_pos haskle]
          have hstep := matchStep_WF b o.price ap o ask [] askRest B0 restAsks hb ha hwf
          have hfuel' : (matchStep b o.price ap o ask [] askRest B0 restAsks).2.loopFuel
              ≤ fuel := by
            have h2 := hstep.2
            omega
          have hqb : min o.remainingQuantity ask.remainingQuantity ≤ o.remainingQuantity :=
            Nat.min_le_left _ _
          have hqa : min o.remainingQuantity ask.remainingQuantity ≤ ask.remainingQuantity :=
            Nat.min_le_right _ _
          have hmin : min o.remainingQuantity ask.remainingQuantity = o.remainingQuantity
              ∨ min o.remainingQuantity ask.remainingQuantity = ask.remainingQuantity := by
            rcases Nat.le_total o.remainingQuantity ask.remainingQuantity with h | h
            · exact Or.inl (Nat.min_eq_left h)
            · exact Or.inr (Nat.min_eq_right h)
          have hS2bids : (matchStep b o.price ap o ask [] askRest B0 restAsks).2.bids
              = sideAfterFill o.price []
                  (o.Fill (min o.remainingQuantity ask.remainingQuantity)) B0 := rfl
          have hS2asks : (matchStep b o.price ap o ask [] askRest B0 restAsks).2.asks
              = sideAfterFill ap askRest
                  (ask.Fill (min o.remainingQuantity ask.remainingQuantity)) restAsks := rfl
          have hfreeA' : ∀ x ∈ ladderOrders (sideAfterFill ap askRest
              (ask.Fill (min o.remainingQuantity ask.remainingQuantity)) restAsks),
              x.orderId ≠ o.orderId := by
            intro x hx
            have hxid := (sideAfterFill_ids ap askRest ask
              (ask.Fill (min o.remainingQuantity ask.remainingQuantity)) restAsks rfl).subset
              (List.mem_map_of_mem Order.orderId hx)
            have hxid' : x.orderId ∈ (ladderOrders b.asks).map Order.orderId := by
              rw [haskladder, List.map_cons]
              exact hxid
            obtain ⟨y, hy, hyid⟩ := List.mem_map.mp hxid'
            rw [← hyid]
            exact hfreeA y hy
          by_cases hofill : min o.remainingQuantity ask.remainingQuantity = o.remainingQuantity
          · -- the incoming order fills completely on this pairing
            have hbfill : (o.Fill (min o.remainingQuantity ask.remainingQuantity)).IsFilled
                = true := by
              simp [Order.IsFilled, Order.Fill, hofill]
            have hS2b : (matchStep b o.price ap o ask [] askRest B0 restAsks).2.bids = B0 := by
              rw [hS2bids]
              unfold sideAfterFill
              rw [if_pos hbfill, if_pos (show ([] : List Order).isEmpty = true from rfl)]
            have hfreeS2 : ∀ x ∈ (matchStep b o.price ap o ask [] askRest B0
                restAsks).2.allOrders, x.orderId ≠ o.orderId := by
              intro x hx
              have hx' : x ∈ ladderOrders (matchStep b o.price ap o ask [] askRest B0
                    restAsks).2.bids
                  ++ ladderOrders (matchStep b o.price ap o ask [] askRest B0
                    restAsks).2.asks := hx
              rw [hS2b, hS2asks] at hx'
              rcases List.mem_append.mp hx' with h | h
              · exact hfreeB x h
              · exact hfreeA' x h
            have hid := matchLoop_id_free fuel _
              (acc ++ [(matchStep b o.price ap o ask [] askRest B0 restAsks).1])
              o.orderId hfuel' hstep.1 hfreeS2
            show buyTraded o.orderId (matchLoop fuel
                (matchStep b o.price ap o ask [] askRest B0 restAsks).2
                (acc ++ [(matchStep b o.price ap o ask [] askRest B0 restAsks).1])).1
              = buyTraded o.orderId acc + o.remainingQuantity
              ∧ (∀ x ∈ (matchLoop fuel
                (matchStep b o.price ap o ask [] askRest B0 restAsks).2
                (acc ++ [(matchStep b o.price ap o ask [] askRest B0
                  restAsks).1])).2.allOrders, x.orderId ≠ o.orderId)
            refine ⟨?_, hid.2.2⟩
            rw [hid.1, buyTraded_append, buyTraded_single]
            rw [if_pos (show (matchStep b o.price ap o ask [] askRest B0
              restAsks).1.bidTrade.orderId = o.orderId from rfl)]
            show buyTraded o.orderId acc + min o.remainingQuantity ask.remainingQuantity
              = buyTraded o.orderId acc + o.remainingQuantity
            omega
          · -- the incoming order survives the pairing; the top ask is consumed
            have hqe : min o.remainingQuantity ask.remainingQuantity
                = ask.remainingQuantity := hmin.resolve_left hofill
            have hnotfill : (o.Fill (min o.remainingQuantity ask.remainingQuantity)).IsFilled
                = false := by
              simp only [Order.IsFilled, Order.Fill, beq_eq_false_iff_ne, ne_eq]
              omega
            have hafill : (ask.Fill (min o.remainingQuantity ask.remainingQuantity)).IsFilled
                = true := by
              simp [Order.IsFilled, Order.Fill, hqe]
            have hS2b : (matchStep b o.price ap o ask [] askRest B0 restAsks).2.bids
                = (o.price, [o.Fill (min o.remainingQuantity ask.remainingQuantity)]) :: B0 := by
              rw [hS2bids]
              unfold sideAfterFill
              rw [if_neg (by rw [hnotfill]; simp)]
            have hS2alad : ladderOrders (matchStep b o.price ap o ask [] askRest B0
                restAsks).2.asks = askRest ++ ladderOrders restAsks := by
              rw [hS2asks, ladderOrders_sideAfterFill, hafill, if_pos rfl]
            have heligS2 : (matchStep b o.price ap o ask [] askRest B0
                restAsks).2.oppositeLiquidity Side.Buy o.price
                = (((askRest ++ ladderOrders restAsks).filter
                    (fun x => decide (x.price ≤ o.price))).map Order.remainingQuantity).sum := by
              rw [oppLiq_buy, hS2alad]
            have hrempos : 0 < o.remainingQuantity
                - min o.remainingQuantity ask.remainingQuantity := by
              omega
            have ihres := ih _
              (acc ++ [(matchStep b o.price ap o ask [] askRest B0 restAsks).1])
              (o.Fill (min o.remainingQuantity ask.remainingQuantity)) B0 hfuel' hstep.1
              hS2b
              (fun x hx => hfreeB x hx)
              (fun x hx => hfreeA' x hx)
              (by
                show o.remainingQuantity - min o.remainingQuantity ask.remainingQuantity
                  ≤ (matchStep b o.price ap o ask [] askRest B0
                    restAsks).2.oppositeLiquidity Side.Buy o.price
                rw [heligS2]
                rw [heligcons] at helig
                omega)
              (fun h0 => absurd (show o.remainingQuantity
                - min o.remainingQuantity ask.remainingQuantity = 0 from h0) (by omega))
            have ihres1 : buyTraded o.orderId (matchLoop fuel
                (matchStep b o.price ap o ask [] askRest B0 restAsks).2
                (acc ++ [(matchStep b o.price ap o ask [] askRest B0 restAsks).1])).1
              = buyTraded o.orderId
                  (acc ++ [(matchStep b o.price ap o ask [] askRest B0 restAsks).1])
                + (o.remainingQuantity - min o.remainingQuantity ask.remainingQuantity) :=
              ihres.1
            have ihres2 : ∀ x ∈ (matchLoop fuel
                (matchStep b o.price ap o ask [] askRest B0 restAsks).2
                (acc ++ [(matchStep b o.price ap o ask [] askRest B0
                  restAsks).1])).2.allOrders, x.orderId ≠ o.orderId :=
              ihres.2
            show buyTraded o.orderId (matchLoop fuel
                (matchStep b o.price ap o ask [] askRest B0 restAsks).2
                (acc ++ [(matchStep b o.price ap o ask [] askRest B0 restAsks).1])).1
              = buyTraded o.orderId acc + o.remainingQuantity
              ∧ (∀ x ∈ (matchLoop fuel
                (matchStep b o.price ap o ask [] askRest B0 restAsks).2
                (acc ++ [(matchStep b o.price ap o ask [] askRest B0
                  restAsks).1])).2.allOrders, x.orderId ≠ o.orderId)
            refine ⟨?_, ihres2⟩
            rw [ihres1, buyTraded_append, buyTraded_single]
            rw [if_pos (show (matchStep b o.price ap o ask [] askRest B0
              restAsks).1.bidTrade.orderId = o.orderId from rfl)]
            show buyTraded o.orderId acc + min o.remainingQuantity ask.remainingQuantity
                + (o.remainingQuantity - min o.remainingQuantity ask.remainingQuantity)
              = buyTraded o.orderId acc + o.remainingQuantity
            omega

/-- Mirror of `matchLoop_fok_buy` for an incoming Sell that heads the ask
ladder as the sole order of its bucket. -/
theorem matchLoop_fok_sell (fuel : Nat) :
    ∀ (b : Orderbook) (acc : List Trade) (o : Order) (A0 : List (Int × List Order)),
    b.loopFuel ≤ fuel → b.WF →
    b.asks = (o.price, [o]) :: A0 →
    (∀ x ∈ ladderOrders A0, x.orderId ≠ o.orderId) →
    (∀ x ∈ ladderOrders b.bids, x.orderId ≠ o.orderId) →
    o.remainingQuantity ≤ b.oppositeLiquidity Side.Sell o.price →
    (o.remainingQuantity = 0 →
      ∃ bp bq restB, b.bids = (bp, bq) :: restB ∧ o.price ≤ bp) →
    sellTraded o.orderId (matchLoop fuel b acc).1
        = sellTraded o.orderId acc + o.remainingQuantity
    ∧ (∀ x ∈ (matchLoop fuel b acc).2.allOrders, x.orderId ≠ o.orderId) := by
  induction fuel with
  | zero =>
    intro b acc o A0 hfuel hwf ha hfreeA hfreeB helig himp0
    exfalso
    have hz : ordersFuel b.allOrders = 0 := by
      have hf := hfuel
      rw [loopFuel_eq] at hf
      omega
    have hnil : b.allOrders = [] := ordersFuel_eq_zero hz
    have hmem : o ∈ b.allOrders := by
      refine List.mem_append_right _ ?_
      rw [ha, ladderOrders_cons]
      exact List.mem_append_left _ (List.mem_cons_self _ _)
    rw [hnil] at hmem
    cases hmem
  | succ fuel ih =>
    intro b acc o A0 hfuel hwf ha hfreeA hfreeB helig himp0
    unfold matchLoop
    rw [ha]
    cases hbd : b.bids with
    | nil =>
      exfalso
      have helig0 : b.oppositeLiquidity Side.Sell o.price = 0 := by
        rw [oppLiq_sell, hbd]
        rfl
      rw [helig0] at helig
      obtain ⟨bp, bq, restB, hbeq, _⟩ := himp0 (by omega)
      rw [hbd] at hbeq
      cases hbeq
    | cons btop restBids =>
      obtain ⟨bp, bq⟩ := btop
      have hbidmem : ∀ x ∈ ladderOrders b.bids, x.price ≤ bp := by
        intro x hxm
        refine le_head_of_pairwise_gt hwf.bidsSorted
          (price_mem_keys (fun pr hpr y hy => ⟨(hwf.bidsPlaced pr hpr y hy).1, trivial⟩) hxm) ?_
        rw [hbd]
        rfl
      by_cases hlt : bp < o.price
      · exfalso
        have helig0 : b.oppositeLiquidity Side.Sell o.price = 0 := by
          rw [oppLiq_sell]
          have hfil : (ladderOrders b.bids).filter (fun x => decide (o.price ≤ x.price))
              = [] := by
            rw [List.filter_eq_nil_iff]
            intro x hxm
            have hle := hbidmem x hxm
            simp only [decide_eq_true_eq]
            omega
          rw [hfil]
          rfl
        rw [helig0] at helig
        obtain ⟨bp', bq', restB', hbeq, hle⟩ := himp0 (by omega)
        rw [hbd] at hbeq
        injection hbeq with h1 h2
        injection h1 with hbp hq2
        omega
      · cases bq with
        | nil =>
          have hmem : (bp, ([] : List Order)) ∈ b.bids := by
            rw [hbd]
            exact List.mem_cons_self _ _
          exact absurd rfl (hwf.bidsNE _ hmem)
        | cons x xRest =>
          simp only [if_neg hlt]
          have hbidpl := hwf.bidsPlaced _ (by rw [hbd]; exact List.mem_cons_self _ _)
            x (List.mem_cons_self _ _)
          have hbidge : o.price ≤ x.price := by
            have hp1 : x.price = bp := hbidpl.1
            omega
          have hbidladder : ladderOrders b.bids = x :: (xRest ++ ladderOrders restBids) := by
            rw [hbd, ladderOrders_cons, List.cons_append]
          have heligcons : b.oppositeLiquidity Side.Sell o.price
              = x.remainingQuantity + (((xRest ++ ladderOrders restBids).filter
                  (fun y => decide (o.price ≤ y.price))).map Order.remainingQuantity).sum := by
            rw [oppLiq_sell, hbidladder, filterSumGE_cons, if_pos hbidge]
          have hstep := matchStep_WF b bp o.price x o xRest [] restBids A0 hbd ha hwf
          have hfuel' : (matchStep b bp o.price x o xRest [] restBids A0).2.loopFuel
              ≤ fuel := by
            have h2 := hstep.2
            omega
          have hqb : min x.remainingQuantity o.remainingQuantity ≤ x.remainingQuantity :=
            Nat.min_le_left _ _
          have hqa : min x.remainingQuantity o.remainingQuantity ≤ o.remainingQuantity :=
            Nat.min_le_right _ _
          have hmin : min x.remainingQuantity o.remainingQuantity = x.remainingQuantity
              ∨ min x.remainingQuantity o.remainingQuantity = o.remainingQuantity := by
            rcases Nat.le_total x.remainingQuantity o.remainingQuantity with h | h
            · exact Or.inl (Nat.min_eq_left h)
            · exact Or.inr (Nat.min_eq_right h)
          have hS2bids : (matchStep b bp o.price x o xRest [] restBids A0).2.bids
              = sideAfterFill bp xRest
                  (x.Fill (min x.remainingQuantity o.remainingQuantity)) restBids := rfl
          have hS2asks : (matchStep b bp o.price x o xRest [] restBids A0).2.asks
              = sideAfterFill o.price []
                  (o.Fill (min x.remainingQuantity o.remainingQuantity)) A0 := rfl
          have hfreeB' : ∀ y ∈ ladderOrders (sideAfterFill bp xRest
              (x.Fill (min x.remainingQuantity o.remainingQuantity)) restBids),
              y.orderId ≠ o.orderId := by
            intro y hy
            have hyid := (sideAfterFill_ids bp xRest x
              (x.Fill (min x.remainingQuantity o.remainingQuantity)) restBids rfl).subset
              (List.mem_map_of_mem Order.orderId hy)
            have hyid' : y.orderId ∈ (ladderOrders b.bids).map Order.orderId := by
              rw [hbidladder, List.map_cons]
              exact hyid
            obtain ⟨z, hz, hzid⟩ := List.mem_map.mp hyid'
            rw [← hzid]
            exact hfreeB z hz
          by_cases hofill : min x.remainingQuantity o.remainingQuantity = o.remainingQuantity
          · have hafill : (o.Fill (min x.remainingQuantity o.remainingQuantity)).IsFilled
                = true := by
              simp [Order.IsFilled, Order.Fill, hofill]
            have hS2a : (matchStep b bp o.price x o xRest [] restBids A0).2.asks = A0 := by
              rw [hS2asks]
              unfold sideAfterFill
              rw [if_pos hafill, if_pos (show ([] : List Order).isEmpty = true from rfl)]
            have hfreeS2 : ∀ y ∈ (matchStep b bp o.price x o xRest []
                restBids A0).2.allOrders, y.orderId ≠ o.orderId := by
              intro y hy
              have hy' : y ∈ ladderOrders (matchStep b bp o.price x o xRest []
                    restBids A0).2.bids
                  ++ ladderOrders (matchStep b bp o.price x o xRest []
                    restBids A0).2.asks := hy
              rw [hS2bids, hS2a] at hy'
              rcases List.mem_append.mp hy' with h | h
              · exact hfreeB' y h
              · exact hfreeA y h
            have hid := matchLoop_id_free fuel _
              (acc ++ [(matchStep b bp o.price x o xRest [] restBids A0).1])
              o.orderId hfuel' hstep.1 hfreeS2
            show sellTraded o.orderId (matchLoop fuel
                (matchStep b bp o.price x o xRest [] restBids A0).2
                (acc ++ [(matchStep b bp o.price x o xRest [] restBids A0).1])).1
              = sellTraded o.orderId acc + o.remainingQuantity
              ∧ (∀ y ∈ (matchLoop fuel
                (matchStep b bp o.price x o xRest [] restBids A0).2
                (acc ++ [(matchStep b bp o.price x o xRest []
                  restBids A0).1])).2.allOrders, y.orderId ≠ o.orderId)
            refine ⟨?_, hid.2.2⟩
            rw [hid.2.1, sellTraded_append, sellTraded_single]
            rw [if_pos (show (matchStep b bp o.price x o xRest []
              restBids A0).1.askTrade.orderId = o.orderId from rfl)]
            show sellTraded o.orderId acc + min x.remainingQuantity o.remainingQuantity
              = sellTraded o.orderId acc + o.remainingQuantity
            omega
          · have hqe : min x.remainingQuantity o.remainingQuantity
                = x.remainingQuantity := hmin.resolve_right hofill
            have hnotfill : (o.Fill (min x.remainingQuantity o.remainingQuantity)).IsFilled
                = false := by
              simp only [Order.IsFilled, Order.Fill, beq_eq_false_iff_ne, ne_eq]
              omega
            have hbfill : (x.Fill (min x.remainingQuantity o.remainingQuantity)).IsFilled
                = true := by
              simp [Order.IsFilled, Order.Fill, hqe]
            have hS2a : (matchStep b bp o.price x o xRest [] restBids A0).2.asks
                = (o.price, [o.Fill (min x.remainingQuantity o.remainingQuantity)]) :: A0 := by
              rw [hS2asks]
              unfold sideAfterFill
              rw [if_neg (by rw [hnotfill]; simp)]
            have hS2blad : ladderOrders (matchStep b bp o.price x o xRest []
                restBids A0).2.bids = xRest ++ ladderOrders restBids := by
              rw [hS2bids, ladderOrders_sideAfterFill, hbfill, if_pos rfl]
            have heligS2 : (matchStep b bp o.price x o xRest []
                restBids A0).2.oppositeLiquidity Side.Sell o.price
                = (((xRest ++ ladderOrders restBids).filter
                    (fun y => decide (o.price ≤ y.price))).map Order.remainingQuantity).sum := by
              rw [oppLiq_sell, hS2blad]
            have ihres := ih _
              (acc ++ [(matchStep b bp o.price x o xRest [] restBids A0).1])
              (o.Fill (min x.remainingQuantity o.remainingQuantity)) A0 hfuel' hstep.1
              hS2a
              (fun y hy => hfreeA y hy)
              (fun y hy => hfreeB' y hy)
              (by
                show o.remainingQuantity - min x.remainingQuantity o.remainingQuantity
                  ≤ (matchStep b bp o.price x o xRest []
                    restBids A0).2.oppositeLiquidity Side.Sell o.price
                rw [heligS2]
                rw [heligcons] at helig
                omega)
              (fun h0 => absurd (show o.remainingQuantity
                - min x.remainingQuantity o.remainingQuantity = 0 from h0) (by omega))
            have ihres1 : sellTraded o.orderId (matchLoop fuel
                (matchStep b bp o.price x o xRest [] restBids A0).2
                (acc ++ [(matchStep b bp o.price x o xRest [] restBids A0).1])).1
              = sellTraded o.orderId
                  (acc ++ [(matchStep b bp o.price x o xRest [] restBids A0).1])
                + (o.remainingQuantity - min x.remainingQuantity o.remainingQuantity) :=
              ihres.1
            have ihres2 : ∀ y ∈ (matchLoop fuel
                (matchStep b bp o.price x o xRest [] restBids A0).2
                (acc ++ [(matchStep b bp o.price x o xRest []
                  restBids A0).1])).2.allOrders, y.orderId ≠ o.orderId :=
              ihres.2
            show sellTraded o.orderId (matchLoop fuel
                (matchStep b bp o.price x o xRest [] restBids A0).2
                (acc ++ [(matchStep b bp o.price x o xRest [] restBids A0).1])).1
              = sellTraded o.orderId acc + o.remainingQuantity
              ∧ (∀ y ∈ (matchLoop fuel
                (matchStep b bp o.price x o xRest [] restBids A0).2
                (acc ++ [(matchStep b bp o.price x o xRest []
                  restBids A0).1])).2.allOrders, y.orderId ≠ o.orderId)
            refine ⟨?_, ihres2⟩
            rw [ihres1, sellTraded_append, sellTraded_single]
            rw [if_pos (show (matchStep b bp o.price x o xRest []
              restBids A0).1.askTrade.orderId = o.orderId from rfl)]
            show sellTraded o.orderId acc + min x.remainingQuantity o.remainingQuantity
                + (o.remainingQuantity - min x.remainingQuantity o.remainingQuantity)
              = sellTraded o.orderId acc + o.remainingQuantity
            omega

/-- A fresh FillOrKill order whose `CanFullyFill` check fails is silently
rejected, whether or not it could partially match. -/
theorem addOrder_fok_reject_full (b : Orderbook) (o : Order)
    (hfresh : b.ordersContains o.orderId = false)
    (hty : o.orderType = OrderType.FillOrKill)
    (hcf : b.CanFullyFill o.side o.price o.initialQuantity = false) :
    b.AddOrder o = ([], b) := by
  unfold Orderbook.AddOrder
  rw [if_neg (by rw [hfresh]; simp)]
  rw [if_neg (by rw [hty]; decide)]
  show (if (o.orderType == OrderType.FillAndKill && !(b.CanMatch o.side o.price)) = true
      then (([] : List Trade), b)
    else if (o.orderType == OrderType.FillOrKill
        && !(b.CanFullyFill o.side o.price o.initialQuantity)) = true
      then (([] : List Trade), b)
    else ((match o.side with
        | Side.Buy => { b with bids := bidsAdd b.bids o.price o }
        | Side.Sell => { b with asks := asksAdd b.asks o.price o }).OnOrderAdded o).MatchOrders)
    = ([], b)
  rw [if_neg (by rw [hty]; simp)]
  rw [if_pos (by rw [hty, hcf]; simp)]

/-- A fresh FillOrKill order whose `CanFullyFill` check passes proceeds to
insertion and matching. -/
theorem addOrder_fok_proceed (b : Orderbook) (o : Order)
    (hfresh : b.ordersContains o.orderId = false)
    (hty : o.orderType = OrderType.FillOrKill)
    (hcff : b.CanFullyFill o.side o.price o.initialQuantity = true) :
    b.AddOrder o = ((match o.side with
      | Side.Buy => { b with bids := bidsAdd b.bids o.price o }
      | Side.Sell => { b with asks := asksAdd b.asks o.price o }).OnOrderAdded o).MatchOrders := by
  unfold Orderbook.AddOrder
  rw [if_neg (by rw [hfresh]; simp)]
  rw [if_neg (by rw [hty]; decide)]
  show (if (o.orderType == OrderType.FillAndKill && !(b.CanMatch o.side o.price)) = true
      then (([] : List Trade), b)
    else if (o.orderType == OrderType.FillOrKill
        && !(b.CanFullyFill o.side o.price o.initialQuantity)) = true
      then (([] : List Trade), b)
    else ((match o.side with
        | Side.Buy => { b with bids := bidsAdd b.bids o.price o }
        | Side.Sell => { b with asks := asksAdd b.asks o.price o }).OnOrderAdded o).MatchOrders)
    = ((match o.side with
        | Side.Buy => { b with bids := bidsAdd b.bids o.price o }
        | Side.Sell => { b with asks := asksAdd b.asks o.price o }).OnOrderAdded o).MatchOrders
  rw [if_neg (by rw [hty]; simp)]
  rw [if_neg (by rw [hty, hcff]; simp)]

/-- Claim C3.  On a well-formed, non-crossing book, `AddOrder` of a FillOrKill
order (carrying `remainingQuantity = initialQuantity`, as the `Order`
constructor guarantees) either executes it completely — the returned trades
attribute exactly its initial quantity to its id on its own side and its id is
absent from the book afterwards — or does not execute it at all, returning no
trades and leaving the book unchanged; a FillOrKill order never rests and
never partially fills. -/
theorem fok_all_or_nothing (b : Orderbook) (o : Order)
    (hwf : b.WF) (hnc : b.NonCrossing)
    (hty : o.orderType = OrderType.FillOrKill)
    (hrem : o.remainingQuantity = o.initialQuantity) :
    ((b.AddOrder o).1 = [] ∧ (b.AddOrder o).2 = b)
    ∨ ((match o.side with
        | Side.Buy => buyTraded o.orderId (b.AddOrder o).1
        | Side.Sell => sellTraded o.orderId (b.AddOrder o).1) = o.initialQuantity
      ∧ (b.AddOrder o).2.ordersContains o.orderId = false) := by
  by_cases hdup : b.ordersContains o.orderId = true
  · left
    have hnoop : b.AddOrder o = ([], b) := by
      unfold Orderbook.AddOrder
      rw [if_pos hdup]
    rw [hnoop]
    exact ⟨rfl, rfl⟩
  · have hfresh : b.ordersContains o.orderId = false := by
      cases hc : b.ordersContains o.orderId
      · rfl
      · exact absurd hc hdup
    by_cases hcff : b.CanFullyFill o.side o.price o.initialQuantity = true
    · right
      have hproceed := addOrder_fok_proceed b o hfresh hty hcff
      have hcm := canFullyFill_canMatch hcff
      cases hside : o.side with
      | Buy =>
        rw [hside] at hcm hcff
        obtain ⟨ap, aq, restA, haeq, hple⟩ := canMatch_buy_top hcm
        have hproceed' : b.AddOrder o
            = (({ b with bids := bidsAdd b.bids o.price o } : Orderbook).OnOrderAdded
                o).MatchOrders := by
          rw [hproceed, hside]
        have hkeys : ∀ k ∈ (b.bids.map Prod.fst).head?, k < o.price := by
          intro k hk
          have hap : (b.asks.map Prod.fst).head? = some ap := by
            rw [haeq]
            rfl
          have := hnc k hk ap (by rw [hap]; exact rfl)
          omega
        have hfront : bidsAdd b.bids o.price o = (o.price, [o]) :: b.bids :=
          bidsAdd_front b.bids o.price o hkeys
        have hwf2 : (({ b with bids := bidsAdd b.bids o.price o } : Orderbook).OnOrderAdded
            o).WF := by
          have h := insert_WF b o hwf hfresh hrem
          rw [hside] at h
          exact h
        have hB2bids : (({ b with bids := bidsAdd b.bids o.price o }
            : Orderbook).OnOrderAdded o).bids = (o.price, [o]) :: b.bids := by
          show bidsAdd b.bids o.price o = _
          exact hfront
        have hfreeB0 : ∀ x ∈ ladderOrders b.bids, x.orderId ≠ o.orderId := by
          intro x hx heq
          have h1 := not_contains_forall hfresh x (List.mem_append_left _ hx)
          rw [heq] at h1
          simp at h1
        have hfreeA0 : ∀ x ∈ ladderOrders (({ b with bids := bidsAdd b.bids o.price o }
            : Orderbook).OnOrderAdded o).asks, x.orderId ≠ o.orderId := by
          intro x hx heq
          have hx' : x ∈ ladderOrders b.asks := hx
          have h1 := not_contains_forall hfresh x (List.mem_append_right _ hx')
          rw [heq] at h1
          simp at h1
        have helig : o.remainingQuantity
            ≤ (({ b with bids := bidsAdd b.bids o.price o }
              : Orderbook).OnOrderAdded o).oppositeLiquidity Side.Buy o.price := by
          have heqliq : (({ b with bids := bidsAdd b.bids o.price o }
              : Orderbook).OnOrderAdded o).oppositeLiquidity Side.Buy o.price
              = b.oppositeLiquidity Side.Buy o.price := rfl
          rw [heqliq]
          by_cases hq0 : o.initialQuantity = 0
          · rw [hrem, hq0]
            exact Nat.zero_le _
          · have hpos : 0 < o.initialQuantity := Nat.pos_of_ne_zero hq0
            have hiff := canFullyFill_liquidity_aux b Side.Buy o.price o.initialQuantity
              hwf hnc hpos
            rw [hrem]
            exact hiff.mp hcff
        have himp0 : o.remainingQuantity = 0 →
            ∃ ap' aq' restA', (({ b with bids := bidsAdd b.bids o.price o }
              : Orderbook).OnOrderAdded o).asks = (ap', aq') :: restA' ∧ ap' ≤ o.price :=
          fun _ => ⟨ap, aq, restA, haeq, hple⟩
        have hloop := matchLoop_fok_buy
          (({ b with bids := bidsAdd b.bids o.price o } : Orderbook).OnOrderAdded o).loopFuel
          (({ b with bids := bidsAdd b.bids o.price o } : Orderbook).OnOrderAdded o) [] o b.bids
          (le_refl _) hwf2 hB2bids hfreeB0 hfreeA0 helig himp0
        have hlwf := (matchLoop_WF
          (({ b with bids := bidsAdd b.bids o.price o } : Orderbook).OnOrderAdded o).loopFuel
          (({ b with bids := bidsAdd b.bids o.price o } : Orderbook).OnOrderAdded o) []
          (le_refl _) hwf2).1
        constructor
        · show buyTraded o.orderId (b.AddOrder o).1 = o.initialQuantity
          have h1 : (b.AddOrder o).1 = (matchLoop
              (({ b with bids := bidsAdd b.bids o.price o }
                : Orderbook).OnOrderAdded o).loopFuel
              (({ b with bids := bidsAdd b.bids o.price o }
                : Orderbook).OnOrderAdded o) []).1 := by
            rw [hproceed']
            rfl
          rw [h1, hloop.1, buyTraded_nil]
          omega
        · have hfree : ∀ x ∈ (b.AddOrder o).2.allOrders, x.orderId ≠ o.orderId := by
            intro x hx
            rw [hproceed'] at hx
            have hx' : x ∈ ((matchLoop
                (({ b with bids := bidsAdd b.bids o.price o }
                  : Orderbook).OnOrderAdded o).loopFuel
                (({ b with bids := bidsAdd b.bids o.price o }
                  : Orderbook).OnOrderAdded o) []).2.pruneTopFillAndKill).allOrders := hx
            have hxsub := pruneTop_subset _ hlwf x hx'
            exact hloop.2 x hxsub
          unfold Orderbook.ordersContains
          rw [List.any_eq_false]
          intro x hx
          simp only [beq_iff_eq]
          exact hfree x hx
      | Sell =>
        rw [hside] at hcm hcff
        obtain ⟨bp, bq, restB, hbeq, hple⟩ := canMatch_sell_top hcm
        have hproceed' : b.AddOrder o
            = (({ b with asks := asksAdd b.asks o.price o } : Orderbook).OnOrderAdded
                o).MatchOrders := by
          rw [hproceed, hside]
        have hkeys : ∀ k ∈ (b.asks.map Prod.fst).head?, o.price < k := by
          intro k hk
          have hbp : (b.bids.map Prod.fst).head? = some bp := by
            rw [hbeq]
            rfl
          have := hnc bp (by rw [hbp]; exact rfl) k hk
          omega
        have hfront : asksAdd b.asks o.price o = (o.price, [o]) :: b.asks :=
          asksAdd_front b.asks o.price o hkeys
        have hwf2 : (({ b with asks := asksAdd b.asks o.price o } : Orderbook).OnOrderAdded
            o).WF := by
          have h := insert_WF b o hwf hfresh hrem
          rw [hside] at h
          exact h
        have hB2asks : (({ b with asks := asksAdd b.asks o.price o }
            : Orderbook).OnOrderAdded o).asks = (o.price, [o]) :: b.asks := by
          show asksAdd b.asks o.price o = _
          exact hfront
        have hfreeA0 : ∀ x ∈ ladderOrders b.asks, x.orderId ≠ o.orderId := by
          intro x hx heq
          have h1 := not_contains_forall hfresh x (List.mem_append_right _ hx)
          rw [heq] at h1
          simp at h1
        have hfreeB0 : ∀ x ∈ ladderOrders (({ b with asks := asksAdd b.asks o.price o }
            : Orderbook).OnOrderAdded o).bids, x.orderId ≠ o.orderId := by
          intro x hx heq
          have hx' : x ∈ ladderOrders b.bids := hx
          have h1 := not_contains_forall hfresh x (List.mem_append_left _ hx')
          rw [heq] at h1
          simp at h1
        have helig : o.remainingQuantity
            ≤ (({ b with asks := asksAdd b.asks o.price o }
              : Orderbook).OnOrderAdded o).oppositeLiquidity Side.Sell o.price := by
          have heqliq : (({ b with asks := asksAdd b.asks o.price o }
              : Orderbook).OnOrderAdded o).oppositeLiquidity Side.Sell o.price
              = b.oppositeLiquidity Side.Sell o.price := rfl
          rw [heqliq]
          by_cases hq0 : o.initialQuantity = 0
          · rw [hrem, hq0]
            exact Nat.zero_le _
          · have hpos : 0 < o.initialQuantity := Nat.pos_of_ne_zero hq0
            have hiff := canFullyFill_liquidity_aux b Side.Sell o.price o.initialQuantity
              hwf hnc hpos
            rw [hrem]
            exact hiff.mp hcff
        have himp0 : o.remainingQuantity = 0 →
            ∃ bp' bq' restB', (({ b with asks := asksAdd b.asks o.price o }
              : Orderbook).OnOrderAdded o).bids = (bp', bq') :: restB' ∧ o.price ≤ bp' :=
          fun _ => ⟨bp, bq, restB, hbeq, hple⟩
        have hloop := matchLoop_fok_sell
          (({ b with asks := asksAdd b.asks o.price o } : Orderbook).OnOrderAdded o).loopFuel
          (({ b with asks := asksAdd b.asks o.price o } : Orderbook).OnOrderAdded o) [] o b.asks
          (le_refl _) hwf2 hB2asks hfreeA0 hfreeB0 helig himp0
        have hlwf := (matchLoop_WF
          (({ b with asks := asksAdd b.asks o.price o } : Orderbook).OnOrderAdded o).loopFuel
          (({ b with asks := asksAdd b.asks o.price o } : Orderbook).OnOrderAdded o) []
          (le_refl _) hwf2).1
        constructor
        · show sellTraded o.orderId (b.AddOrder o).1 = o.initialQuantity
          have h1 : (b.AddOrder o).1 = (matchLoop
              (({ b with asks := asksAdd b.asks o.price o }
                : Orderbook).OnOrderAdded o).loopFuel
              (({ b with asks := asksAdd b.asks o.price o }
                : Orderbook).OnOrderAdded o) []).1 := by
            rw [hproceed']
            rfl
          rw [h1, hloop.1, sellTraded_nil]
          omega
        · have hfree : ∀ x ∈ (b.AddOrder o).2.allOrders, x.orderId ≠ o.orderId := by
            intro x hx
            rw [hproceed'] at hx
            have hx' : x ∈ ((matchLoop
                (({ b with asks := asksAdd b.asks o.price o }
                  : Orderbook).OnOrderAdded o).loopFuel
                (({ b with asks := asksAdd b.asks o.price o }
                  : Orderbook).OnOrderAdded o) []).2.pruneTopFillAndKill).allOrders := hx
            have hxsub := pruneTop_subset _ hlwf x hx'
            exact hloop.2 x hxsub
          unfold Orderbook.ordersContains
          rw [List.any_eq_false]
          intro x hx
          simp only [beq_iff_eq]
          exact hfree x hx
    · left
      have hcf : b.CanFullyFill o.side o.price o.initialQuantity = false := by
        cases hc : b.CanFullyFill o.side o.price o.initialQuantity
        · rfl
        · exact absurd hc hcff
      have hnoop := addOrder_fok_reject_full b o hfresh hty hcf
      rw [hnoop]
      exact ⟨rfl, rfl⟩

/-- Witness for `fok_all_or_nothing`: the FillOrKill buy `(id 2, Buy, 100, 5)`
against the book holding the single ask `(id 1, Sell, 100, 5)` fills
completely. -/
theorem fok_all_or_nothing_witness :
    (((Orderbook.mk [((100 : Int), ⟨5, 1⟩)] []
        [((100 : Int), [⟨OrderType.GoodTillCancel, 1, Side.Sell, 100, 5, 5⟩])]).AddOrder
          ⟨OrderType.FillOrKill, 2, Side.Buy, 100, 5, 5⟩).1 = []
      ∧ ((Orderbook.mk [((100 : Int), ⟨5, 1⟩)] []
        [((100 : Int), [⟨OrderType.GoodTillCancel, 1, Side.Sell, 100, 5, 5⟩])]).AddOrder
          ⟨OrderType.FillOrKill, 2, Side.Buy, 100, 5, 5⟩).2
        = Orderbook.mk [((100 : Int), ⟨5, 1⟩)] []
          [((100 : Int), [⟨OrderType.GoodTillCancel, 1, Side.Sell, 100, 5, 5⟩])])
    ∨ (buyTraded 2 ((Orderbook.mk [((100 : Int), ⟨5, 1⟩)] []
        [((100 : Int), [⟨OrderType.GoodTillCancel, 1, Side.Sell, 100, 5, 5⟩])]).AddOrder
          ⟨OrderType.FillOrKill, 2, Side.Buy, 100, 5, 5⟩).1 = 5
      ∧ ((Orderbook.mk [((100 : Int), ⟨5, 1⟩)] []
        [((100 : Int), [⟨OrderType.GoodTillCancel, 1, Side.Sell, 100, 5, 5⟩])]).AddOrder
          ⟨OrderType.FillOrKill, 2, Side.Buy, 100, 5, 5⟩).2.ordersContains 2 = false) :=
  fok_all_or_nothing _ ⟨OrderType.FillOrKill, 2, Side.Buy, 100, 5, 5⟩
    ⟨by decide, by decide, by decide, by decide, by decide, by decide, by decide, by decide,
      consistentWith_of_forall _ _ (by decide) (by decide)⟩
    (by
      intro bp hbp ap hap
      simp at hbp)
    rfl
    rfl
